import Mathlib

/-!
# Buffer manager (buf.C): clock replacement over a pinned page pool

A shallow embedding of `BufMgr` from `src/buf.C`.  The state of the C++ object
(descriptor table, page pool, hash table, clock hand, statistics) is a record;
every member function is a function from states to a status and a new state.
The file layer (`File::readPage`, `writePage`, `allocatePage`, `disposePage`)
is external to `buf.C` and is a parameter of every operation, together with its
own state, so that any success or failure of an I/O call is covered.  A ghost
trace records the calls made to the file layer and the mutating calls made to
the hash table, in program order.

Integers: `pinCnt` and `pageNo` are C `int`s and are modelled by `Int`
(no wrap-around: signed overflow is not defined in C++); indices and counters
are `Nat`.
-/

namespace BufMgr

/-- Status codes used by buf.C; `OTHER` stands for the remaining codes of error.h
that the file layer may hand back. -/
inductive Status where
  | OK
  | BUFFEREXCEEDED
  | UNIXERR
  | HASHTBLERROR
  | HASHNOTFOUND
  | PAGENOTPINNED
  | PAGEPINNED
  | BADBUFFER
  | OTHER (code : Nat)
  deriving DecidableEq, Repr

/-- A `File*`: the identity of a file handle; `NULL` is 0. -/
abbrev FilePtr := Nat

/-- The null file pointer. -/
abbrev NULL : FilePtr := 0

/-- Contents of one page (its bytes read as one number; all-zero bytes is 0). -/
abbrev Page := Nat

/-- Frame descriptor, class `BufDesc`. -/
structure BufDesc where
  file : FilePtr
  pageNo : Int
  frameNo : Nat
  pinCnt : Int
  dirty : Bool
  valid : Bool
  refbit : Bool
  deriving DecidableEq, Repr

/-- A descriptor as `memset(bufTable, 0, ...)` leaves it. -/
instance : Inhabited BufDesc := ⟨⟨NULL, 0, 0, 0, false, false, false⟩⟩

/-- Modelled from the spec: the inline methods `BufDesc::Clear` and `BufDesc::Set`
live in buf.h, which is not among the sources.  The spec fixes the fields
`valid`, `dirty`, `pinCnt` (and `refbit` for `Clear`); what `Clear` leaves in
`file` and `pageNo`, and the reference bit `Set` leaves, are taken as parameters. -/
structure DescOps where
  clearFile : FilePtr → FilePtr
  clearPageNo : Int → Int
  setRefbit : Bool

/-- Modelled from the spec: `BufDesc::Clear` resets the descriptor to
`valid=false, dirty=false, pin_count=0, ref_bit=false`; `frameNo` is immutable. -/
def BufDesc.Clear (H : DescOps) (d : BufDesc) : BufDesc :=
  { d with pinCnt := 0, file := H.clearFile d.file, pageNo := H.clearPageNo d.pageNo,
           dirty := false, refbit := false, valid := false }

/-- Modelled from the spec: `BufDesc::Set(file, pageNo)` sets
`valid=true, dirty=false, pin_count=1, file_id=file, page_no=pno`. -/
def BufDesc.Set (H : DescOps) (d : BufDesc) (filePtr : FilePtr) (pageNum : Int) : BufDesc :=
  { d with file := filePtr, pageNo := pageNum, pinCnt := 1, dirty := false, valid := true,
           refbit := H.setRefbit }

/-- One entry `(file, pageNo) -> frameNo` of the buffer hash table. -/
structure HashEntry where
  file : FilePtr
  pageNo : Int
  frameNo : Nat
  deriving DecidableEq, Repr

/-- Modelled from the spec: the hash table (class `BufHashTbl`, not among the
sources) is a finite map from `(file, pageNo)` to a frame index, kept as a list
of entries. -/
abbrev BufHashTbl := List HashEntry

/-- Does entry `e` carry the key `(file, pageNo)`? -/
def HashEntry.hasKey (file : FilePtr) (pageNo : Int) (e : HashEntry) : Bool :=
  e.file == file && e.pageNo == pageNo

/-- Modelled from the spec: `lookup(file, pno)` is `Found(frame)` or `NotFound`;
the out-parameter `frameNo` is written only when the key is found. -/
def BufHashTbl.lookup (ht : BufHashTbl) (file : FilePtr) (pageNo : Int) (frameNo : Nat) :
    Status × Nat :=
  match ht.find? (HashEntry.hasKey file pageNo) with
  | some e => (Status.OK, e.frameNo)
  | none => (Status.HASHNOTFOUND, frameNo)

/-- Modelled from the spec: `insert(file, pno, frame)` rejects a duplicate key
with an error and otherwise adds the entry. -/
def BufHashTbl.insert (ht : BufHashTbl) (file : FilePtr) (pageNo : Int) (frameNo : Nat) :
    Status × BufHashTbl :=
  if ht.any (HashEntry.hasKey file pageNo) then (Status.HASHTBLERROR, ht)
  else (Status.OK, ⟨file, pageNo, frameNo⟩ :: ht)

/-- Modelled from the spec: `remove(file, pno)` deletes the entry of the key, or
reports that there is none. -/
def BufHashTbl.remove (ht : BufHashTbl) (file : FilePtr) (pageNo : Int) :
    Status × BufHashTbl :=
  if ht.any (HashEntry.hasKey file pageNo) then
    (Status.OK, ht.eraseP (HashEntry.hasKey file pageNo))
  else (Status.HASHNOTFOUND, ht)

/-- Statistics counters, class `BufStats`. -/
structure BufStats where
  accesses : Nat
  diskreads : Nat
  diskwrites : Nat
  deriving DecidableEq, Repr

/-- Ghost record of a call that leaves the buffer manager: a file-layer call or
a mutating hash-table call, with its arguments. -/
inductive Event where
  | fileRead (file : FilePtr) (pageNo : Int)
  | fileWrite (file : FilePtr) (pageNo : Int) (data : Page)
  | fileAllocate (file : FilePtr)
  | fileDispose (file : FilePtr) (pageNo : Int)
  | hashInsert (file : FilePtr) (pageNo : Int) (frameNo : Nat)
  | hashRemove (file : FilePtr) (pageNo : Int)
  deriving DecidableEq, Repr

/-- Is the event a call of `File::writePage`? -/
def Event.isWrite : Event → Bool
  | .fileWrite _ _ _ => true
  | _ => false

/-- The file layer consumed by buf.C (class `File`, external): each call takes
the state `σ` of the storage and returns a status, its output and the new
storage state.  `readPage` receives the old bytes of the destination and returns
the bytes it leaves there; `allocatePage` receives the old value of its
out-parameter and returns the value it leaves there. -/
structure FileLayer (σ : Type) where
  readPage : σ → FilePtr → Int → Page → Status × Page × σ
  writePage : σ → FilePtr → Int → Page → Status × σ
  allocatePage : σ → FilePtr → Int → Status × Int × σ
  disposePage : σ → FilePtr → Int → Status × σ

end BufMgr

/-- The buffer manager object, class `BufMgr`, with the state `disk` of the file
layer and the ghost `trace` of outgoing calls. -/
structure BufMgr (σ : Type) where
  numBufs : Nat
  bufTable : List BufMgr.BufDesc
  bufPool : List BufMgr.Page
  hashTable : BufMgr.BufHashTbl
  clockHand : Nat
  bufStats : BufMgr.BufStats
  disk : σ
  trace : List BufMgr.Event
  deriving DecidableEq, Repr

namespace BufMgr

variable {σ : Type}

/-- The descriptor `bufTable[i]`. -/
def desc (s : BufMgr σ) (i : Nat) : BufDesc := s.bufTable.getD i default

/-- The page `bufPool[i]`. -/
def page (s : BufMgr σ) (i : Nat) : Page := s.bufPool.getD i 0

/-- Assignment to `bufTable[i]`. -/
def setDesc (s : BufMgr σ) (i : Nat) (d : BufDesc) : BufMgr σ :=
  { s with bufTable := s.bufTable.set i d }

/-- Constructor `BufMgr::BufMgr(bufs)` (lines 22-41); `disk` is the state of the
file layer at that time.  The statistics counters start at 0 and the hash table
starts empty (their constructors are in buf.h). -/
def new (bufs : Nat) (disk : σ) : BufMgr σ :=
  { numBufs := bufs
    bufTable := (List.range bufs).map fun i =>
      { (default : BufDesc) with frameNo := i, valid := false }
    bufPool := List.replicate bufs 0
    hashTable := []
    clockHand := bufs - 1
    bufStats := ⟨0, 0, 0⟩
    disk := disk
    trace := [] }

/-- Modelled from the spec: `advanceClock` (buf.h) is
`clock_hand := (clock_hand + 1) mod numBufs`. -/
def advanceClock (s : BufMgr σ) : BufMgr σ :=
  { s with clockHand := (s.clockHand + 1) % s.numBufs }

/-- Outcome of one pass through the body of the `while (true)` loop of
`allocBuf`: either `continue` with the new `numPinned`, or `return`. -/
inductive Iter (σ : Type) where
  | next (numPinned : Nat) (s : BufMgr σ)
  | ret (status : Status) (frame : Nat) (s : BufMgr σ)

/-- The tail of the loop body of `BufMgr::allocBuf` once a victim is written
back (lines 106-116): unlink the victim from the hash table, clear it, return it. -/
def allocBufEvict (H : DescOps) (frame : Nat) (buf : BufDesc) (s : BufMgr σ) : Iter σ :=
  let h := s.hashTable.remove buf.file buf.pageNo
  let s1 := { s with hashTable := h.2,
                     trace := s.trace ++ [Event.hashRemove buf.file buf.pageNo] }
  if h.1 ≠ .OK then .ret .HASHTBLERROR frame s1
  else .ret .OK s1.clockHand (setDesc s1 s1.clockHand (buf.Clear H))

/-- One pass through the loop body of `BufMgr::allocBuf` (lines 71-116).
`frame` is the current value of the reference parameter. -/
def allocBufIter (L : FileLayer σ) (H : DescOps) (numPinned frame : Nat) (s0 : BufMgr σ) :
    Iter σ :=
  let s := advanceClock s0
  let buf := desc s s.clockHand
  if !buf.valid then
    .ret .OK s.clockHand s
  else if buf.pinCnt > 0 then
    if numPinned + 1 ≥ s.numBufs then .ret .BUFFEREXCEEDED frame s
    else .next (numPinned + 1) s
  else if buf.refbit then
    .next numPinned (setDesc s s.clockHand { buf with refbit := false })
  else if buf.dirty then
    let r := L.writePage s.disk buf.file buf.pageNo (page s buf.frameNo)
    let s1 := { s with disk := r.2,
                       trace := s.trace ++ [Event.fileWrite buf.file buf.pageNo (page s buf.frameNo)] }
    if r.1 ≠ .OK then .ret .UNIXERR frame s1
    else allocBufEvict H frame buf
      { s1 with bufStats := { s1.bufStats with diskwrites := s1.bufStats.diskwrites + 1 } }
  else allocBufEvict H frame buf s

/-- The `while (true)` loop of `BufMgr::allocBuf`, run for at most `fuel` passes;
`none` when the passes are used up before the loop returns. -/
def allocBufLoop (L : FileLayer σ) (H : DescOps) :
    Nat → Nat → Nat → BufMgr σ → Option (Status × Nat × BufMgr σ)
  | 0, _, _, _ => none
  | fuel + 1, numPinned, frame, s =>
    match allocBufIter L H numPinned frame s with
    | .next numPinned1 s1 => allocBufLoop L H fuel numPinned1 frame s1
    | .ret status frame1 s1 => some (status, frame1, s1)

/-- Function `BufMgr::allocBuf(frame)` (lines 66-118): `numPinned` starts at 0;
the loop is given `2 * numBufs` passes (theorem `allocBuf_returns`: it never
needs more).  Result: status, value of `frame`, new state. -/
def allocBuf (L : FileLayer σ) (H : DescOps) (frame : Nat) (s : BufMgr σ) :
    Option (Status × Nat × BufMgr σ) :=
  allocBufLoop L H (2 * s.numBufs) 0 frame s

/-- Function `BufMgr::readPage(file, PageNo, page)` (lines 121-179).  Result: status,
the frame `page` was pointed at (`none`: `page` not assigned), new state. -/
def readPage (L : FileLayer σ) (H : DescOps) (file : FilePtr) (PageNo : Int) (s : BufMgr σ) :
    Option (Status × Option Nat × BufMgr σ) :=
  let lk := s.hashTable.lookup file PageNo 0
  if lk.1 = .OK then
    let frameNo := lk.2
    let buf := desc s frameNo
    let s1 := setDesc s frameNo { buf with pinCnt := buf.pinCnt + 1, refbit := true }
    some (.OK, some frameNo,
      { s1 with bufStats := { s1.bufStats with accesses := s1.bufStats.accesses + 1 } })
  else if lk.1 = .HASHNOTFOUND then
    match allocBuf L H 0 s with
    | none => none
    | some (status, frame, s1) =>
      if status ≠ .OK then some (status, none, s1)
      else
        let r := L.readPage s1.disk file PageNo (page s1 frame)
        let s2 := { s1 with disk := r.2.2, bufPool := s1.bufPool.set frame r.2.1,
                            trace := s1.trace ++ [Event.fileRead file PageNo] }
        if r.1 ≠ .OK then some (.UNIXERR, none, s2)
        else
          let s3 := { s2 with bufStats := { s2.bufStats with
                                diskreads := s2.bufStats.diskreads + 1,
                                accesses := s2.bufStats.accesses + 1 } }
          let h := s3.hashTable.insert file PageNo frame
          let s4 := { s3 with hashTable := h.2,
                              trace := s3.trace ++ [Event.hashInsert file PageNo frame] }
          if h.1 ≠ .OK then some (.HASHTBLERROR, none, s4)
          else some (.OK, some frame, setDesc s4 frame ((desc s4 frame).Set H file PageNo))
  else some (.HASHTBLERROR, none, s)

/-- Function `BufMgr::unPinPage(file, PageNo, dirty)` (lines 183-211). -/
def unPinPage (file : FilePtr) (PageNo : Int) (dirty : Bool) (s : BufMgr σ) :
    Status × BufMgr σ :=
  let lk := s.hashTable.lookup file PageNo 0
  if lk.1 ≠ .OK then (.HASHNOTFOUND, s)
  else
    let frameNo := lk.2
    let buf := desc s frameNo
    if buf.pinCnt = 0 then (.PAGENOTPINNED, s)
    else
      let buf1 := { buf with pinCnt := buf.pinCnt - 1 }
      let buf2 := if dirty then { buf1 with dirty := true } else buf1
      (.OK, setDesc s frameNo buf2)

/-- Function `BufMgr::allocPage(file, pageNo, page)` (lines 214-249); `pageNo` is
the incoming value of the reference parameter.  Result: status, value of
`pageNo`, the frame `page` was pointed at, new state. -/
def allocPage (L : FileLayer σ) (H : DescOps) (file : FilePtr) (pageNo : Int) (s : BufMgr σ) :
    Option (Status × Int × Option Nat × BufMgr σ) :=
  let a := L.allocatePage s.disk file pageNo
  let pageNo1 := a.2.1
  let s1 := { s with disk := a.2.2, trace := s.trace ++ [Event.fileAllocate file] }
  if a.1 ≠ .OK then some (.UNIXERR, pageNo1, none, s1)
  else
    match allocBuf L H 0 s1 with
    | none => none
    | some (status, frame, s2) =>
      if status ≠ .OK then some (status, pageNo1, none, s2)
      else
        let s3 := { s2 with bufPool := s2.bufPool.set frame 0 }
        let h := s3.hashTable.insert file pageNo1 frame
        let s4 := { s3 with hashTable := h.2,
                            trace := s3.trace ++ [Event.hashInsert file pageNo1 frame] }
        if h.1 ≠ .OK then some (.HASHTBLERROR, pageNo1, none, s4)
        else
          let s5 := setDesc s4 frame ((desc s4 frame).Set H file pageNo1)
          some (.OK, pageNo1, some frame,
            { s5 with bufStats := { s5.bufStats with accesses := s5.bufStats.accesses + 1 } })

/-- Function `BufMgr::disposePage(file, pageNo)` (lines 251-266). -/
def disposePage (L : FileLayer σ) (H : DescOps) (file : FilePtr) (pageNo : Int) (s : BufMgr σ) :
    Status × BufMgr σ :=
  let lk := s.hashTable.lookup file pageNo 0
  let s1 := if lk.1 = .OK then setDesc s lk.2 ((desc s lk.2).Clear H) else s
  let h := s1.hashTable.remove file pageNo
  let s2 := { s1 with hashTable := h.2, trace := s1.trace ++ [Event.hashRemove file pageNo] }
  let r := L.disposePage s2.disk file pageNo
  (r.1, { s2 with disk := r.2, trace := s2.trace ++ [Event.fileDispose file pageNo] })

/-- The part of the loop body of `BufMgr::flushFile` that unlinks and invalidates
frame `i` (lines 291-295). -/
def flushFrame (file : FilePtr) (i : Nat) (s : BufMgr σ) : BufMgr σ :=
  let tmpbuf := desc s i
  let h := s.hashTable.remove file tmpbuf.pageNo
  let s1 := { s with hashTable := h.2, trace := s.trace ++ [Event.hashRemove file tmpbuf.pageNo] }
  setDesc s1 i { tmpbuf with file := NULL, pageNo := -1, valid := false }

/-- The `for` loop of `BufMgr::flushFile` (lines 272-300) from index `i`, with
`n` indices left to visit. -/
def flushFileLoop (L : FileLayer σ) (file : FilePtr) : Nat → Nat → BufMgr σ → Status × BufMgr σ
  | 0, _, s => (.OK, s)
  | n + 1, i, s =>
    let tmpbuf := desc s i
    if tmpbuf.valid = true ∧ tmpbuf.file = file then
      if tmpbuf.pinCnt > 0 then (.PAGEPINNED, s)
      else if tmpbuf.dirty = true then
        let r := L.writePage s.disk tmpbuf.file tmpbuf.pageNo (page s i)
        let s1 := { s with disk := r.2,
                           trace := s.trace ++ [Event.fileWrite tmpbuf.file tmpbuf.pageNo (page s i)] }
        if r.1 ≠ .OK then (r.1, s1)
        else
          flushFileLoop L file n (i + 1)
            (flushFrame file i (setDesc s1 i { tmpbuf with dirty := false }))
      else flushFileLoop L file n (i + 1) (flushFrame file i s)
    else if tmpbuf.valid = false ∧ tmpbuf.file = file then (.BADBUFFER, s)
    else flushFileLoop L file n (i + 1) s

/-- Function `BufMgr::flushFile(file)` (lines 268-303). -/
def flushFile (L : FileLayer σ) (file : FilePtr) (s : BufMgr σ) : Status × BufMgr σ :=
  flushFileLoop L file s.numBufs 0 s

end BufMgr

namespace BufMgr

variable {σ : Type}

/-! ## State predicates -/

/-- Shape of a buffer manager object: at least one frame, both arrays have
`numBufs` elements, the clock hand is an index, and `bufTable[i].frameNo = i`
(what the constructor establishes and no member function changes). -/
def WF (s : BufMgr σ) : Prop :=
  1 ≤ s.numBufs ∧ s.bufTable.length = s.numBufs ∧ s.bufPool.length = s.numBufs ∧
  s.clockHand < s.numBufs ∧ ∀ i, i < s.numBufs → (desc s i).frameNo = i

/-- Pin counts are non-negative (the data model's reading of `pin_count`). -/
def PinsNonneg (s : BufMgr σ) : Prop :=
  ∀ i, i < s.numBufs → 0 ≤ (desc s i).pinCnt

/-- I1: every valid frame has exactly one hash entry with its key, and that
entry maps the key to the frame. -/
def I1 (s : BufMgr σ) : Prop :=
  ∀ i, i < s.numBufs → (desc s i).valid = true →
    s.hashTable.filter (HashEntry.hasKey (desc s i).file (desc s i).pageNo)
      = [⟨(desc s i).file, (desc s i).pageNo, i⟩]

/-- I2: every hash entry names a frame that is valid and holds the entry's key. -/
def I2 (s : BufMgr σ) : Prop :=
  ∀ e, e ∈ s.hashTable → e.frameNo < s.numBufs ∧ (desc s e.frameNo).valid = true ∧
    (desc s e.frameNo).file = e.file ∧ (desc s e.frameNo).pageNo = e.pageNo

/-- I3: no two valid frames hold the same `(file, pageNo)`. -/
def I3 (s : BufMgr σ) : Prop :=
  ∀ i, i < s.numBufs → ∀ j, j < s.numBufs →
    (desc s i).valid = true → (desc s j).valid = true →
    (desc s i).file = (desc s j).file ∧ (desc s i).pageNo = (desc s j).pageNo → i = j

/-- The hash/frame invariant I1-I3. -/
def HashInv (s : BufMgr σ) : Prop := I1 s ∧ I2 s ∧ I3 s

instance (s : BufMgr σ) : Decidable (WF s) :=
  inferInstanceAs (Decidable (1 ≤ s.numBufs ∧ s.bufTable.length = s.numBufs ∧
    s.bufPool.length = s.numBufs ∧ s.clockHand < s.numBufs ∧
    ∀ i, i < s.numBufs → (desc s i).frameNo = i))

instance (s : BufMgr σ) : Decidable (PinsNonneg s) :=
  inferInstanceAs (Decidable (∀ i, i < s.numBufs → 0 ≤ (desc s i).pinCnt))

instance (s : BufMgr σ) : Decidable (I1 s) :=
  inferInstanceAs (Decidable (∀ i, i < s.numBufs → (desc s i).valid = true →
    s.hashTable.filter (HashEntry.hasKey (desc s i).file (desc s i).pageNo)
      = [⟨(desc s i).file, (desc s i).pageNo, i⟩]))

instance (s : BufMgr σ) : Decidable (I2 s) :=
  inferInstanceAs (Decidable (∀ e, e ∈ s.hashTable → e.frameNo < s.numBufs ∧
    (desc s e.frameNo).valid = true ∧
    (desc s e.frameNo).file = e.file ∧ (desc s e.frameNo).pageNo = e.pageNo))

instance (s : BufMgr σ) : Decidable (I3 s) :=
  inferInstanceAs (Decidable (∀ i, i < s.numBufs → ∀ j, j < s.numBufs →
    (desc s i).valid = true → (desc s j).valid = true →
    (desc s i).file = (desc s j).file ∧ (desc s i).pageNo = (desc s j).pageNo → i = j))

instance (s : BufMgr σ) : Decidable (HashInv s) :=
  inferInstanceAs (Decidable (I1 s ∧ I2 s ∧ I3 s))

/-- The key view of frame `i`: its valid flag, file and page number. -/
def vkey (s : BufMgr σ) (i : Nat) : Bool × FilePtr × Int :=
  ((desc s i).valid, (desc s i).file, (desc s i).pageNo)

/-- No two entries of the table carry the same key. -/
def KeysDistinct (ht : BufHashTbl) : Prop :=
  ht.Pairwise fun a b => ¬ (a.file = b.file ∧ a.pageNo = b.pageNo)

/-- The hash/frame invariant over the components it reads: the number of frames,
the table, and the key view of the frames. -/
def Linked (N : Nat) (ht : BufHashTbl) (v : Nat → Bool × FilePtr × Int) : Prop :=
  (∀ i, i < N → (v i).1 = true → (⟨(v i).2.1, (v i).2.2, i⟩ : HashEntry) ∈ ht) ∧
  (∀ e, e ∈ ht → e.frameNo < N ∧ v e.frameNo = (true, e.file, e.pageNo)) ∧
  KeysDistinct ht

/-- State `m` differs from `s` at most in the clock hand and in reference bits
that were cleared on valid frames with no pin. -/
def RefOnly (s m : BufMgr σ) : Prop :=
  m.numBufs = s.numBufs ∧ m.bufPool = s.bufPool ∧ m.hashTable = s.hashTable ∧
  m.bufStats = s.bufStats ∧ m.disk = s.disk ∧ m.trace = s.trace ∧
  m.bufTable.length = s.bufTable.length ∧
  ∀ i, desc m i = desc s i ∨
    (desc m i = { desc s i with refbit := false } ∧ (desc s i).valid = true ∧
      ¬ (desc s i).pinCnt > 0)

/-- The state after the write-back of the frame under the clock hand succeeded
(lines 99-103): storage state and trace updated, `diskwrites` incremented. -/
def wroteBack (L : FileLayer σ) (m : BufMgr σ) : BufMgr σ :=
  let b := desc m m.clockHand
  { m with
    disk := (L.writePage m.disk b.file b.pageNo (page m b.frameNo)).2
    trace := m.trace ++ [Event.fileWrite b.file b.pageNo (page m b.frameNo)]
    bufStats := { m.bufStats with diskwrites := m.bufStats.diskwrites + 1 } }

/-- The state after the optional write-back of the victim under the clock hand. -/
def afterWrite (L : FileLayer σ) (m : BufMgr σ) : BufMgr σ :=
  if (desc m m.clockHand).dirty then wroteBack L m else m

/-- The five ways a pass of the `allocBuf` loop returns, read off lines 74-116;
`m` is the state once the clock has been advanced for that pass. -/
inductive AllocOutcome (L : FileLayer σ) (H : DescOps) (frame : Nat) (m : BufMgr σ) :
    Status → Nat → BufMgr σ → Prop where
  | free : (desc m m.clockHand).valid = false →
      AllocOutcome L H frame m .OK m.clockHand m
  | exceeded : (desc m m.clockHand).valid = true → (desc m m.clockHand).pinCnt > 0 →
      AllocOutcome L H frame m .BUFFEREXCEEDED frame m
  | writeFailed : (desc m m.clockHand).valid = true → ¬ (desc m m.clockHand).pinCnt > 0 →
      (desc m m.clockHand).refbit = false → (desc m m.clockHand).dirty = true →
      (L.writePage m.disk (desc m m.clockHand).file (desc m m.clockHand).pageNo
        (page m (desc m m.clockHand).frameNo)).1 ≠ .OK →
      AllocOutcome L H frame m .UNIXERR frame
        { m with
          disk := (L.writePage m.disk (desc m m.clockHand).file (desc m m.clockHand).pageNo
            (page m (desc m m.clockHand).frameNo)).2
          trace := m.trace ++ [Event.fileWrite (desc m m.clockHand).file
            (desc m m.clockHand).pageNo (page m (desc m m.clockHand).frameNo)] }
  | removeFailed : (desc m m.clockHand).valid = true → ¬ (desc m m.clockHand).pinCnt > 0 →
      (desc m m.clockHand).refbit = false →
      ((desc m m.clockHand).dirty = true →
        (L.writePage m.disk (desc m m.clockHand).file (desc m m.clockHand).pageNo
          (page m (desc m m.clockHand).frameNo)).1 = .OK) →
      (m.hashTable.remove (desc m m.clockHand).file (desc m m.clockHand).pageNo).1 ≠ .OK →
      AllocOutcome L H frame m .HASHTBLERROR frame
        { afterWrite L m with
          hashTable := (m.hashTable.remove (desc m m.clockHand).file
            (desc m m.clockHand).pageNo).2
          trace := (afterWrite L m).trace ++
            [Event.hashRemove (desc m m.clockHand).file (desc m m.clockHand).pageNo] }
  | evicted : (desc m m.clockHand).valid = true → ¬ (desc m m.clockHand).pinCnt > 0 →
      (desc m m.clockHand).refbit = false →
      ((desc m m.clockHand).dirty = true →
        (L.writePage m.disk (desc m m.clockHand).file (desc m m.clockHand).pageNo
          (page m (desc m m.clockHand).frameNo)).1 = .OK) →
      (m.hashTable.remove (desc m m.clockHand).file (desc m m.clockHand).pageNo).1 = .OK →
      AllocOutcome L H frame m .OK m.clockHand
        (setDesc
          { afterWrite L m with
            hashTable := (m.hashTable.remove (desc m m.clockHand).file
              (desc m m.clockHand).pageNo).2
            trace := (afterWrite L m).trace ++
              [Event.hashRemove (desc m m.clockHand).file (desc m m.clockHand).pageNo] }
          m.clockHand ((desc m m.clockHand).Clear H))

/-- I6: a dirty frame is valid, and a pinned frame is valid. -/
def I6 (s : BufMgr σ) : Prop :=
  ∀ i, i < s.numBufs → ((desc s i).dirty = true → (desc s i).valid = true) ∧
    ((desc s i).pinCnt > 0 → (desc s i).valid = true)

/-- The representation invariant of the buffer manager: its shape and the
hash/frame invariant. -/
def Good (s : BufMgr σ) : Prop := WF s ∧ HashInv s

/-- The caller stores `data` through the page pointer it holds for frame `k`. -/
def writeBytes (k : Nat) (data : Page) (s : BufMgr σ) : BufMgr σ :=
  { s with bufPool := s.bufPool.set k data }

/-- The states a buffer manager object goes through: the constructor's state
(for a pool of at least one frame), and the state after any call of `readPage`,
`unPinPage`, `allocPage`, `disposePage` or `flushFile`, whatever its status;
between calls the caller may store into page bytes. -/
inductive Reachable (L : FileLayer σ) (H : DescOps) : BufMgr σ → Prop where
  | init (bufs : Nat) (disk : σ) : 1 ≤ bufs → Reachable L H (BufMgr.new bufs disk)
  | readPage {s : BufMgr σ} (file : FilePtr) (PageNo : Int) {st : Status} {pg : Option Nat}
      {s' : BufMgr σ} : Reachable L H s → readPage L H file PageNo s = some (st, pg, s') →
      Reachable L H s'
  | unPinPage {s : BufMgr σ} (file : FilePtr) (PageNo : Int) (dirty : Bool) :
      Reachable L H s → Reachable L H (unPinPage file PageNo dirty s).2
  | allocPage {s : BufMgr σ} (file : FilePtr) (pageNo : Int) {st : Status} {pn : Int}
      {pg : Option Nat} {s' : BufMgr σ} : Reachable L H s →
      allocPage L H file pageNo s = some (st, pn, pg, s') → Reachable L H s'
  | disposePage {s : BufMgr σ} (file : FilePtr) (pageNo : Int) :
      Reachable L H s → Reachable L H (disposePage L H file pageNo s).2
  | flushFile {s : BufMgr σ} (file : FilePtr) :
      Reachable L H s → Reachable L H (flushFile L file s).2
  | writeBytes {s : BufMgr σ} (k : Nat) (data : Page) :
      Reachable L H s → Reachable L H (writeBytes k data s)

/-- Number of descriptors whose reference bit the clock may still clear: valid,
not pinned, reference bit set. -/
def clearable (s : BufMgr σ) : Nat :=
  s.bufTable.countP fun d => d.valid && !decide (d.pinCnt > 0) && d.refbit

/-- Every frame is valid and pinned. -/
def AllPinned (s : BufMgr σ) : Prop :=
  ∀ i, i < s.numBufs → (desc s i).valid = true ∧ (desc s i).pinCnt > 0

instance (s : BufMgr σ) : Decidable (AllPinned s) :=
  inferInstanceAs (Decidable (∀ i, i < s.numBufs →
    (desc s i).valid = true ∧ (desc s i).pinCnt > 0))

/-- Reference definition of `unPinPage`, following the spec: a page with no hash
entry gives `HASHNOTFOUND` and no change; a resident page with `pinCnt = 0`
gives `PAGENOTPINNED` and no change; otherwise `OK`, the pin count goes down by
one and the dirty bit becomes `old dirty OR dirty flag`. -/
def unPinPageRef (file : FilePtr) (PageNo : Int) (dirty : Bool) (s : BufMgr σ) :
    Status × BufMgr σ :=
  match s.hashTable.find? (HashEntry.hasKey file PageNo) with
  | none => (.HASHNOTFOUND, s)
  | some e =>
    if (desc s e.frameNo).pinCnt = 0 then (.PAGENOTPINNED, s)
    else (.OK, setDesc s e.frameNo
      { desc s e.frameNo with pinCnt := (desc s e.frameNo).pinCnt - 1,
                              dirty := (desc s e.frameNo).dirty || dirty })

/-- Frame descriptor `d` holds a resident page of `file`: the test
`valid == true && file == file` of `flushFile` (line 274). -/
def owned (file : FilePtr) (d : BufDesc) : Bool := d.valid && d.file == file

/-- The descriptor as `flushFile` leaves it once the frame is flushed (lines
288-295): clean, no file, page number -1, invalid. -/
def flushedDesc (d : BufDesc) : BufDesc :=
  { d with dirty := false, file := NULL, pageNo := -1, valid := false }

/-- The `writePage` calls a flush of `file` owes for frames `i .. i+n-1` of state
`s`, in frame order: one per frame that is valid, owned by `file` and dirty,
with its page number and its bytes. -/
def flushWrites (file : FilePtr) (s : BufMgr σ) (i n : Nat) : List Event :=
  ((List.range' i n).filter fun j => owned file (desc s j) && (desc s j).dirty).map
    fun j => Event.fileWrite file (desc s j).pageNo (page s j)

/-- A descriptor is tidy: its pin count is not negative, and it is valid
whenever it is dirty or pinned. -/
def frameTidy (d : BufDesc) : Prop :=
  0 ≤ d.pinCnt ∧ (d.dirty = true → d.valid = true) ∧ (d.pinCnt > 0 → d.valid = true)

/-- Every frame is valid, has `pinCnt = 0` and has its reference bit set. -/
def AllReferenced (s : BufMgr σ) : Prop :=
  ∀ i, i < s.numBufs →
    (desc s i).valid = true ∧ (desc s i).pinCnt = 0 ∧ (desc s i).refbit = true

instance (s : BufMgr σ) : Decidable (AllReferenced s) :=
  inferInstanceAs (Decidable (∀ i, i < s.numBufs →
    (desc s i).valid = true ∧ (desc s i).pinCnt = 0 ∧ (desc s i).refbit = true))

/-- A call a client makes in a read workload: `readPage(file, pageNo)` or
`unPinPage(file, pageNo, dirty)`. -/
inductive Call where
  | read (file : FilePtr) (pageNo : Int)
  | unpin (file : FilePtr) (pageNo : Int) (dirty : Bool)
  deriving DecidableEq, Repr

/-- The `(file, pageNo)` keys of the `readPage` calls of a workload, in call order. -/
def readKeys : List Call → List (FilePtr × Int)
  | [] => []
  | .read file pageNo :: cs => (file, pageNo) :: readKeys cs
  | .unpin _ _ _ :: cs => readKeys cs

/-- Run the calls of a workload in order.  Result: for each `readPage` call, in
order, its status and the frame its `page` was pointed at; and the final state.
The status of an `unPinPage` call is dropped. -/
def runCalls (L : FileLayer σ) (H : DescOps) :
    List Call → BufMgr σ → Option (List (Status × Option Nat) × BufMgr σ)
  | [], s => some ([], s)
  | .read file pageNo :: cs, s =>
    match readPage L H file pageNo s with
    | none => none
    | some (st, pg, s1) =>
      match runCalls L H cs s1 with
      | none => none
      | some (rs, s2) => some ((st, pg) :: rs, s2)
  | .unpin file pageNo dirty :: cs, s => runCalls L H cs (unPinPage file pageNo dirty s).2

/-- The pool after the keys `ks` were read into a new manager of `N` frames:
frames `0 .. ks.length - 1` hold the keys in order, the others are invalid, the
next clock advance lands on frame `ks.length`, and the counters show one read
per key and no write. -/
def Filled (N : Nat) (ks : List (FilePtr × Int)) (s : BufMgr σ) : Prop :=
  Good s ∧ s.numBufs = N ∧ ks.length ≤ N ∧
  (s.clockHand + 1) % N = ks.length % N ∧
  (∀ i, i < N → ((desc s i).valid = true ↔ i < ks.length)) ∧
  (∀ i key, ks[i]? = some key → (desc s i).file = key.1 ∧ (desc s i).pageNo = key.2) ∧
  s.bufStats.accesses = ks.length ∧ s.bufStats.diskreads = ks.length ∧
  s.bufStats.diskwrites = 0 ∧ (∀ e, e ∈ s.trace → Event.isWrite e = false)

/-- Modelled from the spec: the file layer seen as a page store.  `bytes d file n`
is what the storage `d` holds for page `n` of `file` (`none`: never written).
A `readPage` of a written page succeeds and returns its bytes; a successful
`writePage` makes its bytes the content of the page; a `writePage`, successful
or not, leaves every other page alone. -/
structure IsPageStore (L : FileLayer σ) (bytes : σ → FilePtr → Int → Option Page) :
    Prop where
  read_written : ∀ d file n pg b, bytes d file n = some b →
    (L.readPage d file n pg).1 = Status.OK ∧ (L.readPage d file n pg).2.1 = b
  write_ok : ∀ d file n b, (L.writePage d file n b).1 = Status.OK →
    bytes (L.writePage d file n b).2 file n = some b
  write_other : ∀ d file n b file1 n1, ¬ (file1 = file ∧ n1 = n) →
    bytes (L.writePage d file n b).2 file1 n1 = bytes d file1 n1

/-! ## Example objects -/

/-- A file layer in which every call succeeds; page `n` reads as `n + 100` and a
newly allocated page gets number 7. -/
def okLayer : FileLayer Unit :=
  { readPage := fun d _ n _ => (.OK, n.toNat + 100, d)
    writePage := fun d _ _ _ => (.OK, d)
    allocatePage := fun d _ _ => (.OK, 7, d)
    disposePage := fun d _ _ => (.OK, d) }

/-- A file layer in which every call fails with `OTHER 1` and changes nothing. -/
def failLayer : FileLayer Unit :=
  { readPage := fun d _ _ old => (.OTHER 1, old, d)
    writePage := fun d _ _ _ => (.OTHER 1, d)
    allocatePage := fun d _ old => (.OTHER 1, old, d)
    disposePage := fun d _ _ => (.OTHER 1, d) }

/-- The descriptor methods as the course's buf.h has them: `Clear` nulls the
file and sets the page number to -1, `Set` sets the reference bit. -/
def stdOps : DescOps := ⟨fun _ => NULL, fun _ => -1, true⟩

/-- A pool of two frames after `readPage(file 1, page 5)` on a new manager. -/
def exRead1 : BufMgr Unit :=
  { numBufs := 2
    bufTable := [⟨1, 5, 0, 1, false, true, true⟩, ⟨NULL, 0, 1, 0, false, false, false⟩]
    bufPool := [105, 0]
    hashTable := [⟨1, 5, 0⟩]
    clockHand := 0
    bufStats := ⟨1, 1, 0⟩
    disk := ()
    trace := [Event.fileRead 1 5, Event.hashInsert 1 5 0] }

/-- A pool of two frames that breaks I1 and I3: both frames are valid for page 5
of file 1, frame 0 is pinned, and the only hash entry names frame 0. -/
def exAlias : BufMgr Unit :=
  { numBufs := 2
    bufTable := [⟨1, 5, 0, 1, false, true, false⟩, ⟨1, 5, 1, 0, false, true, false⟩]
    bufPool := [105, 105]
    hashTable := [⟨1, 5, 0⟩]
    clockHand := 0
    bufStats := ⟨2, 2, 0⟩
    disk := ()
    trace := [] }

/-- A pool of one frame that satisfies I1-I3 but whose only frame has the pin
count -1. -/
def exNegPin : BufMgr Unit :=
  { numBufs := 1
    bufTable := [⟨1, 5, 0, -1, false, true, false⟩]
    bufPool := [105]
    hashTable := [⟨1, 5, 0⟩]
    clockHand := 0
    bufStats := ⟨1, 1, 0⟩
    disk := ()
    trace := [] }

/-- A pool of one frame holding page 5 of file 1, unpinned and dirty, with
bytes 42. -/
def exDirty : BufMgr Unit :=
  { numBufs := 1
    bufTable := [⟨1, 5, 0, 0, true, true, false⟩]
    bufPool := [42]
    hashTable := [⟨1, 5, 0⟩]
    clockHand := 0
    bufStats := ⟨1, 1, 0⟩
    disk := ()
    trace := [] }

/-- The state `allocBuf` leaves from `exDirty` over `okLayer` with `stdOps`. -/
def exDirtyEvicted : BufMgr Unit :=
  { numBufs := 1
    bufTable := [⟨NULL, -1, 0, 0, false, false, false⟩]
    bufPool := [42]
    hashTable := []
    clockHand := 0
    bufStats := ⟨1, 1, 1⟩
    disk := ()
    trace := [Event.fileWrite 1 5 42, Event.hashRemove 1 5] }

/-- The pool of two frames after `readPage(1, 5)` and `readPage(1, 6)` on a new
manager. -/
def exRead2 : BufMgr Unit :=
  { numBufs := 2
    bufTable := [⟨1, 5, 0, 1, false, true, true⟩, ⟨1, 6, 1, 1, false, true, true⟩]
    bufPool := [105, 106]
    hashTable := [⟨1, 6, 1⟩, ⟨1, 5, 0⟩]
    clockHand := 1
    bufStats := ⟨2, 2, 0⟩
    disk := ()
    trace := [Event.fileRead 1 5, Event.hashInsert 1 5 0,
              Event.fileRead 1 6, Event.hashInsert 1 6 1] }

/-- The pool `exRead2` after `unPinPage(1, 6, false)`: frame 0 pinned, frame 1
unpinned with its reference bit set, clock hand on frame 1. -/
def exMixed : BufMgr Unit :=
  { exRead2 with
    bufTable := [⟨1, 5, 0, 1, false, true, true⟩, ⟨1, 6, 1, 0, false, true, true⟩] }

/-- The state `allocBuf` leaves from `exMixed`: the reference bit of frame 1 was
cleared and the clock hand stands on frame 0. -/
def exMixedSwept : BufMgr Unit :=
  { exRead2 with
    bufTable := [⟨1, 5, 0, 1, false, true, true⟩, ⟨1, 6, 1, 0, false, true, false⟩]
    clockHand := 0 }

/-- The state `readPage(1, 5)` leaves on a new pool of two frames over
`failLayer`: frame 0 was handed out by `allocBuf` and the file read failed. -/
def exReadFailed : BufMgr Unit :=
  { numBufs := 2
    bufTable := [⟨NULL, 0, 0, 0, false, false, false⟩, ⟨NULL, 0, 1, 0, false, false, false⟩]
    bufPool := [0, 0]
    hashTable := []
    clockHand := 0
    bufStats := ⟨0, 0, 0⟩
    disk := ()
    trace := [Event.fileRead 1 5] }

/-- The pool `exRead1` after another `readPage(1, 5)`: a hit. -/
def exHit : BufMgr Unit :=
  { exRead1 with
    bufTable := [⟨1, 5, 0, 2, false, true, true⟩, ⟨NULL, 0, 1, 0, false, false, false⟩]
    bufStats := ⟨2, 1, 0⟩ }

/-- The pool `exRead2` after `unPinPage(1, 6, true)`. -/
def exUnpinDirty : BufMgr Unit :=
  { exRead2 with
    bufTable := [⟨1, 5, 0, 1, false, true, true⟩, ⟨1, 6, 1, 0, true, true, true⟩] }

/-- The pool `exRead2` with both pages unpinned, page 6 dirty. -/
def exFlushable : BufMgr Unit :=
  { exRead2 with
    bufTable := [⟨1, 5, 0, 0, false, true, true⟩, ⟨1, 6, 1, 0, true, true, true⟩] }

/-- The state `flushFile(1)` leaves from `exFlushable` over `okLayer`. -/
def exFlushed : BufMgr Unit :=
  { exRead2 with
    bufTable := [⟨NULL, -1, 0, 0, false, false, true⟩, ⟨NULL, -1, 1, 0, false, false, true⟩]
    hashTable := []
    trace := exRead2.trace ++
      [Event.hashRemove 1 5, Event.fileWrite 1 6 106, Event.hashRemove 1 6] }

/-- Descriptor methods that follow the spec's words only: `Clear` resets the
four flags and leaves `file` and `pageNo` as they are; `Set` clears the
reference bit. -/
def keepOps : DescOps := ⟨fun f => f, fun n => n, false⟩

/-- The pool of two frames after `readPage(1, 5)`, `disposePage(1, 5)`,
`readPage(1, 6)` on a new manager with `keepOps`: frame 0 is invalid and still
carries file 1, frame 1 holds page 6 of file 1, pinned. -/
def exStale : BufMgr Unit :=
  { numBufs := 2
    bufTable := [⟨1, 5, 0, 0, false, false, false⟩, ⟨1, 6, 1, 1, false, true, false⟩]
    bufPool := [105, 106]
    hashTable := [⟨1, 6, 1⟩]
    clockHand := 1
    bufStats := ⟨2, 2, 0⟩
    disk := ()
    trace := [Event.fileRead 1 5, Event.hashInsert 1 5 0, Event.hashRemove 1 5,
              Event.fileDispose 1 5, Event.fileRead 1 6, Event.hashInsert 1 6 1] }

/-- The pool `exRead2` after `unPinPage(1, 5, false)`: page 5 unpinned, page 6
still pinned. -/
def exHalfPinned : BufMgr Unit :=
  { exRead2 with
    bufTable := [⟨1, 5, 0, 0, false, true, true⟩, ⟨1, 6, 1, 1, false, true, true⟩] }

/-- The state `flushFile(1)` leaves from `exHalfPinned`: frame 0 flushed, the
pinned frame 1 untouched. -/
def exHalfFlushed : BufMgr Unit :=
  { exRead2 with
    bufTable := [⟨NULL, -1, 0, 0, false, false, true⟩, ⟨1, 6, 1, 1, false, true, true⟩]
    hashTable := [⟨1, 6, 1⟩]
    trace := exRead2.trace ++ [Event.hashRemove 1 5] }

/-- The state `allocPage(file 1)` leaves on a new pool of two frames over
`okLayer` (which allocates page number 7). -/
def exAlloc : BufMgr Unit :=
  { numBufs := 2
    bufTable := [⟨1, 7, 0, 1, false, true, true⟩, ⟨NULL, 0, 1, 0, false, false, false⟩]
    bufPool := [0, 0]
    hashTable := [⟨1, 7, 0⟩]
    clockHand := 0
    bufStats := ⟨1, 0, 0⟩
    disk := ()
    trace := [Event.fileAllocate 1, Event.hashInsert 1 7 0] }

/-- The state `disposePage(1, 6)` leaves from `exUnpinDirty` over `okLayer`
with `stdOps`: the dirty page 6 is dropped from frame 1 without a write. -/
def exDisposed : BufMgr Unit :=
  { exRead2 with
    bufTable := [⟨1, 5, 0, 1, false, true, true⟩, ⟨NULL, -1, 1, 0, false, false, false⟩]
    hashTable := [⟨1, 5, 0⟩]
    trace := exRead2.trace ++ [Event.hashRemove 1 6, Event.fileDispose 1 6] }

/-- The pool `exFlushed` is what `flushFile(1)` leaves from `exFlushable`; here
the same pool after a further `readPage(1, 6)`: frame 0, found invalid, takes
the page. -/
def exReread : BufMgr Unit :=
  { exRead2 with
    bufTable := [⟨1, 6, 0, 1, false, true, true⟩, ⟨NULL, -1, 1, 0, false, false, true⟩]
    bufPool := [106, 106]
    hashTable := [⟨1, 6, 0⟩]
    clockHand := 0
    bufStats := ⟨3, 3, 0⟩
    trace := exFlushed.trace ++ [Event.fileRead 1 6, Event.hashInsert 1 6 0] }

/-- The state `allocBuf` leaves from `exDirty` over `failLayer`: the write-back
of the dirty victim failed. -/
def exDirtyKept : BufMgr Unit :=
  { exDirty with trace := [Event.fileWrite 1 5 42] }

/-- Scenario 2 of the spec: a pool of three frames holding pages 0, 1, 2 of
file 1 in frames 0, 1, 2, all unpinned with the reference bit set, clock hand on
frame 2. -/
def exThree : BufMgr Unit :=
  { numBufs := 3
    bufTable := [⟨1, 0, 0, 0, false, true, true⟩, ⟨1, 1, 1, 0, false, true, true⟩,
                 ⟨1, 2, 2, 0, false, true, true⟩]
    bufPool := [100, 101, 102]
    hashTable := [⟨1, 2, 2⟩, ⟨1, 1, 1⟩, ⟨1, 0, 0⟩]
    clockHand := 2
    bufStats := ⟨3, 3, 0⟩
    disk := ()
    trace := [] }

/-- The state `allocBuf` leaves from `exThree`: all reference bits cleared on the
first sweep, page 0 evicted from frame 0 on the second. -/
def exThreeEvicted : BufMgr Unit :=
  { exThree with
    bufTable := [⟨NULL, -1, 0, 0, false, false, false⟩, ⟨1, 1, 1, 0, false, true, false⟩,
                 ⟨1, 2, 2, 0, false, true, false⟩]
    hashTable := [⟨1, 2, 2⟩, ⟨1, 1, 1⟩]
    clockHand := 0
    trace := [Event.hashRemove 1 0] }

/-- The state `readPage(1, 3)` leaves from `exThree`: page 3 sits in frame 0. -/
def exThreeRead : BufMgr Unit :=
  { exThree with
    bufTable := [⟨1, 3, 0, 1, false, true, true⟩, ⟨1, 1, 1, 0, false, true, false⟩,
                 ⟨1, 2, 2, 0, false, true, false⟩]
    bufPool := [103, 101, 102]
    hashTable := [⟨1, 3, 0⟩, ⟨1, 2, 2⟩, ⟨1, 1, 1⟩]
    clockHand := 0
    bufStats := ⟨4, 4, 0⟩
    trace := [Event.hashRemove 1 0, Event.fileRead 1 3, Event.hashInsert 1 3 0] }

/-- A pool of one frame that breaks I1: the frame is valid, unpinned and
referenced, but the hash table is empty. -/
def exOrphan : BufMgr Unit :=
  { numBufs := 1
    bufTable := [⟨1, 5, 0, 0, false, true, true⟩]
    bufPool := [105]
    hashTable := []
    clockHand := 0
    bufStats := ⟨1, 1, 0⟩
    disk := ()
    trace := [] }

/-- A workload of two reads with an unpin in between, for a pool of two frames. -/
def exWorkload : List Call :=
  [Call.read 1 5, Call.unpin 1 5 true, Call.read 1 6]

/-- The state `exWorkload` leaves from a new manager of two frames. -/
def exWorked : BufMgr Unit :=
  { numBufs := 2
    bufTable := [⟨1, 5, 0, 0, true, true, true⟩, ⟨1, 6, 1, 1, false, true, true⟩]
    bufPool := [105, 106]
    hashTable := [⟨1, 6, 1⟩, ⟨1, 5, 0⟩]
    clockHand := 1
    bufStats := ⟨2, 2, 0⟩
    disk := ()
    trace := [Event.fileRead 1 5, Event.hashInsert 1 5 0,
              Event.fileRead 1 6, Event.hashInsert 1 6 1] }

/-- A concrete page store: the writes that succeeded, latest first. -/
abbrev PageStore := List (FilePtr × Int × Page)

/-- The bytes a `PageStore` holds for page `n` of `file`: those of the latest
write of that page, `none` when it was never written. -/
def storeBytes (d : PageStore) (file : FilePtr) (n : Int) : Option Page :=
  (d.find? fun e => e.1 == file && e.2.1 == n).map fun e => e.2.2

/-- A file layer over `PageStore`.  A read returns the stored bytes (0 for a page
never written); a write fails on a file that `ro` marks read-only and is recorded
otherwise; a newly allocated page gets number 7. -/
def storeLayer (ro : FilePtr → Bool) : FileLayer PageStore :=
  { readPage := fun d file n _ => (.OK, (storeBytes d file n).getD 0, d)
    writePage := fun d file n b => if ro file then (.OTHER 1, d) else (.OK, (file, n, b) :: d)
    allocatePage := fun d _ _ => (.OK, 7, d)
    disposePage := fun d _ _ => (.OK, d) }

/-- File 2 is read-only. -/
def readOnly2 (file : FilePtr) : Bool := file == 2

/-- A new manager of two frames after `allocPage(1)` over `storeLayer`: page 7 of
file 1 is pinned in frame 0. -/
def exRound : BufMgr PageStore :=
  { numBufs := 2
    bufTable := [⟨1, 7, 0, 1, false, true, true⟩, ⟨NULL, 0, 1, 0, false, false, false⟩]
    bufPool := [0, 0]
    hashTable := [⟨1, 7, 0⟩]
    clockHand := 0
    bufStats := ⟨1, 0, 0⟩
    disk := []
    trace := [Event.fileAllocate 1, Event.hashInsert 1 7 0] }

/-- The pool `exRound` after the caller stored 42 in frame 0 and called
`unPinPage(1, 7, true)`. -/
def exRoundDirty : BufMgr PageStore :=
  { exRound with
    bufTable := [⟨1, 7, 0, 0, true, true, true⟩, ⟨NULL, 0, 1, 0, false, false, false⟩]
    bufPool := [42, 0] }

/-- The pool `exRoundDirty` after `flushFile(1)`: page 7 is in the store, no frame
is valid. -/
def exRoundFlushed : BufMgr PageStore :=
  { exRoundDirty with
    bufTable := [⟨NULL, -1, 0, 0, false, false, true⟩, ⟨NULL, 0, 1, 0, false, false, false⟩]
    hashTable := []
    disk := [(1, 7, 42)]
    trace := [Event.fileAllocate 1, Event.hashInsert 1 7 0, Event.fileWrite 1 7 42,
              Event.hashRemove 1 7] }

/-- A pool of two frames in which frame 0 holds page 0 of the read-only file 2,
dirty, unpinned and with its reference bit cleared, and frame 1 is free.  It is
reached by `readPage(2,0)`, `unPinPage(2,0,true)`, `readPage(2,1)`, the failing
`readPage(2,2)` and `disposePage(2,1)`. -/
def exBlocked : BufMgr PageStore :=
  { numBufs := 2
    bufTable := [⟨2, 0, 0, 0, true, true, false⟩, ⟨NULL, -1, 1, 0, false, false, false⟩]
    bufPool := [0, 0]
    hashTable := [⟨2, 0, 0⟩]
    clockHand := 0
    bufStats := ⟨2, 2, 0⟩
    disk := []
    trace := [Event.fileRead 2 0, Event.hashInsert 2 0 0, Event.fileRead 2 1,
              Event.hashInsert 2 1 1, Event.fileWrite 2 0 0, Event.hashRemove 2 1,
              Event.fileDispose 2 1] }

/-- The pool `exBlocked` after `allocPage(1)`: page 7 of file 1 is pinned in frame 1. -/
def exBlockedAlloc : BufMgr PageStore :=
  { exBlocked with
    bufTable := [⟨2, 0, 0, 0, true, true, false⟩, ⟨1, 7, 1, 1, false, true, true⟩]
    hashTable := [⟨1, 7, 1⟩, ⟨2, 0, 0⟩]
    clockHand := 1
    bufStats := ⟨3, 2, 0⟩
    trace := exBlocked.trace ++ [Event.fileAllocate 1, Event.hashInsert 1 7 1] }

/-- The pool `exBlockedAlloc` after the caller stored 42 in frame 1 and called
`unPinPage(1, 7, true)`. -/
def exBlockedDirty : BufMgr PageStore :=
  { exBlockedAlloc with
    bufTable := [⟨2, 0, 0, 0, true, true, false⟩, ⟨1, 7, 1, 0, true, true, true⟩]
    bufPool := [0, 42] }

/-- The pool `exBlockedDirty` after `flushFile(1)`: page 7 is in the store and
frame 1 is free again. -/
def exBlockedFlushed : BufMgr PageStore :=
  { exBlockedDirty with
    bufTable := [⟨2, 0, 0, 0, true, true, false⟩, ⟨NULL, -1, 1, 0, false, false, true⟩]
    hashTable := [⟨2, 0, 0⟩]
    disk := [(1, 7, 42)]
    trace := exBlockedAlloc.trace ++ [Event.fileWrite 1 7 42, Event.hashRemove 1 7] }

/-! ## Theorems -/

/-! ### Descriptor table access -/

theorem desc_setDesc_self (s : BufMgr σ) (i : Nat) (d : BufDesc) (h : i < s.bufTable.length) :
    desc (setDesc s i d) i = d := by
  simp [desc, setDesc, List.getD_eq_getElem?_getD, List.getElem?_set, h]

theorem desc_setDesc_ne (s : BufMgr σ) (i j : Nat) (d : BufDesc) (h : i ≠ j) :
    desc (setDesc s i d) j = desc s j := by
  simp [desc, setDesc, List.getD_eq_getElem?_getD, List.getElem?_set, h]

theorem desc_setDesc (s : BufMgr σ) (i j : Nat) (d : BufDesc) :
    desc (setDesc s i d) j = if i = j ∧ i < s.bufTable.length then d else desc s j := by
  by_cases hij : i = j
  · subst hij
    by_cases hl : i < s.bufTable.length
    · simp [hl, desc_setDesc_self]
    · have hl' : s.bufTable.length ≤ i := Nat.le_of_not_lt hl
      simp [desc, setDesc, List.getD_eq_getElem?_getD, List.getElem?_set, hl,
        List.getElem?_eq_none hl']
  · simp [hij, desc_setDesc_ne]

/-! ### Hash table -/

theorem hasKey_iff (file : FilePtr) (pageNo : Int) (e : HashEntry) :
    HashEntry.hasKey file pageNo e = true ↔ e.file = file ∧ e.pageNo = pageNo := by
  simp [HashEntry.hasKey]

theorem keysDistinct_eq {ht : BufHashTbl} (hd : KeysDistinct ht) {a b : HashEntry}
    (ha : a ∈ ht) (hb : b ∈ ht) (hf : a.file = b.file) (hp : a.pageNo = b.pageNo) : a = b := by
  induction ht with
  | nil => cases ha
  | cons x t ih =>
    rw [KeysDistinct, List.pairwise_cons] at hd
    rcases List.mem_cons.1 ha with rfl | ha'
    · rcases List.mem_cons.1 hb with rfl | hb'
      · rfl
      · exact absurd ⟨hf, hp⟩ (hd.1 b hb')
    · rcases List.mem_cons.1 hb with rfl | hb'
      · exact absurd ⟨hf.symm, hp.symm⟩ (hd.1 a ha')
      · exact ih hd.2 ha' hb'

theorem mem_eraseP_key {ht : BufHashTbl} (hd : KeysDistinct ht) (file : FilePtr) (pageNo : Int)
    (e : HashEntry) :
    e ∈ ht.eraseP (HashEntry.hasKey file pageNo) ↔
      e ∈ ht ∧ ¬ (e.file = file ∧ e.pageNo = pageNo) := by
  induction ht with
  | nil => simp
  | cons x t ih =>
    rw [KeysDistinct, List.pairwise_cons] at hd
    by_cases hx : HashEntry.hasKey file pageNo x = true
    · rw [List.eraseP_cons_of_pos hx]
      have hx' := (hasKey_iff _ _ _).1 hx
      constructor
      · intro he
        refine ⟨List.mem_cons_of_mem _ he, ?_⟩
        intro hk
        exact hd.1 e he ⟨hx'.1.trans hk.1.symm, hx'.2.trans hk.2.symm⟩
      · rintro ⟨he, hk⟩
        rcases List.mem_cons.1 he with rfl | he'
        · exact absurd hx' hk
        · exact he'
    · rw [List.eraseP_cons_of_neg hx, List.mem_cons, List.mem_cons, ih hd.2]
      have hx' : ¬ (x.file = file ∧ x.pageNo = pageNo) := fun h => hx ((hasKey_iff _ _ _).2 h)
      constructor
      · rintro (rfl | h)
        · exact ⟨Or.inl rfl, hx'⟩
        · exact ⟨Or.inr h.1, h.2⟩
      · rintro ⟨rfl | h, hk⟩
        · exact Or.inl rfl
        · exact Or.inr ⟨h, hk⟩

theorem keysDistinct_eraseP {ht : BufHashTbl} (hd : KeysDistinct ht) (p : HashEntry → Bool) :
    KeysDistinct (ht.eraseP p) :=
  List.Pairwise.sublist (List.eraseP_sublist ht) hd

theorem filter_key_of_mem {ht : BufHashTbl} (hd : KeysDistinct ht) {e : HashEntry} (he : e ∈ ht) :
    ht.filter (HashEntry.hasKey e.file e.pageNo) = [e] := by
  induction ht with
  | nil => cases he
  | cons x t ih =>
    have hd0 := hd
    rw [KeysDistinct, List.pairwise_cons] at hd
    rcases List.mem_cons.1 he with rfl | he'
    · have h1 : HashEntry.hasKey e.file e.pageNo e = true := (hasKey_iff _ _ _).2 ⟨rfl, rfl⟩
      rw [List.filter_cons_of_pos h1]
      congr 1
      rw [List.filter_eq_nil_iff]
      intro b hb hk
      have := (hasKey_iff _ _ _).1 hk
      exact hd.1 b hb ⟨this.1.symm, this.2.symm⟩
    · have h1 : ¬ HashEntry.hasKey e.file e.pageNo x = true := by
        intro hk
        have := (hasKey_iff _ _ _).1 hk
        exact hd.1 e he' ⟨this.1, this.2⟩
      rw [List.filter_cons_of_neg h1]
      exact ih hd.2 he'

theorem keysDistinct_of_filter {ht : BufHashTbl}
    (h : ∀ e, e ∈ ht → ht.filter (HashEntry.hasKey e.file e.pageNo) = [e]) : KeysDistinct ht := by
  induction ht with
  | nil => exact List.Pairwise.nil
  | cons x t ih =>
    rw [KeysDistinct, List.pairwise_cons]
    have hx := h x (List.mem_cons_self _ _)
    have h1 : HashEntry.hasKey x.file x.pageNo x = true := (hasKey_iff _ _ _).2 ⟨rfl, rfl⟩
    rw [List.filter_cons_of_pos h1] at hx
    have hnil : t.filter (HashEntry.hasKey x.file x.pageNo) = [] := by
      injection hx
    constructor
    · intro b hb hk
      rw [List.filter_eq_nil_iff] at hnil
      exact hnil b hb ((hasKey_iff _ _ _).2 ⟨hk.1.symm, hk.2.symm⟩)
    · apply ih
      intro e he
      have hex := h e (List.mem_cons_of_mem _ he)
      by_cases hk : HashEntry.hasKey e.file e.pageNo x = true
      · rw [List.filter_cons_of_pos hk] at hex
        injection hex with hxe htl
        rw [List.filter_eq_nil_iff] at htl
        exact absurd ((hasKey_iff _ _ _).2 ⟨rfl, rfl⟩) (htl e he)
      · rw [List.filter_cons_of_neg hk] at hex
        exact hex

/-! ### The hash/frame invariant in linked form -/

theorem hashInv_iff_linked (s : BufMgr σ) :
    HashInv s ↔ Linked s.numBufs s.hashTable (vkey s) := by
  constructor
  · rintro ⟨h1, h2, _⟩
    refine ⟨?_, ?_, ?_⟩
    · intro i hi hv
      have := h1 i hi hv
      have hm : (⟨(desc s i).file, (desc s i).pageNo, i⟩ : HashEntry) ∈
          s.hashTable.filter (HashEntry.hasKey (desc s i).file (desc s i).pageNo) := by
        rw [this]; exact List.mem_singleton_self _
      exact (List.mem_filter.1 hm).1
    · intro e he
      obtain ⟨hlt, hv, hf, hp⟩ := h2 e he
      exact ⟨hlt, by simp [vkey, hv, hf, hp]⟩
    · apply keysDistinct_of_filter
      intro e he
      obtain ⟨hlt, hv, hf, hp⟩ := h2 e he
      have := h1 e.frameNo hlt hv
      rw [hf, hp] at this
      exact this
  · rintro ⟨j1, j2, j3⟩
    refine ⟨?_, ?_, ?_⟩
    · intro i hi hv
      exact filter_key_of_mem j3 (j1 i hi hv)
    · intro e he
      obtain ⟨hlt, hk⟩ := j2 e he
      simp only [vkey, Prod.mk.injEq] at hk
      exact ⟨hlt, hk.1, hk.2.1, hk.2.2⟩
    · intro i hi j hj hvi hvj ⟨hf, hp⟩
      have ei := j1 i hi hvi
      have ej := j1 j hj hvj
      have := keysDistinct_eq j3 ei ej hf hp
      simp only [vkey] at this
      injection this

theorem linked_congr {N : Nat} {ht : BufHashTbl} {v w : Nat → Bool × FilePtr × Int}
    (h : Linked N ht v) (hw : ∀ i, i < N → w i = v i) : Linked N ht w := by
  obtain ⟨j1, j2, j3⟩ := h
  refine ⟨?_, ?_, j3⟩
  · intro i hi hv
    rw [hw i hi] at hv ⊢
    exact j1 i hi hv
  · intro e he
    obtain ⟨hlt, hk⟩ := j2 e he
    exact ⟨hlt, by rw [hw _ hlt]; exact hk⟩

theorem linked_evict {N : Nat} {ht : BufHashTbl} {v w : Nat → Bool × FilePtr × Int}
    (h : Linked N ht v) {k : Nat} (hk : k < N) (hv : (v k).1 = true) (hwk : (w k).1 = false)
    (hw : ∀ i, i < N → i ≠ k → w i = v i) :
    Linked N (ht.eraseP (HashEntry.hasKey (v k).2.1 (v k).2.2)) w := by
  obtain ⟨j1, j2, j3⟩ := h
  have ek := j1 k hk hv
  refine ⟨?_, ?_, keysDistinct_eraseP j3 _⟩
  · intro i hi hvi
    have hik : i ≠ k := by
      rintro rfl
      rw [hwk] at hvi
      cases hvi
    rw [hw i hi hik] at hvi ⊢
    rw [mem_eraseP_key j3]
    refine ⟨j1 i hi hvi, ?_⟩
    rintro ⟨hf, hp⟩
    have := keysDistinct_eq j3 (j1 i hi hvi) ek hf hp
    injection this with _ _ h3
    exact hik h3
  · intro e he
    rw [mem_eraseP_key j3] at he
    obtain ⟨hlt, hke⟩ := j2 e he.1
    have hne : e.frameNo ≠ k := by
      intro hh
      rw [hh] at hke
      apply he.2
      rw [hke]
      exact ⟨rfl, rfl⟩
    exact ⟨hlt, by rw [hw _ hlt hne]; exact hke⟩

theorem linked_install {N : Nat} {ht : BufHashTbl} {v w : Nat → Bool × FilePtr × Int}
    (h : Linked N ht v) {k : Nat} (hk : k < N) (hv : (v k).1 = false)
    (file : FilePtr) (pageNo : Int)
    (hfree : ∀ e, e ∈ ht → ¬ (e.file = file ∧ e.pageNo = pageNo))
    (hwk : w k = (true, file, pageNo)) (hw : ∀ i, i < N → i ≠ k → w i = v i) :
    Linked N (⟨file, pageNo, k⟩ :: ht) w := by
  obtain ⟨j1, j2, j3⟩ := h
  refine ⟨?_, ?_, ?_⟩
  · intro i hi hvi
    by_cases hik : i = k
    · subst hik
      rw [hwk]
      exact List.mem_cons_self _ _
    · rw [hw i hi hik] at hvi ⊢
      exact List.mem_cons_of_mem _ (j1 i hi hvi)
  · intro e he
    rcases List.mem_cons.1 he with rfl | he'
    · exact ⟨hk, hwk⟩
    · obtain ⟨hlt, hke⟩ := j2 e he'
      have hne : e.frameNo ≠ k := by
        intro hh
        rw [hh, ] at hke
        rw [hke] at hv
        cases hv
      exact ⟨hlt, by rw [hw _ hlt hne]; exact hke⟩
  · rw [KeysDistinct, List.pairwise_cons]
    refine ⟨?_, j3⟩
    intro b hb hkb
    exact hfree b hb ⟨hkb.1.symm, hkb.2.symm⟩

theorem lookup_ok_iff (ht : BufHashTbl) (file : FilePtr) (pageNo : Int) (d : Nat) :
    (ht.lookup file pageNo d).1 = Status.OK ↔
      ∃ e, e ∈ ht ∧ e.file = file ∧ e.pageNo = pageNo := by
  unfold BufHashTbl.lookup
  cases hf : ht.find? (HashEntry.hasKey file pageNo) with
  | none =>
    simp only [reduceCtorEq, false_iff, not_exists, not_and]
    intro e he hfe hpe
    rw [List.find?_eq_none] at hf
    exact hf e he ((hasKey_iff _ _ _).2 ⟨hfe, hpe⟩)
  | some e =>
    simp only [true_iff]
    exact ⟨e, List.mem_of_find?_eq_some hf, (hasKey_iff _ _ _).1 (List.find?_some hf)⟩

theorem lookup_cases (ht : BufHashTbl) (file : FilePtr) (pageNo : Int) (d : Nat) :
    (∃ e, e ∈ ht ∧ e.file = file ∧ e.pageNo = pageNo ∧
        ht.lookup file pageNo d = (Status.OK, e.frameNo)) ∨
    ((∀ e, e ∈ ht → ¬ (e.file = file ∧ e.pageNo = pageNo)) ∧
        ht.lookup file pageNo d = (Status.HASHNOTFOUND, d)) := by
  unfold BufHashTbl.lookup
  cases hf : ht.find? (HashEntry.hasKey file pageNo) with
  | none =>
    right
    refine ⟨?_, rfl⟩
    intro e he hk
    rw [List.find?_eq_none] at hf
    exact hf e he ((hasKey_iff _ _ _).2 hk)
  | some e =>
    left
    have := (hasKey_iff _ _ _).1 (List.find?_some hf)
    exact ⟨e, List.mem_of_find?_eq_some hf, this.1, this.2, rfl⟩

theorem any_hasKey_iff (ht : BufHashTbl) (file : FilePtr) (pageNo : Int) :
    ht.any (HashEntry.hasKey file pageNo) = true ↔
      ∃ e, e ∈ ht ∧ e.file = file ∧ e.pageNo = pageNo := by
  simp [List.any_eq_true, hasKey_iff]

/-! ### The clock loop of allocBuf -/

theorem refOnly_refl (s : BufMgr σ) : RefOnly s s :=
  ⟨rfl, rfl, rfl, rfl, rfl, rfl, rfl, fun _ => Or.inl rfl⟩

theorem refOnly_trans {s m n : BufMgr σ} (h1 : RefOnly s m) (h2 : RefOnly m n) : RefOnly s n := by
  obtain ⟨a1, a2, a3, a4, a5, a6, a7, a8⟩ := h1
  obtain ⟨b1, b2, b3, b4, b5, b6, b7, b8⟩ := h2
  refine ⟨b1.trans a1, b2.trans a2, b3.trans a3, b4.trans a4, b5.trans a5, b6.trans a6,
    b7.trans a7, ?_⟩
  intro i
  rcases a8 i with ha | ⟨ha, hv, hp⟩
  · rcases b8 i with hb | ⟨hb, hv, hp⟩
    · exact Or.inl (hb.trans ha)
    · rw [ha] at hb hv hp
      exact Or.inr ⟨hb, hv, hp⟩
  · rcases b8 i with hb | ⟨hb, _, _⟩
    · exact Or.inr ⟨hb.trans ha, hv, hp⟩
    · rw [ha] at hb
      exact Or.inr ⟨hb, hv, hp⟩

theorem refOnly_advanceClock (s : BufMgr σ) : RefOnly s (advanceClock s) :=
  ⟨rfl, rfl, rfl, rfl, rfl, rfl, rfl, fun _ => Or.inl rfl⟩

theorem refOnly_clear (s : BufMgr σ) (k : Nat) (hv : (desc s k).valid = true)
    (hp : ¬ (desc s k).pinCnt > 0) :
    RefOnly s (setDesc s k { desc s k with refbit := false }) := by
  refine ⟨rfl, rfl, rfl, rfl, rfl, rfl, by simp [setDesc], ?_⟩
  intro i
  rw [desc_setDesc]
  by_cases h : k = i ∧ k < s.bufTable.length
  · rw [if_pos h]
    obtain ⟨rfl, _⟩ := h
    exact Or.inr ⟨rfl, hv, hp⟩
  · rw [if_neg h]
    exact Or.inl rfl

theorem allocBufEvict_outcome (L : FileLayer σ) (H : DescOps) (frame : Nat) (m : BufMgr σ)
    (hv : (desc m m.clockHand).valid = true) (hp : ¬ (desc m m.clockHand).pinCnt > 0)
    (hr : (desc m m.clockHand).refbit = false)
    (hw : (desc m m.clockHand).dirty = true →
      (L.writePage m.disk (desc m m.clockHand).file (desc m m.clockHand).pageNo
        (page m (desc m m.clockHand).frameNo)).1 = .OK)
    {st : Status} {k : Nat} {s' : BufMgr σ}
    (h : allocBufEvict H frame (desc m m.clockHand) (afterWrite L m) = .ret st k s') :
    AllocOutcome L H frame m st k s' := by
  have hht : (afterWrite L m).hashTable = m.hashTable := by
    unfold afterWrite wroteBack; split <;> rfl
  have hch : (afterWrite L m).clockHand = m.clockHand := by
    unfold afterWrite wroteBack; split <;> rfl
  unfold allocBufEvict at h
  simp only [hht, hch] at h
  split at h
  · rename_i hne
    injection h with h1 h2 h3
    subst h1 h2 h3
    have e := @AllocOutcome.removeFailed σ L H frame m hv hp hr hw hne
    simpa only [hch] using e
  · rename_i heq
    injection h with h1 h2 h3
    subst h1 h2 h3
    have e := @AllocOutcome.evicted σ L H frame m hv hp hr hw
      (by simpa using heq)
    simpa only [hch] using e

theorem allocBufIter_ret (L : FileLayer σ) (H : DescOps) (np frame : Nat) (s : BufMgr σ)
    {st : Status} {k : Nat} {s' : BufMgr σ}
    (h : allocBufIter L H np frame s = .ret st k s') :
    AllocOutcome L H frame (advanceClock s) st k s' := by
  unfold allocBufIter at h
  simp only at h
  split at h
  · rename_i hv
    injection h with h1 h2 h3
    subst h1 h2 h3
    exact AllocOutcome.free (by simpa using hv)
  · rename_i hv
    have hv' : (desc (advanceClock s) (advanceClock s).clockHand).valid = true := by
      simpa using hv
    split at h
    · rename_i hp
      split at h
      · injection h with h1 h2 h3
        subst h1 h2 h3
        exact AllocOutcome.exceeded hv' hp
      · cases h
    · rename_i hp
      split at h
      · cases h
      · rename_i hr
        have hr' : (desc (advanceClock s) (advanceClock s).clockHand).refbit = false := by
          simpa using hr
        split at h
        · rename_i hd
          split at h
          · rename_i hne
            injection h with h1 h2 h3
            subst h1 h2 h3
            exact AllocOutcome.writeFailed hv' hp hr' hd hne
          · rename_i heq
            have heq' : (L.writePage (advanceClock s).disk
                (desc (advanceClock s) (advanceClock s).clockHand).file
                (desc (advanceClock s) (advanceClock s).clockHand).pageNo
                (page (advanceClock s)
                  (desc (advanceClock s) (advanceClock s).clockHand).frameNo)).1 = .OK := by
              simpa using heq
            apply allocBufEvict_outcome L H frame _ hv' hp hr' (fun _ => heq')
            rw [← h]
            simp [afterWrite, wroteBack, hd]
        · rename_i hd
          apply allocBufEvict_outcome L H frame _ hv' hp hr'
            (fun hd' => absurd hd' hd)
          rw [← h]
          simp [afterWrite, hd]

theorem allocBufIter_next (L : FileLayer σ) (H : DescOps) (np frame : Nat) (s : BufMgr σ)
    {np1 : Nat} {s1 : BufMgr σ}
    (h : allocBufIter L H np frame s = .next np1 s1) :
    RefOnly s s1 ∧ s1.clockHand = (s.clockHand + 1) % s.numBufs := by
  unfold allocBufIter at h
  simp only at h
  split at h
  · cases h
  · rename_i hv
    have hv' : (desc (advanceClock s) (advanceClock s).clockHand).valid = true := by
      simpa using hv
    split at h
    · split at h
      · cases h
      · injection h with h1 h2
        subst h2
        exact ⟨refOnly_advanceClock s, rfl⟩
    · rename_i hp
      split at h
      · injection h with h1 h2
        subst h2
        exact ⟨refOnly_trans (refOnly_advanceClock s) (refOnly_clear _ _ hv' hp), rfl⟩
      · split at h
        · split at h
          · cases h
          · unfold allocBufEvict at h
            simp only at h
            split at h <;> cases h
        · unfold allocBufEvict at h
          simp only at h
          split at h <;> cases h

theorem allocBufLoop_outcome (L : FileLayer σ) (H : DescOps) (fuel : Nat) :
    ∀ (np frame : Nat) (s : BufMgr σ) {st : Status} {k : Nat} {s' : BufMgr σ},
      allocBufLoop L H fuel np frame s = some (st, k, s') →
      ∃ m, RefOnly s m ∧ (1 ≤ s.numBufs → m.clockHand < s.numBufs) ∧
        AllocOutcome L H frame m st k s' := by
  induction fuel with
  | zero => intro np frame s st k s' h; cases h
  | succ n ih =>
    intro np frame s st k s' h
    rw [allocBufLoop] at h
    cases hi : allocBufIter L H np frame s with
    | next np1 s1 =>
      rw [hi] at h
      obtain ⟨m, hm, hc, ho⟩ := ih np1 frame s1 h
      obtain ⟨hr, _⟩ := allocBufIter_next L H np frame s hi
      refine ⟨m, refOnly_trans hr hm, ?_, ho⟩
      intro hN
      have := hc (by rw [hr.1]; exact hN)
      rw [hr.1] at this
      exact this
    | ret st1 k1 s2 =>
      rw [hi] at h
      injection h with h
      injection h with h1 h
      injection h with h2 h3
      subst h1 h2 h3
      refine ⟨advanceClock s, refOnly_advanceClock s, ?_, allocBufIter_ret L H np frame s hi⟩
      intro hN
      exact Nat.mod_lt _ hN

theorem allocBuf_outcome (L : FileLayer σ) (H : DescOps) (frame : Nat) (s : BufMgr σ)
    {st : Status} {k : Nat} {s' : BufMgr σ} (h : allocBuf L H frame s = some (st, k, s')) :
    ∃ m, RefOnly s m ∧ (1 ≤ s.numBufs → m.clockHand < s.numBufs) ∧
      AllocOutcome L H frame m st k s' :=
  allocBufLoop_outcome L H _ 0 frame s h

/-! ### Preservation of the representation invariant -/

theorem desc_of_table {s t : BufMgr σ} (h : s.bufTable = t.bufTable) (i : Nat) :
    desc s i = desc t i := by
  simp [desc, h]

theorem desc_of_set {s t : BufMgr σ} {k : Nat} {d : BufDesc}
    (h : t.bufTable = s.bufTable.set k d) (i : Nat) :
    desc t i = if k = i ∧ k < s.bufTable.length then d else desc s i := by
  have : desc t i = desc (setDesc s k d) i := desc_of_table (by simp [setDesc, h]) i
  rw [this, desc_setDesc]

theorem good_of_fields {s t : BufMgr σ} (hg : Good s) (hn : t.numBufs = s.numBufs)
    (hl : t.bufTable.length = s.bufTable.length)
    (hd : ∀ i, i < s.numBufs → (desc t i).valid = (desc s i).valid ∧
      (desc t i).file = (desc s i).file ∧ (desc t i).pageNo = (desc s i).pageNo ∧
      (desc t i).frameNo = (desc s i).frameNo)
    (hp : t.bufPool.length = s.bufPool.length) (hh : t.hashTable = s.hashTable)
    (hc : t.clockHand < s.numBufs) : Good t := by
  obtain ⟨⟨w1, w2, w3, w4, w5⟩, hinv⟩ := hg
  refine ⟨⟨by omega, by omega, by omega, by omega, ?_⟩, ?_⟩
  · intro i hi
    rw [hn] at hi
    rw [(hd i hi).2.2.2]
    exact w5 i hi
  · rw [hashInv_iff_linked] at hinv ⊢
    rw [hn, hh]
    apply linked_congr hinv
    intro i hi
    obtain ⟨a, b, c, _⟩ := hd i hi
    simp [vkey, a, b, c]

theorem good_of_eq {s t : BufMgr σ} (hg : Good s) (hn : t.numBufs = s.numBufs)
    (ht : t.bufTable = s.bufTable) (hp : t.bufPool.length = s.bufPool.length)
    (hh : t.hashTable = s.hashTable) (hc : t.clockHand < s.numBufs) : Good t := by
  refine good_of_fields hg hn (by rw [ht]) ?_ hp hh hc
  intro i hi
  rw [desc_of_table ht i]
  exact ⟨rfl, rfl, rfl, rfl⟩

theorem refOnly_fields {s m : BufMgr σ} (h : RefOnly s m) (i : Nat) :
    (desc m i).valid = (desc s i).valid ∧ (desc m i).file = (desc s i).file ∧
    (desc m i).pageNo = (desc s i).pageNo ∧ (desc m i).frameNo = (desc s i).frameNo ∧
    (desc m i).pinCnt = (desc s i).pinCnt ∧ (desc m i).dirty = (desc s i).dirty := by
  rcases h.2.2.2.2.2.2.2 i with h1 | ⟨h1, _, _⟩ <;> rw [h1] <;> exact ⟨rfl, rfl, rfl, rfl, rfl, rfl⟩

theorem refOnly_pinned {s m : BufMgr σ} (h : RefOnly s m) (i : Nat)
    (hp : (desc s i).pinCnt > 0) : desc m i = desc s i := by
  rcases h.2.2.2.2.2.2.2 i with h1 | ⟨_, _, h3⟩
  · exact h1
  · exact absurd hp h3

theorem refOnly_invalid {s m : BufMgr σ} (h : RefOnly s m) (i : Nat)
    (hv : (desc s i).valid = false) : desc m i = desc s i := by
  rcases h.2.2.2.2.2.2.2 i with h1 | ⟨_, h2, _⟩
  · exact h1
  · rw [hv] at h2; cases h2

theorem good_refOnly {s m : BufMgr σ} (hg : Good s) (h : RefOnly s m)
    (hc : m.clockHand < s.numBufs) : Good m := by
  refine good_of_fields hg h.1 h.2.2.2.2.2.2.1 ?_ (by rw [h.2.1]) h.2.2.1 hc
  intro i hi
  obtain ⟨a, b, c, d, _, _⟩ := refOnly_fields h i
  exact ⟨a, b, c, d⟩

theorem good_update {s t : BufMgr σ} (hg : Good s) {k : Nat} {d : BufDesc}
    (hn : t.numBufs = s.numBufs) (ht : t.bufTable = s.bufTable.set k d)
    (hv : d.valid = (desc s k).valid) (hf : d.file = (desc s k).file)
    (hpn : d.pageNo = (desc s k).pageNo) (hfr : d.frameNo = (desc s k).frameNo)
    (hp : t.bufPool.length = s.bufPool.length) (hh : t.hashTable = s.hashTable)
    (hc : t.clockHand < s.numBufs) : Good t := by
  refine good_of_fields hg hn (by rw [ht, List.length_set]) ?_ hp hh hc
  intro i hi
  rw [desc_of_set ht i]
  split
  · rename_i h
    obtain ⟨rfl, _⟩ := h
    exact ⟨hv, hf, hpn, hfr⟩
  · exact ⟨rfl, rfl, rfl, rfl⟩

theorem good_evict {s t : BufMgr σ} (hg : Good s) {k : Nat} {d : BufDesc} (hk : k < s.numBufs)
    (hvk : (desc s k).valid = true)
    (hn : t.numBufs = s.numBufs) (ht : t.bufTable = s.bufTable.set k d)
    (hv : d.valid = false) (hfr : d.frameNo = (desc s k).frameNo)
    (hp : t.bufPool.length = s.bufPool.length)
    (hh : t.hashTable = s.hashTable.eraseP
      (HashEntry.hasKey (desc s k).file (desc s k).pageNo))
    (hc : t.clockHand < s.numBufs) : Good t := by
  obtain ⟨⟨w1, w2, w3, w4, w5⟩, hinv⟩ := hg
  have hkl : k < s.bufTable.length := by omega
  have hdesc : ∀ i, desc t i = if k = i then d else desc s i := by
    intro i
    rw [desc_of_set ht i]
    by_cases h : k = i
    · subst h
      simp [hkl]
    · simp [h]
  refine ⟨⟨by omega, by rw [ht, List.length_set]; omega, by omega, by omega, ?_⟩, ?_⟩
  · intro i hi
    rw [hn] at hi
    rw [hdesc]
    split
    · rename_i h; subst h; rw [hfr]; exact w5 k hi
    · exact w5 i hi
  · rw [hashInv_iff_linked] at hinv ⊢
    rw [hn, hh]
    have := linked_evict (w := vkey t) hinv hk (by simpa [vkey] using hvk)
      (by simp [vkey, hdesc, hv])
      (by
        intro i _ hik
        have : ¬ k = i := fun h => hik h.symm
        simp [vkey, hdesc, this])
    simpa [vkey] using this

theorem good_install {s t : BufMgr σ} (hg : Good s) {k : Nat} {d : BufDesc} (hk : k < s.numBufs)
    (hvk : (desc s k).valid = false) (file : FilePtr) (pageNo : Int)
    (hfree : ∀ e, e ∈ s.hashTable → ¬ (e.file = file ∧ e.pageNo = pageNo))
    (hn : t.numBufs = s.numBufs) (ht : t.bufTable = s.bufTable.set k d)
    (hv : d.valid = true) (hf : d.file = file) (hpn : d.pageNo = pageNo)
    (hfr : d.frameNo = (desc s k).frameNo)
    (hp : t.bufPool.length = s.bufPool.length)
    (hh : t.hashTable = ⟨file, pageNo, k⟩ :: s.hashTable)
    (hc : t.clockHand < s.numBufs) : Good t := by
  obtain ⟨⟨w1, w2, w3, w4, w5⟩, hinv⟩ := hg
  have hkl : k < s.bufTable.length := by omega
  have hdesc : ∀ i, desc t i = if k = i then d else desc s i := by
    intro i
    rw [desc_of_set ht i]
    by_cases h : k = i
    · subst h
      simp [hkl]
    · simp [h]
  refine ⟨⟨by omega, by rw [ht, List.length_set]; omega, by omega, by omega, ?_⟩, ?_⟩
  · intro i hi
    rw [hn] at hi
    rw [hdesc]
    split
    · rename_i h; subst h; rw [hfr]; exact w5 k hi
    · exact w5 i hi
  · rw [hashInv_iff_linked] at hinv ⊢
    rw [hn, hh]
    exact linked_install (w := vkey t) hinv hk (by simpa [vkey] using hvk) file pageNo hfree
      (by simp [vkey, hdesc, hv, hf, hpn])
      (by
        intro i _ hik
        have : ¬ k = i := fun h => hik h.symm
        simp [vkey, hdesc, this])

/-! ### allocBuf preserves the representation invariant -/

theorem remove_of_mem (ht : BufHashTbl) (file : FilePtr) (pageNo : Int)
    (h : ∃ e, e ∈ ht ∧ e.file = file ∧ e.pageNo = pageNo) :
    ht.remove file pageNo = (Status.OK, ht.eraseP (HashEntry.hasKey file pageNo)) := by
  unfold BufHashTbl.remove
  rw [if_pos ((any_hasKey_iff ht file pageNo).2 h)]

theorem remove_of_not_mem (ht : BufHashTbl) (file : FilePtr) (pageNo : Int)
    (h : ∀ e, e ∈ ht → ¬ (e.file = file ∧ e.pageNo = pageNo)) :
    ht.remove file pageNo = (Status.HASHNOTFOUND, ht) := by
  unfold BufHashTbl.remove
  rw [if_neg]
  intro hc
  obtain ⟨e, he, hk⟩ := (any_hasKey_iff ht file pageNo).1 hc
  exact h e he hk

theorem mem_of_mem_remove (ht : BufHashTbl) (file : FilePtr) (pageNo : Int) (e : HashEntry)
    (h : e ∈ (ht.remove file pageNo).2) : e ∈ ht := by
  unfold BufHashTbl.remove at h
  split at h
  · exact List.mem_of_mem_eraseP h
  · exact h

theorem insert_of_free (ht : BufHashTbl) (file : FilePtr) (pageNo : Int) (k : Nat)
    (h : ∀ e, e ∈ ht → ¬ (e.file = file ∧ e.pageNo = pageNo)) :
    ht.insert file pageNo k = (Status.OK, ⟨file, pageNo, k⟩ :: ht) := by
  unfold BufHashTbl.insert
  rw [if_neg]
  intro hc
  obtain ⟨e, he, hk⟩ := (any_hasKey_iff ht file pageNo).1 hc
  exact h e he hk

@[simp] theorem afterWrite_numBufs (L : FileLayer σ) (m : BufMgr σ) :
    (afterWrite L m).numBufs = m.numBufs := by
  unfold afterWrite wroteBack; split <;> rfl

@[simp] theorem afterWrite_bufTable (L : FileLayer σ) (m : BufMgr σ) :
    (afterWrite L m).bufTable = m.bufTable := by
  unfold afterWrite wroteBack; split <;> rfl

@[simp] theorem afterWrite_bufPool (L : FileLayer σ) (m : BufMgr σ) :
    (afterWrite L m).bufPool = m.bufPool := by
  unfold afterWrite wroteBack; split <;> rfl

@[simp] theorem afterWrite_hashTable (L : FileLayer σ) (m : BufMgr σ) :
    (afterWrite L m).hashTable = m.hashTable := by
  unfold afterWrite wroteBack; split <;> rfl

@[simp] theorem afterWrite_clockHand (L : FileLayer σ) (m : BufMgr σ) :
    (afterWrite L m).clockHand = m.clockHand := by
  unfold afterWrite wroteBack; split <;> rfl

theorem good_entry_of_valid {s : BufMgr σ} (hg : Good s) {k : Nat} (hk : k < s.numBufs)
    (hv : (desc s k).valid = true) :
    ∃ e, e ∈ s.hashTable ∧ e.file = (desc s k).file ∧ e.pageNo = (desc s k).pageNo := by
  have := ((hashInv_iff_linked s).1 hg.2).1 k hk (by simpa [vkey] using hv)
  exact ⟨_, this, rfl, rfl⟩

/-- What `allocBuf` leaves behind when it starts from a state that satisfies the
representation invariant: the invariant again, the same number of frames, no new
hash entries, and on `OK` a frame index in range whose descriptor is invalid. -/
theorem allocOutcome_good (L : FileLayer σ) (H : DescOps) (frame : Nat) {m : BufMgr σ}
    (hg : Good m) {st : Status} {k : Nat} {s' : BufMgr σ}
    (h : AllocOutcome L H frame m st k s') :
    Good s' ∧ s'.numBufs = m.numBufs ∧ (∀ e, e ∈ s'.hashTable → e ∈ m.hashTable) ∧
      (st = Status.OK → k = m.clockHand ∧ (desc s' k).valid = false) ∧
      (st ≠ Status.OK → k = frame) := by
  have hw := hg.1
  obtain ⟨w1, w2, w3, w4, w5⟩ := hw
  cases h with
  | free hv => exact ⟨hg, rfl, fun _ h => h, fun _ => ⟨rfl, hv⟩, fun h => absurd rfl h⟩
  | exceeded hv hp =>
    exact ⟨hg, rfl, fun _ h => h, fun h => Status.noConfusion h, fun _ => rfl⟩
  | writeFailed hv hp hr hd hne =>
    exact ⟨good_of_eq hg rfl rfl rfl rfl w4, rfl, fun _ h => h, fun h => Status.noConfusion h,
      fun _ => rfl⟩
  | removeFailed hv hp hr hwr hne =>
    exfalso
    apply hne
    rw [remove_of_mem _ _ _ (good_entry_of_valid hg w4 hv)]
  | evicted hv hp hr hwr heq =>
    have hrem := remove_of_mem _ _ _ (good_entry_of_valid hg w4 hv)
    refine ⟨?_, by simp [setDesc], ?_, ?_, fun h => absurd rfl h⟩
    · apply good_evict hg w4 hv (d := (desc m m.clockHand).Clear H)
      · simp [setDesc]
      · simp [setDesc]
      · rfl
      · rfl
      · simp [setDesc]
      · simp [setDesc, hrem]
      · simpa [setDesc] using w4
    · intro e he
      simp only [setDesc] at he
      exact mem_of_mem_remove _ _ _ _ he
    · intro _
      refine ⟨rfl, ?_⟩
      rw [desc_setDesc_self]
      · rfl
      · simp only [afterWrite_bufTable]; omega

theorem allocBuf_good (L : FileLayer σ) (H : DescOps) (frame : Nat) {s : BufMgr σ}
    (hg : Good s) {st : Status} {k : Nat} {s' : BufMgr σ}
    (h : allocBuf L H frame s = some (st, k, s')) :
    Good s' ∧ s'.numBufs = s.numBufs ∧ (∀ e, e ∈ s'.hashTable → e ∈ s.hashTable) ∧
      (st = Status.OK → k < s.numBufs ∧ (desc s' k).valid = false) ∧
      (st ≠ Status.OK → k = frame) := by
  obtain ⟨m, hr, hc, ho⟩ := allocBuf_outcome L H frame s h
  have hc' := hc hg.1.1
  have hgm : Good m := good_refOnly hg hr hc'
  obtain ⟨a, b, c, d, e⟩ := allocOutcome_good L H frame hgm ho
  refine ⟨a, b.trans hr.1, ?_, ?_, e⟩
  · intro x hx
    rw [← hr.2.2.1]
    exact c x hx
  · intro hst
    obtain ⟨d1, d2⟩ := d hst
    exact ⟨by rw [d1]; exact hc', d2⟩

/-! ### Every operation preserves the representation invariant -/

theorem insert_cases (ht : BufHashTbl) (file : FilePtr) (pageNo : Int) (k : Nat) :
    ((∃ e, e ∈ ht ∧ e.file = file ∧ e.pageNo = pageNo) ∧
        ht.insert file pageNo k = (Status.HASHTBLERROR, ht)) ∨
    ((∀ e, e ∈ ht → ¬ (e.file = file ∧ e.pageNo = pageNo)) ∧
        ht.insert file pageNo k = (Status.OK, ⟨file, pageNo, k⟩ :: ht)) := by
  by_cases h : ∃ e, e ∈ ht ∧ e.file = file ∧ e.pageNo = pageNo
  · left
    refine ⟨h, ?_⟩
    unfold BufHashTbl.insert
    rw [if_pos ((any_hasKey_iff ht file pageNo).2 h)]
  · right
    have h' : ∀ e, e ∈ ht → ¬ (e.file = file ∧ e.pageNo = pageNo) :=
      fun e he hk => h ⟨e, he, hk⟩
    exact ⟨h', insert_of_free ht file pageNo k h'⟩

theorem good_frame_of_entry {s : BufMgr σ} (hg : Good s) {e : HashEntry}
    (he : e ∈ s.hashTable) :
    e.frameNo < s.numBufs ∧ (desc s e.frameNo).valid = true ∧
      (desc s e.frameNo).file = e.file ∧ (desc s e.frameNo).pageNo = e.pageNo :=
  hg.2.2.1 e he

theorem readPage_good (L : FileLayer σ) (H : DescOps) (file : FilePtr) (PageNo : Int)
    {s : BufMgr σ} (hg : Good s) {st : Status} {pg : Option Nat} {s' : BufMgr σ}
    (h : readPage L H file PageNo s = some (st, pg, s')) : Good s' := by
  unfold readPage at h
  rcases lookup_cases s.hashTable file PageNo 0 with ⟨e, he, hf, hp, hl⟩ | ⟨hfree, hl⟩
  · obtain ⟨e1, e2, e3, e4⟩ := good_frame_of_entry hg he
    simp only [hl, if_true, Option.some.injEq, Prod.mk.injEq] at h
    obtain ⟨-, -, rfl⟩ := h
    apply good_update hg (k := e.frameNo)
      (d := { desc s e.frameNo with pinCnt := (desc s e.frameNo).pinCnt + 1, refbit := true })
    · rfl
    · rfl
    · rfl
    · rfl
    · rfl
    · rfl
    · rfl
    · rfl
    · exact hg.1.2.2.2.1
  · simp only [hl, reduceCtorEq, if_false, if_true] at h
    cases ha : allocBuf L H 0 s with
    | none => rw [ha] at h; cases h
    | some r =>
      obtain ⟨st1, k, s1⟩ := r
      rw [ha] at h
      simp only at h
      obtain ⟨g1, n1, sub1, ok1, _⟩ := allocBuf_good L H 0 hg ha
      have hc1 : s1.clockHand < s1.numBufs := g1.1.2.2.2.1
      split at h
      · simp only [Option.some.injEq, Prod.mk.injEq] at h
        obtain ⟨-, -, rfl⟩ := h
        exact g1
      · rename_i hst
        have hst' : st1 = Status.OK := by simpa using hst
        obtain ⟨hk, hvk⟩ := ok1 hst'
        split at h
        · simp only [Option.some.injEq, Prod.mk.injEq] at h
          obtain ⟨-, -, rfl⟩ := h
          exact good_of_eq g1 rfl rfl (by simp) rfl hc1
        · have hfree1 : ∀ e, e ∈ s1.hashTable → ¬ (e.file = file ∧ e.pageNo = PageNo) :=
            fun e he => hfree e (sub1 e he)
          simp only [insert_of_free _ _ _ k hfree1, ne_eq, not_true_eq_false, if_false,
            Option.some.injEq, Prod.mk.injEq] at h
          obtain ⟨-, -, rfl⟩ := h
          apply good_install g1 (k := k) (by omega) hvk file PageNo hfree1
            (d := (desc s1 k).Set H file PageNo)
          · rfl
          · simp [setDesc, desc]
          · rfl
          · rfl
          · rfl
          · rfl
          · simp [setDesc]
          · rfl
          · exact hc1

theorem unPinPage_good (file : FilePtr) (PageNo : Int) (dirty : Bool)
    {s : BufMgr σ} (hg : Good s) : Good (unPinPage file PageNo dirty s).2 := by
  unfold unPinPage
  rcases lookup_cases s.hashTable file PageNo 0 with ⟨e, he, hf, hp, hl⟩ | ⟨hfree, hl⟩
  · obtain ⟨e1, e2, e3, e4⟩ := good_frame_of_entry hg he
    simp only [hl, ne_eq, not_true_eq_false, if_false]
    split
    · exact hg
    · apply good_update hg (k := e.frameNo)
        (d := if dirty = true then
            { desc s e.frameNo with pinCnt := (desc s e.frameNo).pinCnt - 1, dirty := true }
          else { desc s e.frameNo with pinCnt := (desc s e.frameNo).pinCnt - 1 })
      · rfl
      · rfl
      · split <;> rfl
      · split <;> rfl
      · split <;> rfl
      · split <;> rfl
      · rfl
      · rfl
      · exact hg.1.2.2.2.1
  · simp only [hl, ne_eq, reduceCtorEq, not_false_eq_true, if_true]
    exact hg

theorem allocPage_good (L : FileLayer σ) (H : DescOps) (file : FilePtr) (pageNo : Int)
    {s : BufMgr σ} (hg : Good s) {st : Status} {pn : Int} {pg : Option Nat} {s' : BufMgr σ}
    (h : allocPage L H file pageNo s = some (st, pn, pg, s')) : Good s' := by
  unfold allocPage at h
  simp only at h
  have hg0 : Good { s with disk := (L.allocatePage s.disk file pageNo).2.2,
                           trace := s.trace ++ [Event.fileAllocate file] } :=
    good_of_eq hg rfl rfl rfl rfl hg.1.2.2.2.1
  split at h
  · simp only [Option.some.injEq, Prod.mk.injEq] at h
    obtain ⟨-, -, -, rfl⟩ := h
    exact hg0
  · cases ha : allocBuf L H 0 { s with disk := (L.allocatePage s.disk file pageNo).2.2,
                                       trace := s.trace ++ [Event.fileAllocate file] } with
    | none => rw [ha] at h; cases h
    | some r =>
      obtain ⟨st1, k, s1⟩ := r
      rw [ha] at h
      simp only at h
      obtain ⟨g1, n1, sub1, ok1, _⟩ := allocBuf_good L H 0 hg0 ha
      have hc1 : s1.clockHand < s1.numBufs := g1.1.2.2.2.1
      split at h
      · simp only [Option.some.injEq, Prod.mk.injEq] at h
        obtain ⟨-, -, -, rfl⟩ := h
        exact g1
      · rename_i hst
        have hst' : st1 = Status.OK := by simpa using hst
        obtain ⟨hk, hvk⟩ := ok1 hst'
        have hk1 : k < s1.numBufs := by rw [n1]; exact hk
        rcases insert_cases s1.hashTable file (L.allocatePage s.disk file pageNo).2.1 k with
          ⟨_, hi⟩ | ⟨hfree1, hi⟩
        · simp only [hi, ne_eq, reduceCtorEq, not_false_eq_true, if_true, Option.some.injEq,
            Prod.mk.injEq] at h
          obtain ⟨-, -, -, rfl⟩ := h
          exact good_of_eq g1 rfl rfl (by simp) rfl hc1
        · simp only [hi, ne_eq, not_true_eq_false, if_false, Option.some.injEq,
            Prod.mk.injEq] at h
          obtain ⟨-, -, -, rfl⟩ := h
          apply good_install g1 (k := k) hk1 hvk file (L.allocatePage s.disk file pageNo).2.1
            hfree1 (d := (desc s1 k).Set H file (L.allocatePage s.disk file pageNo).2.1)
          · rfl
          · simp [setDesc, desc]
          · rfl
          · rfl
          · rfl
          · rfl
          · simp [setDesc]
          · rfl
          · exact hc1

theorem disposePage_good (L : FileLayer σ) (H : DescOps) (file : FilePtr) (pageNo : Int)
    {s : BufMgr σ} (hg : Good s) : Good (disposePage L H file pageNo s).2 := by
  unfold disposePage
  rcases lookup_cases s.hashTable file pageNo 0 with ⟨e, he, hf, hp, hl⟩ | ⟨hfree, hl⟩
  · obtain ⟨e1, e2, e3, e4⟩ := good_frame_of_entry hg he
    simp only [hl, if_true]
    rw [← hf, ← hp] at *
    apply good_evict hg (k := e.frameNo) e1 e2 (d := (desc s e.frameNo).Clear H)
    · rfl
    · rfl
    · rfl
    · rfl
    · rfl
    · show ((setDesc s e.frameNo ((desc s e.frameNo).Clear H)).hashTable.remove e.file
        e.pageNo).2 = _
      have : (setDesc s e.frameNo ((desc s e.frameNo).Clear H)).hashTable = s.hashTable := rfl
      rw [this, remove_of_mem _ _ _ ⟨e, he, rfl, rfl⟩, e3, e4]
    · exact hg.1.2.2.2.1
  · simp only [hl, reduceCtorEq, if_false]
    refine good_of_eq hg rfl rfl rfl ?_ hg.1.2.2.2.1
    show (s.hashTable.remove file pageNo).2 = s.hashTable
    rw [remove_of_not_mem _ _ _ hfree]

theorem flushFrame_good (file : FilePtr) {i : Nat} {s : BufMgr σ} (hg : Good s)
    (hi : i < s.numBufs) (hv : (desc s i).valid = true) (hf : (desc s i).file = file) :
    Good (flushFrame file i s) := by
  subst hf
  apply good_evict hg (k := i) hi hv
    (d := { desc s i with file := NULL, pageNo := -1, valid := false })
  · rfl
  · rfl
  · rfl
  · rfl
  · rfl
  · show (s.hashTable.remove (desc s i).file (desc s i).pageNo).2 = _
    rw [remove_of_mem _ _ _ (good_entry_of_valid hg hi hv)]
  · exact hg.1.2.2.2.1

theorem flushFrame_numBufs (file : FilePtr) (i : Nat) (s : BufMgr σ) :
    (flushFrame file i s).numBufs = s.numBufs := rfl

theorem flushFileLoop_good (L : FileLayer σ) (file : FilePtr) (n : Nat) :
    ∀ (i : Nat) (s : BufMgr σ), Good s → i + n = s.numBufs →
      Good (flushFileLoop L file n i s).2 := by
  induction n with
  | zero => intro i s hg _; exact hg
  | succ n ih =>
    intro i s hg hin
    have hi : i < s.numBufs := by omega
    have hil : i < s.bufTable.length := by rw [hg.1.2.1]; exact hi
    rw [flushFileLoop]
    simp only
    split
    · rename_i hvf
      split
      · exact hg
      · rename_i hp
        split
        · rename_i hd
          split
          · exact good_of_eq hg rfl rfl rfl rfl hg.1.2.2.2.1
          · have g1 : Good (setDesc { s with
                disk := (L.writePage s.disk (desc s i).file (desc s i).pageNo (page s i)).2,
                trace := s.trace ++
                  [Event.fileWrite (desc s i).file (desc s i).pageNo (page s i)] } i
                { desc s i with dirty := false }) := by
              apply good_update hg (k := i) (d := { desc s i with dirty := false })
              · rfl
              · rfl
              · rfl
              · rfl
              · rfl
              · rfl
              · rfl
              · rfl
              · exact hg.1.2.2.2.1
            have hdi : desc (setDesc { s with
                disk := (L.writePage s.disk (desc s i).file (desc s i).pageNo (page s i)).2,
                trace := s.trace ++
                  [Event.fileWrite (desc s i).file (desc s i).pageNo (page s i)] } i
                { desc s i with dirty := false }) i = { desc s i with dirty := false } :=
              desc_setDesc_self _ _ _ hil
            apply ih
            · apply flushFrame_good file g1 hi
              · rw [hdi]; exact hvf.1
              · rw [hdi]; exact hvf.2
            · rw [flushFrame_numBufs]
              show i + 1 + n = s.numBufs
              omega
        · rename_i hd
          apply ih
          · exact flushFrame_good file hg hi hvf.1 hvf.2
          · rw [flushFrame_numBufs]; omega
    · split
      · exact hg
      · exact ih (i + 1) s hg (by omega)

theorem flushFile_good (L : FileLayer σ) (file : FilePtr) {s : BufMgr σ} (hg : Good s) :
    Good (flushFile L file s).2 :=
  flushFileLoop_good L file s.numBufs 0 s hg (by omega)

theorem new_good (bufs : Nat) (disk : σ) (h : 1 ≤ bufs) : Good (BufMgr.new bufs disk) := by
  have hd : ∀ i, i < bufs → desc (BufMgr.new bufs disk) i =
      { (default : BufDesc) with frameNo := i, valid := false } := by
    intro i hi
    simp [desc, BufMgr.new, List.getD_eq_getElem?_getD, List.getElem?_map, List.getElem?_range hi]
  refine ⟨⟨h, by simp [BufMgr.new], by simp [BufMgr.new], ?_, ?_⟩, ⟨?_, ?_, ?_⟩⟩
  · show bufs - 1 < bufs
    omega
  · intro i hi
    rw [hd i hi]
  · intro i hi hv
    rw [hd i hi] at hv
    cases hv
  · intro e he
    cases he
  · intro i hi j _ hv
    rw [hd i hi] at hv
    cases hv

theorem writeBytes_good (k : Nat) (data : Page) {s : BufMgr σ} (hg : Good s) :
    Good (writeBytes k data s) :=
  good_of_eq hg rfl rfl (by simp [writeBytes]) rfl hg.1.2.2.2.1

/-- Every state the buffer manager goes through satisfies the representation
invariant. -/
theorem reachable_good (L : FileLayer σ) (H : DescOps) {s : BufMgr σ}
    (h : Reachable L H s) : Good s := by
  induction h with
  | init bufs disk hb => exact new_good bufs disk hb
  | readPage file PageNo _ hr ih => exact readPage_good L H file PageNo ih hr
  | unPinPage file PageNo dirty _ ih => exact unPinPage_good file PageNo dirty ih
  | allocPage file pageNo _ hr ih => exact allocPage_good L H file pageNo ih hr
  | disposePage file pageNo _ ih => exact disposePage_good L H file pageNo ih
  | flushFile file _ ih => exact flushFile_good L file ih
  | writeBytes k data _ ih => exact writeBytes_good k data ih

/-! ### C1 -/

/-- C1: hash/frame consistency is an invariant.  In the state produced by the
constructor and after any sequence of `readPage`, `unPinPage`, `allocPage`,
`disposePage` and `flushFile` calls, whatever status each returns and whatever
the file layer does, (I1) every valid frame has exactly one hash entry with its
key and that entry maps to the frame, (I2) every hash entry names a valid frame
holding the entry's key, (I3) no two valid frames hold the same key. -/
theorem hash_frame_invariant (L : FileLayer σ) (H : DescOps) (s : BufMgr σ)
    (h : Reachable L H s) : I1 s ∧ I2 s ∧ I3 s :=
  (reachable_good L H h).2

theorem exRead1_eq : readPage okLayer stdOps 1 5 (BufMgr.new 2 ()) =
    some (Status.OK, some 0, exRead1) := by
  rfl

theorem exRead1_reachable : Reachable okLayer stdOps exRead1 :=
  Reachable.readPage 1 5 (Reachable.init 2 () (by decide)) exRead1_eq

theorem hash_frame_invariant_witness :
    Reachable okLayer stdOps exRead1 ∧ I1 exRead1 ∧ I2 exRead1 ∧ I3 exRead1 :=
  ⟨exRead1_reachable, hash_frame_invariant okLayer stdOps exRead1 exRead1_reachable⟩

/-! ### The clock loop returns -/

theorem allocBufIter_next_cases (L : FileLayer σ) (H : DescOps) (np frame : Nat) (s : BufMgr σ)
    {np1 : Nat} {s1 : BufMgr σ} (h : allocBufIter L H np frame s = .next np1 s1) :
    (desc (advanceClock s) (advanceClock s).clockHand).valid = true ∧
    ((np1 = np + 1 ∧ s1 = advanceClock s ∧ np + 1 < s.numBufs ∧
        (desc (advanceClock s) (advanceClock s).clockHand).pinCnt > 0) ∨
     (np1 = np ∧
        s1 = setDesc (advanceClock s) (advanceClock s).clockHand
          { desc (advanceClock s) (advanceClock s).clockHand with refbit := false } ∧
        ¬ (desc (advanceClock s) (advanceClock s).clockHand).pinCnt > 0 ∧
        (desc (advanceClock s) (advanceClock s).clockHand).refbit = true)) := by
  unfold allocBufIter at h
  simp only at h
  split at h
  · cases h
  · rename_i hv
    have hv' : (desc (advanceClock s) (advanceClock s).clockHand).valid = true := by
      simpa using hv
    refine ⟨hv', ?_⟩
    split at h
    · rename_i hp
      split at h
      · cases h
      · rename_i hlt
        injection h with h1 h2
        left
        refine ⟨h1.symm, h2.symm, ?_, hp⟩
        have : (advanceClock s).numBufs = s.numBufs := rfl
        omega
    · rename_i hp
      split at h
      · rename_i hr
        injection h with h1 h2
        right
        exact ⟨h1.symm, h2.symm, hp, hr⟩
      · split at h
        · split at h
          · cases h
          · unfold allocBufEvict at h
            simp only at h
            split at h <;> cases h
        · unfold allocBufEvict at h
          simp only at h
          split at h <;> cases h

theorem countP_set_drop {α : Type} (p : α → Bool) (d : α) (hd : p d = false) :
    ∀ (l : List α) (i : Nat) (hi : i < l.length), p (l.get ⟨i, hi⟩) = true →
      (l.set i d).countP p + 1 = l.countP p := by
  intro l
  induction l with
  | nil => intro i hi; cases hi
  | cons x t ih =>
    intro i hi hp
    cases i with
    | zero =>
      have hx : p x = true := hp
      simp [List.countP_cons, hx, hd]
    | succ j =>
      have := ih j (Nat.lt_of_succ_lt_succ hi) hp
      simp only [List.set_cons_succ, List.countP_cons]
      omega

theorem desc_valid_lt {s : BufMgr σ} {k : Nat} (hv : (desc s k).valid = true) :
    k < s.bufTable.length := by
  by_contra hc
  have hl : s.bufTable.length ≤ k := Nat.le_of_not_lt hc
  have : desc s k = default := by
    simp [desc, List.getD_eq_getElem?_getD, List.getElem?_eq_none hl]
  rw [this] at hv
  cases hv

theorem desc_eq_get {s : BufMgr σ} {k : Nat} (hk : k < s.bufTable.length) :
    desc s k = s.bufTable.get ⟨k, hk⟩ := by
  simp [desc, List.getD_eq_getElem?_getD, List.getElem?_eq_getElem hk]

theorem clearable_clear (s : BufMgr σ) (k : Nat) (hv : (desc s k).valid = true)
    (hp : ¬ (desc s k).pinCnt > 0) (hr : (desc s k).refbit = true) :
    clearable (setDesc s k { desc s k with refbit := false }) + 1 = clearable s := by
  have hk := desc_valid_lt hv
  unfold clearable setDesc
  apply countP_set_drop _ _ (by simp) _ k hk
  rw [← desc_eq_get hk]
  simp [hv, hp, hr]

theorem allocBufLoop_returns (L : FileLayer σ) (H : DescOps) (fuel : Nat) :
    ∀ (np frame : Nat) (s : BufMgr σ),
      (s.numBufs - 1 - np) + clearable s + 1 ≤ fuel →
      ∃ r, allocBufLoop L H fuel np frame s = some r := by
  induction fuel with
  | zero => intro np frame s h; omega
  | succ n ih =>
    intro np frame s h
    rw [allocBufLoop]
    cases hi : allocBufIter L H np frame s with
    | ret st k s1 => exact ⟨_, rfl⟩
    | next np1 s1 =>
      simp only
      obtain ⟨hv, hc⟩ := allocBufIter_next_cases L H np frame s hi
      apply ih
      rcases hc with ⟨rfl, rfl, hlt, _⟩ | ⟨rfl, rfl, hp, hr⟩
      · have h1 : (advanceClock s).numBufs = s.numBufs := rfl
        have h2 : clearable (advanceClock s) = clearable s := rfl
        rw [h1, h2]
        omega
      · have h3 := clearable_clear (advanceClock s) _ hv hp hr
        have h1 : (setDesc (advanceClock s) (advanceClock s).clockHand
            { desc (advanceClock s) (advanceClock s).clockHand with
              refbit := false }).numBufs = s.numBufs := rfl
        have h2 : clearable (advanceClock s) = clearable s := rfl
        rw [h1]
        omega

/-- The loop of `allocBuf` returns within `2 * numBufs` passes from every state
whose descriptor table has `numBufs >= 1` entries: `allocBuf` is total there. -/
theorem allocBuf_returns (L : FileLayer σ) (H : DescOps) (frame : Nat) (s : BufMgr σ)
    (hn : 1 ≤ s.numBufs) (hl : s.bufTable.length = s.numBufs) :
    ∃ r, allocBuf L H frame s = some r := by
  apply allocBufLoop_returns
  have : clearable s ≤ s.bufTable.length := List.countP_le_length _
  omega

/-! ### What allocBuf touches -/

@[simp] theorem afterWrite_accesses (L : FileLayer σ) (m : BufMgr σ) :
    (afterWrite L m).bufStats.accesses = m.bufStats.accesses := by
  unfold afterWrite wroteBack; split <;> rfl

@[simp] theorem afterWrite_diskreads (L : FileLayer σ) (m : BufMgr σ) :
    (afterWrite L m).bufStats.diskreads = m.bufStats.diskreads := by
  unfold afterWrite wroteBack; split <;> rfl

theorem remove_snd_of_ne_ok (ht : BufHashTbl) (file : FilePtr) (pageNo : Int)
    (h : (ht.remove file pageNo).1 ≠ Status.OK) : (ht.remove file pageNo).2 = ht := by
  unfold BufHashTbl.remove at h ⊢
  split
  · rename_i hc
    rw [if_pos hc] at h
    exact absurd rfl h
  · rfl

theorem remove_snd_of_ok (ht : BufHashTbl) (file : FilePtr) (pageNo : Int)
    (h : (ht.remove file pageNo).1 = Status.OK) :
    (ht.remove file pageNo).2 = ht.eraseP (HashEntry.hasKey file pageNo) := by
  unfold BufHashTbl.remove at h ⊢
  split
  · rfl
  · rename_i hc
    rw [if_neg hc] at h
    cases h

theorem allocOutcome_static (L : FileLayer σ) (H : DescOps) (frame : Nat) {m : BufMgr σ}
    {st : Status} {k : Nat} {s' : BufMgr σ} (h : AllocOutcome L H frame m st k s') :
    s'.numBufs = m.numBufs ∧ s'.bufPool = m.bufPool ∧ s'.clockHand = m.clockHand ∧
    s'.bufTable.length = m.bufTable.length ∧
    s'.bufStats.accesses = m.bufStats.accesses ∧
    s'.bufStats.diskreads = m.bufStats.diskreads ∧
    (st = Status.OK → k = m.clockHand) ∧ (st ≠ Status.OK → k = frame) := by
  cases h with
  | free hv => exact ⟨rfl, rfl, rfl, rfl, rfl, rfl, fun _ => rfl, fun h => absurd rfl h⟩
  | exceeded hv hp =>
    exact ⟨rfl, rfl, rfl, rfl, rfl, rfl, fun h => Status.noConfusion h, fun _ => rfl⟩
  | writeFailed hv hp hr hd hne =>
    exact ⟨rfl, rfl, rfl, rfl, rfl, rfl, fun h => Status.noConfusion h, fun _ => rfl⟩
  | removeFailed hv hp hr hwr hne =>
    exact ⟨by simp, by simp, by simp, by simp, by simp, by simp,
      fun h => Status.noConfusion h, fun _ => rfl⟩
  | evicted hv hp hr hwr heq =>
    exact ⟨by simp [setDesc], by simp [setDesc], by simp [setDesc], by simp [setDesc],
      by simp [setDesc], by simp [setDesc], fun _ => rfl, fun h => absurd rfl h⟩

theorem allocOutcome_desc (L : FileLayer σ) (H : DescOps) (frame : Nat) {m : BufMgr σ}
    {st : Status} {k : Nat} {s' : BufMgr σ} (h : AllocOutcome L H frame m st k s') (i : Nat) :
    desc s' i = desc m i ∨
    (i = m.clockHand ∧ st = Status.OK ∧ (desc m i).valid = true ∧ ¬ (desc m i).pinCnt > 0 ∧
      (desc m i).refbit = false ∧ desc s' i = (desc m i).Clear H) := by
  cases h with
  | free hv => exact Or.inl rfl
  | exceeded hv hp => exact Or.inl rfl
  | writeFailed hv hp hr hd hne => exact Or.inl rfl
  | removeFailed hv hp hr hwr hne => exact Or.inl (desc_of_table (by simp) i)
  | evicted hv hp hr hwr heq =>
    by_cases hi : m.clockHand = i
    · subst hi
      right
      refine ⟨rfl, rfl, hv, hp, hr, ?_⟩
      apply desc_setDesc_self
      simp only [afterWrite_bufTable]
      exact desc_valid_lt hv
    · left
      rw [desc_setDesc_ne _ _ _ _ hi]
      exact desc_of_table (by simp) i

theorem allocOutcome_hash (L : FileLayer σ) (H : DescOps) (frame : Nat) {m : BufMgr σ}
    {st : Status} {k : Nat} {s' : BufMgr σ} (h : AllocOutcome L H frame m st k s') :
    s'.hashTable = m.hashTable ∨
    (st = Status.OK ∧ (desc m m.clockHand).valid = true ∧
      ¬ (desc m m.clockHand).pinCnt > 0 ∧
      s'.hashTable = m.hashTable.eraseP
        (HashEntry.hasKey (desc m m.clockHand).file (desc m m.clockHand).pageNo)) := by
  cases h with
  | free hv => exact Or.inl rfl
  | exceeded hv hp => exact Or.inl rfl
  | writeFailed hv hp hr hd hne => exact Or.inl rfl
  | removeFailed hv hp hr hwr hne => exact Or.inl (remove_snd_of_ne_ok _ _ _ hne)
  | evicted hv hp hr hwr heq => exact Or.inr ⟨rfl, hv, hp, remove_snd_of_ok _ _ _ heq⟩

theorem allocOutcome_ok (L : FileLayer σ) (H : DescOps) (frame : Nat) {m : BufMgr σ}
    {k : Nat} {s' : BufMgr σ} (h : AllocOutcome L H frame m Status.OK k s') :
    k = m.clockHand ∧
    (((desc m k).valid = false ∧ s' = m) ∨
     ((desc m k).valid = true ∧ ¬ (desc m k).pinCnt > 0 ∧ (desc m k).refbit = false)) := by
  cases h with
  | free hv => exact ⟨rfl, Or.inl ⟨hv, rfl⟩⟩
  | evicted hv hp hr hwr heq => exact ⟨rfl, Or.inr ⟨hv, hp, hr⟩⟩

/-! ### C2 -/

theorem allocOutcome_trace (L : FileLayer σ) (H : DescOps) (frame : Nat) {m : BufMgr σ}
    {k : Nat} {s' : BufMgr σ} (h : AllocOutcome L H frame m Status.OK k s') :
    ((desc m k).valid = false → s' = m) ∧
    ((desc m k).valid = true → (desc m k).dirty = true →
      s'.trace = m.trace ++
        [Event.fileWrite (desc m k).file (desc m k).pageNo (page m (desc m k).frameNo),
         Event.hashRemove (desc m k).file (desc m k).pageNo] ∧
      s'.bufStats.diskwrites = m.bufStats.diskwrites + 1 ∧
      s'.disk = (L.writePage m.disk (desc m k).file (desc m k).pageNo
        (page m (desc m k).frameNo)).2) ∧
    ((desc m k).valid = true → (desc m k).dirty = false →
      s'.trace = m.trace ++ [Event.hashRemove (desc m k).file (desc m k).pageNo] ∧
      s'.bufStats.diskwrites = m.bufStats.diskwrites ∧ s'.disk = m.disk) := by
  cases h with
  | free hv =>
    refine ⟨fun _ => rfl, fun h1 => ?_, fun h1 => ?_⟩ <;>
    · rw [hv] at h1; cases h1
  | evicted hv hp hr hwr heq =>
    refine ⟨fun h1 => ?_, fun _ hd => ?_, fun _ hd => ?_⟩
    · rw [hv] at h1; cases h1
    · simp [setDesc, afterWrite, wroteBack, hd]
    · simp [setDesc, afterWrite, hd]

theorem allocOutcome_victim (L : FileLayer σ) (H : DescOps) (frame : Nat) {m : BufMgr σ}
    {k : Nat} {s' : BufMgr σ} (h : AllocOutcome L H frame m Status.OK k s')
    (hv : (desc m k).valid = true) :
    desc s' k = (desc m k).Clear H ∧
    s'.hashTable = m.hashTable.eraseP (HashEntry.hasKey (desc m k).file (desc m k).pageNo) ∧
    ∀ i, i ≠ k → desc s' i = desc m i := by
  cases h with
  | free hv0 => rw [hv] at hv0; cases hv0
  | evicted hv0 hp hr hwr heq =>
    refine ⟨?_, remove_snd_of_ok _ _ _ heq, ?_⟩
    · apply desc_setDesc_self
      simp only [afterWrite_bufTable]
      exact desc_valid_lt hv0
    · intro i hi
      rw [desc_setDesc_ne _ _ _ _ (fun h => hi h.symm)]
      exact desc_of_table (by simp) i

/-- C3: dirty pages are written back before eviction.  When `allocBuf` returns
`OK` with frame `k` and that frame was valid and dirty before the call, the calls
it made are exactly `writePage(pageNo, bytes of frame k)` on the victim's file
followed by the hash removal of the victim's key, `diskwrites` has increased by
exactly 1, and afterwards the descriptor is cleared and the hash entry removed;
when frame `k` was invalid, no call was made at all, and when it was valid and
clean the only call is the hash removal: no `writePage`, `diskwrites` and the
storage unchanged. -/
theorem allocBuf_writes_back_dirty_victim (L : FileLayer σ) (H : DescOps) (frame : Nat)
    (s : BufMgr σ) (hw : WF s) {k : Nat} {s' : BufMgr σ}
    (h : allocBuf L H frame s = some (Status.OK, k, s')) :
    ((desc s k).valid = true → (desc s k).dirty = true →
      s'.trace = s.trace ++
        [Event.fileWrite (desc s k).file (desc s k).pageNo (page s k),
         Event.hashRemove (desc s k).file (desc s k).pageNo] ∧
      s'.bufStats.diskwrites = s.bufStats.diskwrites + 1 ∧
      s'.disk = (L.writePage s.disk (desc s k).file (desc s k).pageNo (page s k)).2 ∧
      (desc s' k).valid = false ∧
      s'.hashTable = s.hashTable.eraseP
        (HashEntry.hasKey (desc s k).file (desc s k).pageNo)) ∧
    ((desc s k).valid = false →
      s'.trace = s.trace ∧ s'.bufStats.diskwrites = s.bufStats.diskwrites ∧
      s'.disk = s.disk) ∧
    ((desc s k).valid = true → (desc s k).dirty = false →
      s'.trace = s.trace ++ [Event.hashRemove (desc s k).file (desc s k).pageNo] ∧
      s'.bufStats.diskwrites = s.bufStats.diskwrites ∧ s'.disk = s.disk) := by
  obtain ⟨m, hr, hc, ho⟩ := allocBuf_outcome L H frame s h
  have hc' : m.clockHand < s.numBufs := hc hw.1
  obtain ⟨hk, _⟩ := allocOutcome_ok L H frame ho
  obtain ⟨t1, t2, t3⟩ := allocOutcome_trace L H frame ho
  obtain ⟨fv, ff, fpn, ffr, _, fd⟩ := refOnly_fields hr k
  obtain ⟨_, rp, rh, rs, rd, rt, _, _⟩ := hr
  have hfr : (desc s k).frameNo = k := hw.2.2.2.2 k (by rw [hk]; exact hc')
  have hpage : page m (desc m k).frameNo = page s k := by
    rw [ffr, hfr]
    simp [page, rp]
  rw [fv, fd, ff, fpn, hpage, rt, rs, rd] at t2
  rw [fv, fd, fpn, ff, rt, rs, rd] at t3
  rw [fv] at t1
  refine ⟨?_, ?_, t3⟩
  · intro hv hd
    obtain ⟨a, b, c⟩ := t2 hv hd
    obtain ⟨v1, v2, _⟩ := allocOutcome_victim L H frame ho (by rw [fv]; exact hv)
    refine ⟨a, b, c, ?_, ?_⟩
    · rw [v1]; rfl
    · rw [v2, ff, fpn, rh]
  · intro hv
    have := t1 hv
    subst this
    exact ⟨rt, by rw [rs], rd⟩

theorem allocBuf_writes_back_dirty_victim_witness :
    WF exDirty ∧ allocBuf okLayer stdOps 0 exDirty = some (Status.OK, 0, exDirtyEvicted) ∧
    exDirtyEvicted.trace = exDirty.trace ++
        [Event.fileWrite (desc exDirty 0).file (desc exDirty 0).pageNo (page exDirty 0),
         Event.hashRemove (desc exDirty 0).file (desc exDirty 0).pageNo] ∧
    exDirtyEvicted.bufStats.diskwrites = exDirty.bufStats.diskwrites + 1 :=
  ⟨by decide, rfl,
    ((allocBuf_writes_back_dirty_victim okLayer stdOps 0 exDirty (by decide) rfl).1 rfl rfl).1,
    ((allocBuf_writes_back_dirty_victim okLayer stdOps 0 exDirty (by decide) rfl).1 rfl rfl).2.1⟩

/-! ### C4 -/

theorem exRead2_eq : readPage okLayer stdOps 1 6 exRead1 =
    some (Status.OK, some 1, exRead2) := by
  rfl

theorem exMixed_eq : unPinPage 1 6 false exRead2 = (Status.OK, exMixed) := by
  rfl

theorem exMixed_reachable : Reachable okLayer stdOps exMixed := by
  have h := Reachable.unPinPage 1 6 false (Reachable.readPage 1 6 exRead1_reachable exRead2_eq)
  rw [exMixed_eq] at h
  exact h

/-- C4 fails on the code.  `exMixed` is reached by `readPage(1,5)`, `readPage(1,6)`,
`unPinPage(1,6,false)` on a new pool of two frames: frame 1 is valid with
`pinCnt = 0`.  `allocBuf` returns `BUFFEREXCEEDED` there (and so does a `readPage`
of a page that is not resident): `numPinned` counts the pinned frame 0 twice,
once on each side of clearing the reference bit of frame 1. -/
theorem allocBuf_exceeded_with_unpinned_frame :
    Reachable okLayer stdOps exMixed ∧
    (desc exMixed 1).valid = true ∧ (desc exMixed 1).pinCnt = 0 ∧
    allocBuf okLayer stdOps 0 exMixed = some (Status.BUFFEREXCEEDED, 0, exMixedSwept) ∧
    readPage okLayer stdOps 1 7 exMixed = some (Status.BUFFEREXCEEDED, none, exMixedSwept) :=
  ⟨exMixed_reachable, rfl, rfl, rfl, rfl⟩

/-! ### C5 -/

theorem allocBufIter_allPinned (L : FileLayer σ) (H : DescOps) (np frame : Nat) (s : BufMgr σ)
    (hn : 1 ≤ s.numBufs) (hall : AllPinned s) :
    allocBufIter L H np frame s =
      if np + 1 ≥ s.numBufs then .ret .BUFFEREXCEEDED frame (advanceClock s)
      else .next (np + 1) (advanceClock s) := by
  have hlt : (advanceClock s).clockHand < s.numBufs := Nat.mod_lt _ hn
  obtain ⟨hv, hp⟩ := hall _ hlt
  have hv' : (desc (advanceClock s) (advanceClock s).clockHand).valid = true := hv
  have hp' : (desc (advanceClock s) (advanceClock s).clockHand).pinCnt > 0 := hp
  unfold allocBufIter
  simp only [hv', hp', Bool.not_true, Bool.false_eq_true, if_false, if_true]
  rfl

theorem allocBufLoop_allPinned (L : FileLayer σ) (H : DescOps) (frame : Nat) (j : Nat) :
    ∀ (fuel np : Nat) (s : BufMgr σ), AllPinned s → np + (j + 1) = s.numBufs → j + 1 ≤ fuel →
      allocBufLoop L H fuel np frame s =
        some (Status.BUFFEREXCEEDED, frame,
          { s with clockHand := (s.clockHand + (j + 1)) % s.numBufs }) := by
  induction j with
  | zero =>
    intro fuel np s hall hnp hf
    obtain ⟨f, rfl⟩ : ∃ f, fuel = f + 1 := ⟨fuel - 1, by omega⟩
    rw [allocBufLoop, allocBufIter_allPinned L H np frame s (by omega) hall,
      if_pos (by omega)]
    rfl
  | succ j ih =>
    intro fuel np s hall hnp hf
    obtain ⟨f, rfl⟩ : ∃ f, fuel = f + 1 := ⟨fuel - 1, by omega⟩
    rw [allocBufLoop, allocBufIter_allPinned L H np frame s (by omega) hall,
      if_neg (by omega)]
    simp only
    rw [ih f (np + 1) (advanceClock s) hall (by show np + 1 + (j + 1) = s.numBufs; omega)
      (by omega)]
    simp only [advanceClock, Nat.mod_add_mod]
    have e : s.clockHand + 1 + (j + 1) = s.clockHand + (j + 1 + 1) := by omega
    rw [e]

/-- C5: a fully pinned pool rejects a miss without changing anything.  When every
frame is valid with `pinCnt > 0` and `(file, PageNo)` has no hash entry,
`readPage` returns `BUFFEREXCEEDED`, assigns no page, and the whole state
(descriptors, hash table, pool, counters, clock hand, storage, and the trace of
file calls) is exactly the state before the call. -/
theorem readPage_all_pinned_rejects (L : FileLayer σ) (H : DescOps) (file : FilePtr)
    (PageNo : Int) (s : BufMgr σ) (hw : WF s) (hall : AllPinned s)
    (hfree : ∀ e, e ∈ s.hashTable → ¬ (e.file = file ∧ e.pageNo = PageNo)) :
    readPage L H file PageNo s = some (Status.BUFFEREXCEEDED, none, s) := by
  obtain ⟨w1, w2, w3, w4, w5⟩ := hw
  have ha : allocBuf L H 0 s = some (Status.BUFFEREXCEEDED, 0, s) := by
    unfold allocBuf
    obtain ⟨j, hj⟩ : ∃ j, s.numBufs = j + 1 := ⟨s.numBufs - 1, by omega⟩
    rw [allocBufLoop_allPinned L H 0 j (2 * s.numBufs) 0 s hall (by omega) (by omega)]
    have : (s.clockHand + (j + 1)) % s.numBufs = s.clockHand := by
      rw [← hj, Nat.add_mod_right, Nat.mod_eq_of_lt w4]
    rw [this]
  unfold readPage
  rcases lookup_cases s.hashTable file PageNo 0 with ⟨e, he, hf, hp, _⟩ | ⟨_, hl⟩
  · exact absurd ⟨hf, hp⟩ (hfree e he)
  · simp [hl, ha]

theorem readPage_all_pinned_rejects_witness :
    AllPinned exRead2 ∧
    readPage okLayer stdOps 1 7 exRead2 = some (Status.BUFFEREXCEEDED, none, exRead2) :=
  ⟨by decide,
   readPage_all_pinned_rejects okLayer stdOps 1 7 exRead2 (by decide) (by decide) (by decide)⟩

/-! ### C6 -/

/-- What `allocBuf` leaves alone, from any state with at least one frame. -/
theorem allocBuf_frame (L : FileLayer σ) (H : DescOps) (frame : Nat) (s : BufMgr σ)
    (hn : 1 ≤ s.numBufs) {st : Status} {k : Nat} {s' : BufMgr σ}
    (h : allocBuf L H frame s = some (st, k, s')) :
    s'.numBufs = s.numBufs ∧ s'.bufPool = s.bufPool ∧
    s'.bufTable.length = s.bufTable.length ∧
    s'.bufStats.accesses = s.bufStats.accesses ∧
    s'.bufStats.diskreads = s.bufStats.diskreads ∧
    s'.clockHand < s.numBufs ∧
    (∀ e, e ∈ s'.hashTable → e ∈ s.hashTable) ∧
    (st = Status.OK → k < s.numBufs ∧ (desc s' k).valid = false ∧
      (desc s' k).frameNo = (desc s k).frameNo) := by
  obtain ⟨m, hr, hc, ho⟩ := allocBuf_outcome L H frame s h
  have hc' : m.clockHand < s.numBufs := hc hn
  obtain ⟨a1, a2, a3, a4, a5, a6, a7, _⟩ := allocOutcome_static L H frame ho
  have hr0 := hr
  obtain ⟨r1, r2, r3, r4, r5, r6, r7, _⟩ := hr0
  refine ⟨a1.trans r1, a2.trans r2, a4.trans r7, by rw [a5, r4], by rw [a6, r4],
    by rw [a3]; exact hc', ?_, ?_⟩
  · intro e he
    rcases allocOutcome_hash L H frame ho with hh | ⟨_, _, _, hh⟩
    · rw [hh, r3] at he; exact he
    · rw [hh, r3] at he; exact List.mem_of_mem_eraseP he
  · intro hok
    subst hok
    obtain ⟨hk, hcase⟩ := allocOutcome_ok L H frame ho
    obtain ⟨_, _, _, ffr, _, _⟩ := refOnly_fields hr k
    refine ⟨by rw [hk]; exact hc', ?_⟩
    rcases hcase with ⟨hv, rfl⟩ | ⟨hv, _, _⟩
    · exact ⟨hv, ffr⟩
    · obtain ⟨v1, _, _⟩ := allocOutcome_victim L H frame ho hv
      rw [v1]
      exact ⟨rfl, ffr⟩

theorem lookup_cons_self (ht : BufHashTbl) (file : FilePtr) (pageNo : Int) (k d : Nat) :
    BufHashTbl.lookup (⟨file, pageNo, k⟩ :: ht) file pageNo d = (Status.OK, k) := by
  simp [BufHashTbl.lookup, HashEntry.hasKey]

theorem page_set_self (l : List Page) (k : Nat) (v : Page) (hk : k < l.length) :
    (l.set k v).getD k 0 = v := by
  simp [List.getD_eq_getElem?_getD, List.getElem?_set, hk]

/-- C6: `readPage` on a miss installs the page.  In a well-formed state where
`(file, PageNo)` has no hash entry, if `allocBuf` returns `OK` with frame `k` and
the file read succeeds, then `readPage` returns `OK` with a reference to pool
frame `k`; the bytes of frame `k` are those the file read delivered; the hash
table maps `(file, PageNo)` to `k`; descriptor `k` is valid, clean, pinned once,
and holds `(file, PageNo)`; `diskreads` and `accesses` have each increased by
exactly 1. -/
theorem readPage_miss_installs (L : FileLayer σ) (H : DescOps) (file : FilePtr)
    (PageNo : Int) (s : BufMgr σ) (hw : WF s)
    (hfree : ∀ e, e ∈ s.hashTable → ¬ (e.file = file ∧ e.pageNo = PageNo))
    {k : Nat} {s1 : BufMgr σ} (ha : allocBuf L H 0 s = some (Status.OK, k, s1))
    (hrd : (L.readPage s1.disk file PageNo (page s1 k)).1 = Status.OK) :
    ∃ s', readPage L H file PageNo s = some (Status.OK, some k, s') ∧
      page s' k = (L.readPage s1.disk file PageNo (page s1 k)).2.1 ∧
      s'.hashTable.lookup file PageNo 0 = (Status.OK, k) ∧
      (desc s' k).valid = true ∧ (desc s' k).dirty = false ∧ (desc s' k).pinCnt = 1 ∧
      (desc s' k).file = file ∧ (desc s' k).pageNo = PageNo ∧
      s'.bufStats.diskreads = s.bufStats.diskreads + 1 ∧
      s'.bufStats.accesses = s.bufStats.accesses + 1 := by
  obtain ⟨w1, w2, w3, w4, w5⟩ := hw
  obtain ⟨f1, f2, f3, f4, f5, f6, f7, f8⟩ := allocBuf_frame L H 0 s w1 ha
  obtain ⟨hk, hvk, _⟩ := f8 rfl
  have hfree1 : ∀ e, e ∈ s1.hashTable → ¬ (e.file = file ∧ e.pageNo = PageNo) :=
    fun e he => hfree e (f7 e he)
  rcases lookup_cases s.hashTable file PageNo 0 with ⟨e, he, hf, hp, _⟩ | ⟨_, hl⟩
  · exact absurd ⟨hf, hp⟩ (hfree e he)
  · unfold readPage
    simp only [hl, reduceCtorEq, if_false, if_true, ha, ne_eq, not_true_eq_false, hrd,
      insert_of_free _ _ _ k hfree1]
    refine ⟨_, rfl, ?_, ?_, ?_, ?_, ?_, ?_, ?_, ?_, ?_⟩
    · show (s1.bufPool.set k _).getD k 0 = _
      exact page_set_self _ _ _ (by rw [f2, w3]; exact hk)
    · exact lookup_cons_self _ _ _ _ _
    · rw [desc_setDesc_self _ _ _ (by show k < s1.bufTable.length; omega)]; rfl
    · rw [desc_setDesc_self _ _ _ (by show k < s1.bufTable.length; omega)]; rfl
    · rw [desc_setDesc_self _ _ _ (by show k < s1.bufTable.length; omega)]; rfl
    · rw [desc_setDesc_self _ _ _ (by show k < s1.bufTable.length; omega)]; rfl
    · rw [desc_setDesc_self _ _ _ (by show k < s1.bufTable.length; omega)]; rfl
    · show s1.bufStats.diskreads + 1 = _
      rw [f5]
    · show s1.bufStats.accesses + 1 = _
      rw [f4]

theorem readPage_miss_installs_witness :
    readPage okLayer stdOps 1 6 exRead1 = some (Status.OK, some 1, exRead2) ∧
    ∃ s', readPage okLayer stdOps 1 6 exRead1 = some (Status.OK, some 1, s') ∧
      page s' 1 = 106 ∧
      s'.hashTable.lookup 1 6 0 = (Status.OK, 1) ∧
      (desc s' 1).valid = true ∧ (desc s' 1).dirty = false ∧ (desc s' 1).pinCnt = 1 ∧
      (desc s' 1).file = 1 ∧ (desc s' 1).pageNo = 6 ∧
      s'.bufStats.diskreads = exRead1.bufStats.diskreads + 1 ∧
      s'.bufStats.accesses = exRead1.bufStats.accesses + 1 :=
  ⟨rfl, readPage_miss_installs okLayer stdOps 1 6 exRead1 (by decide) (by decide)
    (show allocBuf okLayer stdOps 0 exRead1 = some (Status.OK, 1, advanceClock exRead1)
      from rfl) rfl⟩

/-! ### C7 -/

/-- C8: a failed disk read on the miss path leaks nothing.  In a well-formed state
that satisfies the hash/frame invariant, for a page with no hash entry, if
`allocBuf` returns `OK` with frame `k` and the file read then fails, `readPage`
returns `UNIXERR` and assigns no page; afterwards frame `k` is invalid, the hash
table has no entry for `(file, PageNo)` and no entry pointing at frame `k`, and
`diskreads` and `accesses` are unchanged. -/
theorem readPage_failed_read_leaks_nothing (L : FileLayer σ) (H : DescOps) (file : FilePtr)
    (PageNo : Int) (s : BufMgr σ) (hw : WF s) (hinv : HashInv s)
    (hfree : ∀ e, e ∈ s.hashTable → ¬ (e.file = file ∧ e.pageNo = PageNo))
    {k : Nat} {s1 : BufMgr σ} (ha : allocBuf L H 0 s = some (Status.OK, k, s1))
    (hrd : (L.readPage s1.disk file PageNo (page s1 k)).1 ≠ Status.OK) :
    ∃ s', readPage L H file PageNo s = some (Status.UNIXERR, none, s') ∧
      (desc s' k).valid = false ∧
      (∀ e, e ∈ s'.hashTable → ¬ (e.file = file ∧ e.pageNo = PageNo)) ∧
      (∀ e, e ∈ s'.hashTable → e.frameNo ≠ k) ∧
      s'.bufStats.diskreads = s.bufStats.diskreads ∧
      s'.bufStats.accesses = s.bufStats.accesses := by
  obtain ⟨g1, _, sub1, ok1, _⟩ := allocBuf_good L H 0 ⟨hw, hinv⟩ ha
  obtain ⟨hk, hvk⟩ := ok1 rfl
  obtain ⟨_, _, _, f4, f5, _, _, _⟩ := allocBuf_frame L H 0 s hw.1 ha
  rcases lookup_cases s.hashTable file PageNo 0 with ⟨e, he, hf, hp, _⟩ | ⟨_, hl⟩
  · exact absurd ⟨hf, hp⟩ (hfree e he)
  · unfold readPage
    simp only [hl, reduceCtorEq, if_false, if_true, ha, ne_eq, not_true_eq_false, hrd,
      not_false_eq_true]
    refine ⟨_, rfl, hvk, ?_, ?_, f5, f4⟩
    · intro e he
      exact hfree e (sub1 e he)
    · intro e he hek
      obtain ⟨_, e2, _, _⟩ := good_frame_of_entry g1 he
      rw [hek, hvk] at e2
      cases e2

theorem readPage_failed_read_leaks_nothing_witness :
    readPage failLayer stdOps 1 5 (BufMgr.new 2 ()) =
      some (Status.UNIXERR, none, exReadFailed) ∧
    ∃ s', readPage failLayer stdOps 1 5 (BufMgr.new 2 ()) = some (Status.UNIXERR, none, s') ∧
      (desc s' 0).valid = false ∧
      (∀ e, e ∈ s'.hashTable → ¬ (e.file = 1 ∧ e.pageNo = 5)) ∧
      (∀ e, e ∈ s'.hashTable → e.frameNo ≠ 0) ∧
      s'.bufStats.diskreads = (BufMgr.new 2 ()).bufStats.diskreads ∧
      s'.bufStats.accesses = (BufMgr.new 2 ()).bufStats.accesses :=
  ⟨rfl, readPage_failed_read_leaks_nothing failLayer stdOps 1 5 (BufMgr.new 2 ())
    (by decide) (by decide) (by decide)
    (show allocBuf failLayer stdOps 0 (BufMgr.new 2 ()) =
      some (Status.OK, 0, advanceClock (BufMgr.new 2 ())) from rfl)
    (by decide)⟩

/-! ### C9 -/

/-- C9: `unPinPage` matches its reference definition for every state, file, page
number and dirty flag.  Spelled out: with no hash entry it returns `HASHNOTFOUND`
and the state is unchanged; when the entry names a frame with `pinCnt = 0` it
returns `PAGENOTPINNED` and the state is unchanged; otherwise (the frame being an
index of the table) it returns `OK`, the frame's `pinCnt` is down by exactly 1 and
stays non-negative if it was, its dirty bit is `old dirty OR dirty flag`, and no
other field of the frame, no other frame, no hash entry and no counter changes. -/
theorem unPinPage_matches_reference (file : FilePtr) (PageNo : Int) (dirty : Bool)
    (s : BufMgr σ) :
    unPinPage file PageNo dirty s = unPinPageRef file PageNo dirty s ∧
    ((s.hashTable.lookup file PageNo 0).1 ≠ Status.OK →
      unPinPage file PageNo dirty s = (Status.HASHNOTFOUND, s)) ∧
    (∀ k, s.hashTable.lookup file PageNo 0 = (Status.OK, k) → (desc s k).pinCnt = 0 →
      unPinPage file PageNo dirty s = (Status.PAGENOTPINNED, s)) ∧
    (∀ k, s.hashTable.lookup file PageNo 0 = (Status.OK, k) → (desc s k).pinCnt ≠ 0 →
      k < s.bufTable.length →
      (unPinPage file PageNo dirty s).1 = Status.OK ∧
      (desc (unPinPage file PageNo dirty s).2 k).pinCnt = (desc s k).pinCnt - 1 ∧
      (0 ≤ (desc s k).pinCnt → 0 ≤ (desc (unPinPage file PageNo dirty s).2 k).pinCnt) ∧
      (desc (unPinPage file PageNo dirty s).2 k).dirty = ((desc s k).dirty || dirty) ∧
      (desc (unPinPage file PageNo dirty s).2 k).valid = (desc s k).valid ∧
      (desc (unPinPage file PageNo dirty s).2 k).file = (desc s k).file ∧
      (desc (unPinPage file PageNo dirty s).2 k).pageNo = (desc s k).pageNo ∧
      (desc (unPinPage file PageNo dirty s).2 k).refbit = (desc s k).refbit ∧
      (desc (unPinPage file PageNo dirty s).2 k).frameNo = (desc s k).frameNo ∧
      (∀ i, i ≠ k → desc (unPinPage file PageNo dirty s).2 i = desc s i) ∧
      (unPinPage file PageNo dirty s).2.hashTable = s.hashTable ∧
      (unPinPage file PageNo dirty s).2.bufStats = s.bufStats ∧
      (unPinPage file PageNo dirty s).2.bufPool = s.bufPool ∧
      (unPinPage file PageNo dirty s).2.clockHand = s.clockHand ∧
      (unPinPage file PageNo dirty s).2.trace = s.trace ∧
      (unPinPage file PageNo dirty s).2.disk = s.disk) := by
  refine ⟨?_, ?_, ?_, ?_⟩
  · unfold unPinPage unPinPageRef BufHashTbl.lookup
    cases hf : s.hashTable.find? (HashEntry.hasKey file PageNo) with
    | none => simp
    | some e =>
      simp only [ne_eq, not_true_eq_false, if_false]
      split
      · rfl
      · cases dirty <;> simp
  · intro h
    unfold unPinPage
    simp only [h, ne_eq, not_false_eq_true, if_true]
  · intro k hl h0
    unfold unPinPage
    simp only [hl, ne_eq, not_true_eq_false, if_false, h0, if_true]
  · intro k hl hne hk
    have hu : unPinPage file PageNo dirty s =
        (Status.OK, setDesc s k
          (if dirty = true then { desc s k with pinCnt := (desc s k).pinCnt - 1, dirty := true }
           else { desc s k with pinCnt := (desc s k).pinCnt - 1 })) := by
      unfold unPinPage
      simp only [hl, ne_eq, not_true_eq_false, if_false, hne]
    rw [hu]
    simp only
    rw [desc_setDesc_self _ _ _ hk]
    refine ⟨trivial, ?_, ?_, ?_, ?_, ?_, ?_, ?_, ?_, ?_, rfl, rfl, rfl, rfl, rfl, rfl⟩
    · cases dirty <;> rfl
    · intro h
      have : (0 : Int) ≤ (desc s k).pinCnt - 1 := by omega
      cases dirty <;> exact this
    · cases dirty <;> simp
    · cases dirty <;> rfl
    · cases dirty <;> rfl
    · cases dirty <;> rfl
    · cases dirty <;> rfl
    · cases dirty <;> rfl
    · intro i hi
      exact desc_setDesc_ne _ _ _ _ (fun h => hi h.symm)

theorem unPinPage_matches_reference_witness :
    unPinPage 1 6 true exRead2 = (Status.OK, exUnpinDirty) ∧
    unPinPage 1 6 true exRead2 = unPinPageRef 1 6 true exRead2 :=
  ⟨rfl, (unPinPage_matches_reference 1 6 true exRead2).1⟩

/-! ### C10 -/

theorem owned_iff (file : FilePtr) (d : BufDesc) :
    owned file d = true ↔ d.valid = true ∧ d.file = file := by
  simp [owned]

theorem mem_remove_other (ht : BufHashTbl) (file : FilePtr) (pageNo : Int) (e : HashEntry)
    (he : e.file ≠ file) : e ∈ (ht.remove file pageNo).2 ↔ e ∈ ht := by
  unfold BufHashTbl.remove
  split
  · apply List.mem_eraseP_of_neg
    intro hk
    exact he ((hasKey_iff _ _ _).1 hk).1
  · exact Iff.rfl

theorem flushFrame_desc (file : FilePtr) (i : Nat) (s : BufMgr σ)
    (hi : i < s.bufTable.length) (j : Nat) :
    desc (flushFrame file i s) j =
      if j = i then { desc s i with file := NULL, pageNo := -1, valid := false }
      else desc s j := by
  unfold flushFrame
  simp only
  rw [desc_setDesc]
  by_cases hj : i = j
  · subst hj
    rw [if_pos ⟨rfl, hi⟩, if_pos rfl]
  · rw [if_neg (fun h => hj h.1), if_neg (fun h => hj h.symm)]
    rfl

theorem flushFrame_trace (file : FilePtr) (i : Nat) (s : BufMgr σ) :
    (flushFrame file i s).trace = s.trace ++ [Event.hashRemove file (desc s i).pageNo] := rfl

theorem flushFrame_hash (file : FilePtr) (i : Nat) (s : BufMgr σ) :
    (flushFrame file i s).hashTable = (s.hashTable.remove file (desc s i).pageNo).2 := rfl

theorem flushFrame_static (file : FilePtr) (i : Nat) (s : BufMgr σ) :
    (flushFrame file i s).bufPool = s.bufPool ∧ (flushFrame file i s).numBufs = s.numBufs ∧
    (flushFrame file i s).clockHand = s.clockHand ∧
    (flushFrame file i s).bufTable.length = s.bufTable.length ∧
    (flushFrame file i s).bufStats = s.bufStats ∧ (flushFrame file i s).disk = s.disk := by
  simp [flushFrame, setDesc]

/-- One pass of the `flushFile` loop that does not return: the state it hands to
the next pass. -/
theorem flushFileLoop_step (L : FileLayer σ) (file : FilePtr) (n i : Nat) (s : BufMgr σ)
    (hi : i < s.bufTable.length) (hok : (flushFileLoop L file (n + 1) i s).1 = Status.OK) :
    ∃ s1 t, flushFileLoop L file (n + 1) i s = flushFileLoop L file n (i + 1) s1 ∧
      (∀ j, desc s1 j =
        if j = i ∧ owned file (desc s i) = true then flushedDesc (desc s i) else desc s j) ∧
      (∀ e : HashEntry, e.file ≠ file → (e ∈ s1.hashTable ↔ e ∈ s.hashTable)) ∧
      s1.trace = s.trace ++ t ∧
      t.filter Event.isWrite =
        (if owned file (desc s i) = true ∧ (desc s i).dirty = true
         then [Event.fileWrite file (desc s i).pageNo (page s i)] else []) ∧
      s1.bufPool = s.bufPool ∧ s1.numBufs = s.numBufs ∧ s1.clockHand = s.clockHand ∧
      s1.bufTable.length = s.bufTable.length ∧ s1.bufStats = s.bufStats := by
  rw [flushFileLoop] at hok ⊢
  simp only at hok ⊢
  by_cases hvf : (desc s i).valid = true ∧ (desc s i).file = file
  · have hown : owned file (desc s i) = true := (owned_iff _ _).2 hvf
    rw [if_pos hvf] at hok ⊢
    by_cases hp : (desc s i).pinCnt > 0
    · rw [if_pos hp] at hok; cases hok
    · rw [if_neg hp] at hok ⊢
      by_cases hd : (desc s i).dirty = true
      · rw [if_pos hd] at hok ⊢
        by_cases hwr : (L.writePage s.disk (desc s i).file (desc s i).pageNo (page s i)).1
            ≠ Status.OK
        · rw [if_pos hwr] at hok
          exact absurd hok hwr
        · rw [if_neg hwr] at hok ⊢
          obtain ⟨s0, hs0⟩ : ∃ s0, s0 = setDesc { s with
              disk := (L.writePage s.disk (desc s i).file (desc s i).pageNo (page s i)).2,
              trace := s.trace ++
                [Event.fileWrite (desc s i).file (desc s i).pageNo (page s i)] } i
              { desc s i with dirty := false } := ⟨_, rfl⟩
          rw [← hs0]
          have hl0 : s0.bufTable.length = s.bufTable.length := by
            rw [hs0]; simp [setDesc]
          have d0 : ∀ j, desc s0 j =
              if j = i then { desc s i with dirty := false } else desc s j := by
            intro j
            rw [hs0, desc_setDesc]
            by_cases hj : i = j
            · subst hj
              rw [if_pos ⟨rfl, hi⟩, if_pos rfl]
            · rw [if_neg (fun h => hj h.1), if_neg (fun h => hj h.symm)]
              rfl
          have t0 : s0.trace = s.trace ++
              [Event.fileWrite (desc s i).file (desc s i).pageNo (page s i)] := by
            rw [hs0]; rfl
          have h0 : s0.hashTable = s.hashTable := by rw [hs0]; rfl
          have p0 : s0.bufPool = s.bufPool ∧ s0.numBufs = s.numBufs ∧
              s0.clockHand = s.clockHand ∧ s0.bufStats = s.bufStats := by
            rw [hs0]; exact ⟨rfl, rfl, rfl, rfl⟩
          obtain ⟨f1, f2, f3, f4, f5, _⟩ := flushFrame_static file i s0
          refine ⟨flushFrame file i s0,
            [Event.fileWrite (desc s i).file (desc s i).pageNo (page s i),
             Event.hashRemove file (desc s0 i).pageNo], rfl, ?_, ?_, ?_, ?_,
            f1.trans p0.1, f2.trans p0.2.1, f3.trans p0.2.2.1, f4.trans hl0,
            f5.trans p0.2.2.2⟩
          · intro j
            rw [flushFrame_desc file i s0 (by rw [hl0]; exact hi) j]
            by_cases hj : j = i
            · subst hj
              rw [if_pos rfl, if_pos ⟨rfl, hown⟩, d0, if_pos rfl]
              rfl
            · rw [if_neg hj, if_neg (fun h => hj h.1), d0, if_neg hj]
          · intro e he
            rw [flushFrame_hash, h0]
            exact mem_remove_other _ _ _ _ he
          · rw [flushFrame_trace, t0]
            simp
          · simp [Event.isWrite, hown, hd, hvf.2]
      · rw [if_neg hd] at hok ⊢
        obtain ⟨f1, f2, f3, f4, f5, _⟩ := flushFrame_static file i s
        refine ⟨flushFrame file i s, [Event.hashRemove file (desc s i).pageNo], rfl, ?_, ?_,
          flushFrame_trace file i s, ?_, f1, f2, f3, f4, f5⟩
        · intro j
          rw [flushFrame_desc file i s hi j]
          by_cases hj : j = i
          · subst hj
            rw [if_pos rfl, if_pos ⟨rfl, hown⟩]
            have : (desc s j).dirty = false := by simpa using hd
            simp [flushedDesc, ← this]
          · rw [if_neg hj, if_neg (fun h => hj h.1)]
        · intro e he
          rw [flushFrame_hash]
          exact mem_remove_other _ _ _ _ he
        · simp [Event.isWrite, hd]
  · have hown : ¬ owned file (desc s i) = true := fun h => hvf ((owned_iff _ _).1 h)
    rw [if_neg hvf] at hok ⊢
    by_cases hb : (desc s i).valid = false ∧ (desc s i).file = file
    · rw [if_pos hb] at hok; cases hok
    · rw [if_neg hb] at hok ⊢
      refine ⟨s, [], rfl, ?_, fun _ _ => Iff.rfl, by simp, ?_, rfl, rfl, rfl, rfl, rfl⟩
      · intro j
        simp [hown]
      · simp [hown]

theorem flushWrites_succ (file : FilePtr) (s : BufMgr σ) (i n : Nat) :
    flushWrites file s i (n + 1) =
      (if owned file (desc s i) = true ∧ (desc s i).dirty = true
       then [Event.fileWrite file (desc s i).pageNo (page s i)] else []) ++
      flushWrites file s (i + 1) n := by
  unfold flushWrites
  rw [List.range'_succ, List.filter_cons]
  by_cases h : owned file (desc s i) = true ∧ (desc s i).dirty = true
  · rw [if_pos h, if_pos (by simp [h.1, h.2])]
    rfl
  · rw [if_neg h, if_neg (by simpa using h)]
    rfl

theorem flushWrites_congr (file : FilePtr) (s t : BufMgr σ) (i n : Nat)
    (hd : ∀ j, i ≤ j → desc t j = desc s j) (hp : t.bufPool = s.bufPool) :
    flushWrites file t i n = flushWrites file s i n := by
  unfold flushWrites
  have hf : (List.range' i n).filter (fun j => owned file (desc t j) && (desc t j).dirty) =
      (List.range' i n).filter (fun j => owned file (desc s j) && (desc s j).dirty) := by
    apply List.filter_congr
    intro j hj
    rw [hd j (List.mem_range'_1.1 hj).1]
  rw [hf]
  apply List.map_congr_left
  intro j hj
  have hj' := (List.mem_range'_1.1 (List.mem_of_mem_filter hj)).1
  rw [hd j hj']
  simp [page, hp]

theorem flushFileLoop_ok (L : FileLayer σ) (file : FilePtr) (n : Nat) :
    ∀ (i : Nat) (s : BufMgr σ), i + n ≤ s.bufTable.length →
      (flushFileLoop L file n i s).1 = Status.OK →
      ∃ t, (∀ j, desc (flushFileLoop L file n i s).2 j =
          if i ≤ j ∧ j < i + n ∧ owned file (desc s j) = true then flushedDesc (desc s j)
          else desc s j) ∧
        (∀ e : HashEntry, e.file ≠ file →
          (e ∈ (flushFileLoop L file n i s).2.hashTable ↔ e ∈ s.hashTable)) ∧
        (flushFileLoop L file n i s).2.trace = s.trace ++ t ∧
        t.filter Event.isWrite = flushWrites file s i n ∧
        (flushFileLoop L file n i s).2.bufPool = s.bufPool ∧
        (flushFileLoop L file n i s).2.numBufs = s.numBufs ∧
        (flushFileLoop L file n i s).2.clockHand = s.clockHand ∧
        (flushFileLoop L file n i s).2.bufTable.length = s.bufTable.length ∧
        (flushFileLoop L file n i s).2.bufStats = s.bufStats := by
  induction n with
  | zero =>
    intro i s _ _
    refine ⟨[], ?_, fun _ _ => Iff.rfl, by simp [flushFileLoop], rfl, rfl, rfl, rfl, rfl, rfl⟩
    intro j
    rw [if_neg (by omega)]
    rfl
  | succ n ih =>
    intro i s hin hok
    have hi : i < s.bufTable.length := by omega
    obtain ⟨s1, t1, heq, d1, h1, tr1, w1, p1, n1, c1, l1, b1⟩ :=
      flushFileLoop_step L file n i s hi hok
    rw [heq] at hok ⊢
    obtain ⟨t2, d2, h2, tr2, w2, p2, n2, c2, l2, b2⟩ :=
      ih (i + 1) s1 (by rw [l1]; omega) hok
    have hd1 : ∀ j, i + 1 ≤ j → desc s1 j = desc s j := by
      intro j hj
      rw [d1 j, if_neg (fun h => by omega)]
    refine ⟨t1 ++ t2, ?_, ?_, ?_, ?_, p2.trans p1, n2.trans n1, c2.trans c1, l2.trans l1,
      b2.trans b1⟩
    · intro j
      rw [d2 j]
      by_cases hj : i + 1 ≤ j
      · rw [hd1 j hj]
        by_cases hc : j < i + 1 + n ∧ owned file (desc s j) = true
        · rw [if_pos ⟨hj, hc⟩, if_pos ⟨by omega, by omega, hc.2⟩]
        · rw [if_neg (fun h => hc h.2), if_neg (fun h => hc ⟨by omega, h.2.2⟩)]
      · rw [if_neg (fun h => hj h.1), d1 j]
        by_cases hji : j = i
        · subst hji
          by_cases ho : owned file (desc s j) = true
          · rw [if_pos ⟨rfl, ho⟩, if_pos ⟨le_refl _, by omega, ho⟩]
          · rw [if_neg (fun h => ho h.2), if_neg (fun h => ho h.2.2)]
        · rw [if_neg (fun h => hji h.1), if_neg (fun h => by omega)]
    · intro e he
      rw [h2 e he, h1 e he]
    · rw [tr2, tr1, List.append_assoc]
    · rw [List.filter_append, w1, w2, flushWrites_succ,
        flushWrites_congr file s s1 (i + 1) n hd1 p1]

theorem flushWrites_nodup (file : FilePtr) (s : BufMgr σ) (h3 : I3 s) :
    (flushWrites file s 0 s.numBufs).Nodup := by
  unfold flushWrites
  apply List.Nodup.map_on
  · intro x hx y hy hxy
    obtain ⟨hxr, hxo⟩ := List.mem_filter.1 hx
    obtain ⟨hyr, hyo⟩ := List.mem_filter.1 hy
    have hxn : x < s.numBufs := by have := (List.mem_range'_1.1 hxr).2; omega
    have hyn : y < s.numBufs := by have := (List.mem_range'_1.1 hyr).2; omega
    simp only [Bool.and_eq_true] at hxo hyo
    obtain ⟨vx, fx⟩ := (owned_iff _ _).1 hxo.1
    obtain ⟨vy, fy⟩ := (owned_iff _ _).1 hyo.1
    injection hxy with _ hpn _
    exact h3 x hxn y hyn vx vy ⟨fx.trans fy.symm, hpn⟩
  · exact List.Nodup.filter _ (List.nodup_range' 0 s.numBufs)

/-- C10: a successful `flushFile` empties the file out of the pool and touches
nothing else.  From a well-formed state satisfying the hash/frame invariant, if
`flushFile(file)` returns `OK`, then afterwards no valid frame belongs to `file`
and the hash table has no entry of `file`; the `writePage` calls made are, in frame
order, one per frame that was valid, dirty and owned by `file`, each on `file`
with that frame's page number and bytes, and each such call occurs exactly once;
every frame that was valid for `file` ends with `valid = false`, `dirty = false`,
`file = NULL`, `pageNo = -1` (pin count, reference bit and frame number kept);
every other descriptor, every hash entry of another file, and the page pool are
unchanged. -/
theorem flushFile_ok_empties_file (L : FileLayer σ) (file : FilePtr) (s : BufMgr σ)
    (hw : WF s) (hinv : HashInv s) (hok : (flushFile L file s).1 = Status.OK) :
    (∀ i, i < s.numBufs → ¬ ((desc (flushFile L file s).2 i).valid = true ∧
      (desc (flushFile L file s).2 i).file = file)) ∧
    (∀ e, e ∈ (flushFile L file s).2.hashTable → e.file ≠ file) ∧
    (∃ t, (flushFile L file s).2.trace = s.trace ++ t ∧
      t.filter Event.isWrite = flushWrites file s 0 s.numBufs ∧
      ∀ i, i < s.numBufs → (desc s i).valid = true → (desc s i).file = file →
        (desc s i).dirty = true →
        t.count (Event.fileWrite file (desc s i).pageNo (page s i)) = 1) ∧
    (∀ i, i < s.numBufs → (desc s i).valid = true → (desc s i).file = file →
      desc (flushFile L file s).2 i = flushedDesc (desc s i)) ∧
    (∀ i, ¬ ((desc s i).valid = true ∧ (desc s i).file = file) →
      desc (flushFile L file s).2 i = desc s i) ∧
    (∀ e : HashEntry, e.file ≠ file →
      (e ∈ (flushFile L file s).2.hashTable ↔ e ∈ s.hashTable)) ∧
    (flushFile L file s).2.bufPool = s.bufPool := by
  obtain ⟨w1, w2, w3, w4, w5⟩ := hw
  have hg' : Good (flushFile L file s).2 := flushFile_good L file ⟨⟨w1, w2, w3, w4, w5⟩, hinv⟩
  unfold flushFile at hok hg' ⊢
  obtain ⟨t, hd, hh, htr, hwt, hp, hn, _, _, _⟩ :=
    flushFileLoop_ok L file s.numBufs 0 s (by omega) hok
  have hflushed : ∀ i, i < s.numBufs → (desc s i).valid = true → (desc s i).file = file →
      desc (flushFileLoop L file s.numBufs 0 s).2 i = flushedDesc (desc s i) := by
    intro i hi hv hf
    rw [hd i, if_pos ⟨Nat.zero_le _, by omega, (owned_iff _ _).2 ⟨hv, hf⟩⟩]
  have hkept : ∀ i, ¬ ((desc s i).valid = true ∧ (desc s i).file = file) →
      desc (flushFileLoop L file s.numBufs 0 s).2 i = desc s i := by
    intro i hno
    rw [hd i, if_neg (fun h => hno ((owned_iff _ _).1 h.2.2))]
  have hnone : ∀ i, i < s.numBufs →
      ¬ ((desc (flushFileLoop L file s.numBufs 0 s).2 i).valid = true ∧
        (desc (flushFileLoop L file s.numBufs 0 s).2 i).file = file) := by
    intro i hi
    by_cases ho : (desc s i).valid = true ∧ (desc s i).file = file
    · rw [hflushed i hi ho.1 ho.2]
      intro h
      cases h.1
    · rw [hkept i ho]
      exact ho
  refine ⟨hnone, ?_, ⟨t, htr, hwt, ?_⟩, hflushed, hkept, hh, hp⟩
  · intro e he hef
    obtain ⟨e1, e2, e3, _⟩ := good_frame_of_entry hg' he
    rw [hn] at e1
    exact hnone e.frameNo e1 ⟨e2, e3.trans hef⟩
  · intro i hi hv hf hdirty
    have hmem : Event.fileWrite file (desc s i).pageNo (page s i) ∈
        flushWrites file s 0 s.numBufs := by
      unfold flushWrites
      apply List.mem_map.2
      refine ⟨i, List.mem_filter.2 ⟨List.mem_range'_1.2 ⟨Nat.zero_le _, by omega⟩, ?_⟩, rfl⟩
      simp [(owned_iff _ _).2 ⟨hv, hf⟩, hdirty]
    have hc := List.count_eq_one_of_mem (flushWrites_nodup file s hinv.2.2) hmem
    rw [← hwt, List.count_filter (by rfl)] at hc
    exact hc

theorem exFlushed_eq : flushFile okLayer 1 exFlushable = (Status.OK, exFlushed) := by
  rfl

theorem flushFile_ok_empties_file_witness :
    flushFile okLayer 1 exFlushable = (Status.OK, exFlushed) ∧
    flushWrites 1 exFlushable 0 2 = [Event.fileWrite 1 6 106] ∧
    (∀ e, e ∈ (flushFile okLayer 1 exFlushable).2.hashTable → e.file ≠ 1) :=
  ⟨exFlushed_eq, rfl,
   (flushFile_ok_empties_file okLayer 1 exFlushable (by decide) (by decide) rfl).2.1⟩

/-! ### The operations return -/

/-- In every well-formed state `readPage` returns: the clock loop inside
`allocBuf` never runs out of passes. -/
theorem readPage_returns (L : FileLayer σ) (H : DescOps) (file : FilePtr) (PageNo : Int)
    (s : BufMgr σ) (hw : WF s) : ∃ r, readPage L H file PageNo s = some r := by
  obtain ⟨⟨st, k, s1⟩, ha⟩ := allocBuf_returns L H 0 s hw.1 hw.2.1
  unfold readPage
  simp only [ha]
  split
  · exact ⟨_, rfl⟩
  · split
    · split
      · exact ⟨_, rfl⟩
      · split
        · exact ⟨_, rfl⟩
        · split <;> exact ⟨_, rfl⟩
    · exact ⟨_, rfl⟩

/-- In every well-formed state `allocPage` returns. -/
theorem allocPage_returns (L : FileLayer σ) (H : DescOps) (file : FilePtr) (pageNo : Int)
    (s : BufMgr σ) (hw : WF s) : ∃ r, allocPage L H file pageNo s = some r := by
  obtain ⟨⟨st, k, s1⟩, ha⟩ := allocBuf_returns L H 0
    { s with disk := (L.allocatePage s.disk file pageNo).2.2,
             trace := s.trace ++ [Event.fileAllocate file] } hw.1 hw.2.1
  unfold allocPage
  simp only [ha]
  split
  · exact ⟨_, rfl⟩
  · split
    · exact ⟨_, rfl⟩
    · split <;> exact ⟨_, rfl⟩

/-! ### C11 -/

theorem exFlushable_reachable : Reachable okLayer stdOps exFlushable := by
  have h := Reachable.unPinPage 1 6 true (Reachable.unPinPage 1 5 false
    (Reachable.readPage 1 6 exRead1_reachable exRead2_eq))
  have e : (unPinPage 1 6 true (unPinPage 1 5 false exRead2).2).2 = exFlushable := rfl
  rw [e] at h
  exact h

/-- C11 fails on the code.  `exFlushable` is reached by `readPage(1,5)`,
`readPage(1,6)`, `unPinPage(1,5,false)`, `unPinPage(1,6,true)` on a new pool of two
frames; it satisfies the hash/frame invariant and exactly one frame is valid,
dirty and owned by file 1.  `flushFile(1)` returns `OK` and writes that page
back (one `writePage` call), but `diskwrites` is the same after the call as
before: `flushFile` has no `bufStats.diskwrites++`, unlike `allocBuf`. -/
theorem flushFile_does_not_count_writes :
    Reachable okLayer stdOps exFlushable ∧ HashInv exFlushable ∧
    flushFile okLayer 1 exFlushable = (Status.OK, exFlushed) ∧
    (exFlushable.bufTable.filter fun d => d.valid && d.dirty && d.file == 1).length = 1 ∧
    (exFlushed.trace.drop exFlushable.trace.length).filter Event.isWrite
      = [Event.fileWrite 1 6 106] ∧
    exFlushed.bufStats.diskwrites = exFlushable.bufStats.diskwrites :=
  ⟨exFlushable_reachable, by decide, rfl, rfl, rfl, rfl⟩

/-! ### C12 -/

/-- One pass of the `flushFile` loop over a frame that is not a pinned page of
the file, is not an invalid frame still carrying the file, and whose write-back
(if one is due) succeeds: the state handed to the next pass. -/
theorem flushFileLoop_advance (L : FileLayer σ) (file : FilePtr) (n i : Nat) (s : BufMgr σ)
    (hi : i < s.bufTable.length)
    (hpin : ¬ ((desc s i).valid = true ∧ (desc s i).file = file ∧ (desc s i).pinCnt > 0))
    (hbad : ¬ ((desc s i).valid = false ∧ (desc s i).file = file))
    (hwrite : (desc s i).valid = true → (desc s i).file = file → (desc s i).dirty = true →
      (L.writePage s.disk (desc s i).file (desc s i).pageNo (page s i)).1 = Status.OK) :
    ∃ s1 t, flushFileLoop L file (n + 1) i s = flushFileLoop L file n (i + 1) s1 ∧
      (∀ j, desc s1 j =
        if j = i ∧ owned file (desc s i) = true then flushedDesc (desc s i) else desc s j) ∧
      (∀ e : HashEntry, e ∈ s.hashTable →
        ¬ (owned file (desc s i) = true ∧ e.file = file ∧ e.pageNo = (desc s i).pageNo) →
        e ∈ s1.hashTable) ∧
      s1.trace = s.trace ++ t ∧
      s1.disk = (if owned file (desc s i) = true ∧ (desc s i).dirty = true
        then (L.writePage s.disk file (desc s i).pageNo (page s i)).2 else s.disk) ∧
      s1.bufPool = s.bufPool ∧ s1.numBufs = s.numBufs ∧ s1.clockHand = s.clockHand ∧
      s1.bufTable.length = s.bufTable.length ∧ s1.bufStats = s.bufStats ∧
      (¬ owned file (desc s i) = true → s1 = s) := by
  rw [flushFileLoop]
  simp only
  have hrem : ∀ (ht : BufHashTbl) (e : HashEntry), e ∈ ht →
      ¬ (e.file = file ∧ e.pageNo = (desc s i).pageNo) →
      e ∈ (ht.remove file (desc s i).pageNo).2 := by
    intro ht e he hne
    unfold BufHashTbl.remove
    split
    · exact (List.mem_eraseP_of_neg (fun hk => hne ((hasKey_iff _ _ _).1 hk))).2 he
    · exact he
  by_cases hvf : (desc s i).valid = true ∧ (desc s i).file = file
  · have hown : owned file (desc s i) = true := (owned_iff _ _).2 hvf
    have hp : ¬ (desc s i).pinCnt > 0 := fun h => hpin ⟨hvf.1, hvf.2, h⟩
    rw [if_pos hvf, if_neg hp]
    by_cases hd : (desc s i).dirty = true
    · have hw := hwrite hvf.1 hvf.2 hd
      rw [if_pos hd, if_neg (by rw [hw]; exact fun h => h rfl)]
      obtain ⟨s0, hs0⟩ : ∃ s0, s0 = setDesc { s with
          disk := (L.writePage s.disk (desc s i).file (desc s i).pageNo (page s i)).2,
          trace := s.trace ++
            [Event.fileWrite (desc s i).file (desc s i).pageNo (page s i)] } i
          { desc s i with dirty := false } := ⟨_, rfl⟩
      rw [← hs0]
      have hl0 : s0.bufTable.length = s.bufTable.length := by
        rw [hs0]; simp [setDesc]
      have d0 : ∀ j, desc s0 j =
          if j = i then { desc s i with dirty := false } else desc s j := by
        intro j
        rw [hs0, desc_setDesc]
        by_cases hj : i = j
        · subst hj
          rw [if_pos ⟨rfl, hi⟩, if_pos rfl]
        · rw [if_neg (fun h => hj h.1), if_neg (fun h => hj h.symm)]
          rfl
      have t0 : s0.trace = s.trace ++
          [Event.fileWrite (desc s i).file (desc s i).pageNo (page s i)] := by
        rw [hs0]; rfl
      have h0 : s0.hashTable = s.hashTable := by rw [hs0]; rfl
      have k0 : s0.disk =
          (L.writePage s.disk (desc s i).file (desc s i).pageNo (page s i)).2 := by
        rw [hs0]; rfl
      have p0 : s0.bufPool = s.bufPool ∧ s0.numBufs = s.numBufs ∧
          s0.clockHand = s.clockHand ∧ s0.bufStats = s.bufStats := by
        rw [hs0]; exact ⟨rfl, rfl, rfl, rfl⟩
      have hpn0 : (desc s0 i).pageNo = (desc s i).pageNo := by rw [d0, if_pos rfl]
      obtain ⟨f1, f2, f3, f4, f5, f6⟩ := flushFrame_static file i s0
      refine ⟨flushFrame file i s0,
        [Event.fileWrite (desc s i).file (desc s i).pageNo (page s i),
         Event.hashRemove file (desc s0 i).pageNo], rfl, ?_, ?_, ?_, ?_,
        f1.trans p0.1, f2.trans p0.2.1, f3.trans p0.2.2.1, f4.trans hl0,
        f5.trans p0.2.2.2, fun h => absurd hown h⟩
      · intro j
        rw [flushFrame_desc file i s0 (by rw [hl0]; exact hi) j]
        by_cases hj : j = i
        · subst hj
          rw [if_pos rfl, if_pos ⟨rfl, hown⟩, d0, if_pos rfl]
          rfl
        · rw [if_neg hj, if_neg (fun h => hj h.1), d0, if_neg hj]
      · intro e he hne
        rw [flushFrame_hash, h0, hpn0]
        exact hrem _ e he (fun h => hne ⟨hown, h⟩)
      · rw [flushFrame_trace, t0]
        simp
      · rw [f6, k0, if_pos ⟨hown, hd⟩, hvf.2]
    · rw [if_neg hd]
      obtain ⟨f1, f2, f3, f4, f5, f6⟩ := flushFrame_static file i s
      refine ⟨flushFrame file i s, [Event.hashRemove file (desc s i).pageNo], rfl, ?_, ?_,
        flushFrame_trace file i s, ?_, f1, f2, f3, f4, f5, fun h => absurd hown h⟩
      · intro j
        rw [flushFrame_desc file i s hi j]
        by_cases hj : j = i
        · subst hj
          rw [if_pos rfl, if_pos ⟨rfl, hown⟩]
          have : (desc s j).dirty = false := by simpa using hd
          simp [flushedDesc, ← this]
        · rw [if_neg hj, if_neg (fun h => hj h.1)]
      · intro e he hne
        rw [flushFrame_hash]
        exact hrem _ e he (fun h => hne ⟨hown, h⟩)
      · rw [f6, if_neg (fun h => hd h.2)]
  · have hown : ¬ owned file (desc s i) = true := fun h => hvf ((owned_iff _ _).1 h)
    rw [if_neg hvf, if_neg hbad]
    refine ⟨s, [], rfl, ?_, fun _ he _ => he, by simp, ?_, rfl, rfl, rfl, rfl, rfl,
      fun _ => rfl⟩
    · intro j
      simp [hown]
    · simp [hown]

theorem flushFileLoop_pinned (L : FileLayer σ) (file : FilePtr) (p : Nat)
    (hwr : ∀ d f m b, (L.writePage d f m b).1 = Status.OK) (n : Nat) :
    ∀ (i : Nat) (s : BufMgr σ), i ≤ p → p < i + n → i + n ≤ s.bufTable.length →
      (desc s p).valid = true → (desc s p).file = file → (desc s p).pinCnt > 0 →
      (∀ j, i ≤ j → j < p →
        ¬ ((desc s j).valid = true ∧ (desc s j).file = file ∧ (desc s j).pinCnt > 0)) →
      (∀ j, i ≤ j → j < p → ¬ ((desc s j).valid = false ∧ (desc s j).file = file)) →
      (flushFileLoop L file n i s).1 = Status.PAGEPINNED ∧
      (∀ j, p ≤ j → desc (flushFileLoop L file n i s).2 j = desc s j) ∧
      (flushFileLoop L file n i s).2.bufPool = s.bufPool ∧
      (∀ e : HashEntry, e ∈ s.hashTable →
        (∀ j, i ≤ j → j < p →
          ¬ (owned file (desc s j) = true ∧ e.file = file ∧ e.pageNo = (desc s j).pageNo)) →
        e ∈ (flushFileLoop L file n i s).2.hashTable) ∧
      ((∀ j, i ≤ j → j < p → ¬ owned file (desc s j) = true) →
        (flushFileLoop L file n i s).2 = s) := by
  induction n with
  | zero => intro i s h1 h2; omega
  | succ n ih =>
    intro i s hip hpn hlen hv hf hpc hfirst hstale
    by_cases hi : i = p
    · subst hi
      rw [flushFileLoop]
      rw [if_pos ⟨hv, hf⟩, if_pos hpc]
      exact ⟨rfl, fun _ _ => rfl, rfl, fun _ he _ => he, fun _ => rfl⟩
    · have hlt : i < p := by omega
      obtain ⟨s1, t, heq, d1, h1, _, _, p1, _, _, l1, _, same1⟩ :=
        flushFileLoop_advance L file n i s (by omega) (hfirst i (le_refl _) hlt)
          (hstale i (le_refl _) hlt) (fun _ _ _ => hwr _ _ _ _)
      have hd1 : ∀ j, i + 1 ≤ j → desc s1 j = desc s j := by
        intro j hj
        rw [d1 j, if_neg (fun h => by omega)]
      rw [heq]
      obtain ⟨r1, r2, r3, r4, r5⟩ := ih (i + 1) s1 (by omega) (by omega) (by rw [l1]; omega)
        (by rw [hd1 p (by omega)]; exact hv) (by rw [hd1 p (by omega)]; exact hf)
        (by rw [hd1 p (by omega)]; exact hpc)
        (by intro j hj hjp; rw [hd1 j hj]; exact hfirst j (by omega) hjp)
        (by intro j hj hjp; rw [hd1 j hj]; exact hstale j (by omega) hjp)
      refine ⟨r1, ?_, r3.trans p1, ?_, ?_⟩
      · intro j hj
        rw [r2 j hj, hd1 j (by omega)]
      · intro e he hne
        apply r4 e (h1 e he (hne i (le_refl _) hlt))
        intro j hj hjp
        rw [hd1 j hj]
        exact hne j (by omega) hjp
      · intro hnone
        have e1 : s1 = s := same1 (hnone i (le_refl _) hlt)
        rw [r5 (by intro j hj hjp; rw [hd1 j hj]; exact hnone j (by omega) hjp), e1]

theorem exHalfPinned_eq : flushFile okLayer 1 exHalfPinned = (Status.PAGEPINNED, exHalfFlushed) := by
  rfl

theorem exStale_reachable : Reachable okLayer keepOps exStale := by
  have h1 : Reachable okLayer keepOps (disposePage okLayer keepOps 1 5
      (setDesc exRead1 0 ⟨1, 5, 0, 1, false, true, false⟩)).2 :=
    Reachable.disposePage 1 5
      (Reachable.readPage 1 5 (Reachable.init 2 () (by decide))
        (show readPage okLayer keepOps 1 5 (BufMgr.new 2 ()) =
          some (Status.OK, some 0, setDesc exRead1 0 ⟨1, 5, 0, 1, false, true, false⟩)
          from rfl))
  exact Reachable.readPage 1 6 h1
    (show readPage okLayer keepOps 1 6 _ = some (Status.OK, some 1, exStale) from rfl)

/-- C13: `allocPage` installs a zeroed, pinned, clean page.  In a well-formed
state: if `file.allocatePage` fails, `allocPage` returns `UNIXERR`, assigns no
page, and descriptors, hash table, pool, clock hand and counters are unchanged;
if it succeeds with page number `n` that has no hash entry and `allocBuf` then
returns `OK` with frame `k`, `allocPage` returns `OK` with `pageNo = n` and a
reference to pool frame `k`, whose bytes are all zero; the hash table maps
`(file, n)` to `k`; descriptor `k` is valid, clean, pinned once and holds
`(file, n)`; `accesses` is up by exactly 1 and `diskreads` is unchanged. -/
theorem allocPage_installs_zeroed_page (L : FileLayer σ) (H : DescOps) (file : FilePtr)
    (pageNo : Int) (s : BufMgr σ) (hw : WF s) :
    ((L.allocatePage s.disk file pageNo).1 ≠ Status.OK →
      ∃ s', allocPage L H file pageNo s =
          some (Status.UNIXERR, (L.allocatePage s.disk file pageNo).2.1, none, s') ∧
        s'.bufTable = s.bufTable ∧ s'.hashTable = s.hashTable ∧ s'.bufPool = s.bufPool ∧
        s'.clockHand = s.clockHand ∧ s'.bufStats = s.bufStats ∧ s'.numBufs = s.numBufs) ∧
    ((L.allocatePage s.disk file pageNo).1 = Status.OK →
      (∀ e, e ∈ s.hashTable →
        ¬ (e.file = file ∧ e.pageNo = (L.allocatePage s.disk file pageNo).2.1)) →
      ∀ (k : Nat) (s1 : BufMgr σ),
        allocBuf L H 0 { s with disk := (L.allocatePage s.disk file pageNo).2.2,
                                trace := s.trace ++ [Event.fileAllocate file] }
          = some (Status.OK, k, s1) →
        ∃ s', allocPage L H file pageNo s =
            some (Status.OK, (L.allocatePage s.disk file pageNo).2.1, some k, s') ∧
          page s' k = 0 ∧
          s'.hashTable.lookup file (L.allocatePage s.disk file pageNo).2.1 0
            = (Status.OK, k) ∧
          (desc s' k).valid = true ∧ (desc s' k).dirty = false ∧ (desc s' k).pinCnt = 1 ∧
          (desc s' k).file = file ∧
          (desc s' k).pageNo = (L.allocatePage s.disk file pageNo).2.1 ∧
          s'.bufStats.accesses = s.bufStats.accesses + 1 ∧
          s'.bufStats.diskreads = s.bufStats.diskreads) := by
  obtain ⟨w1, w2, w3, w4, w5⟩ := hw
  constructor
  · intro hfail
    unfold allocPage
    simp only [hfail, ne_eq, not_false_eq_true, if_true]
    exact ⟨_, rfl, rfl, rfl, rfl, rfl, rfl, rfl⟩
  · intro hok hfree k s1 ha
    obtain ⟨f1, f2, f3, f4, f5, f6, f7, f8⟩ := allocBuf_frame L H 0
      { s with disk := (L.allocatePage s.disk file pageNo).2.2,
               trace := s.trace ++ [Event.fileAllocate file] } w1 ha
    obtain ⟨hk, hvk, _⟩ := f8 rfl
    have hfree1 : ∀ e, e ∈ s1.hashTable →
        ¬ (e.file = file ∧ e.pageNo = (L.allocatePage s.disk file pageNo).2.1) :=
      fun e he => hfree e (f7 e he)
    have hk1 : k < s1.bufTable.length := by
      rw [f3]; show k < s.bufTable.length; rw [w2]; exact hk
    unfold allocPage
    simp only [hok, ne_eq, not_true_eq_false, if_false, ha,
      insert_of_free _ _ _ k hfree1]
    refine ⟨_, rfl, ?_, ?_, ?_, ?_, ?_, ?_, ?_, ?_, ?_⟩
    · show (s1.bufPool.set k 0).getD k 0 = 0
      exact page_set_self _ _ _ (by rw [f2]; show k < s.bufPool.length; rw [w3]; exact hk)
    · exact lookup_cons_self _ _ _ _ _
    · show (desc (setDesc _ k _) k).valid = true
      rw [desc_setDesc_self]
      · rfl
      · exact hk1
    · show (desc (setDesc _ k _) k).dirty = false
      rw [desc_setDesc_self]
      · rfl
      · exact hk1
    · show (desc (setDesc _ k _) k).pinCnt = 1
      rw [desc_setDesc_self]
      · rfl
      · exact hk1
    · show (desc (setDesc _ k _) k).file = file
      rw [desc_setDesc_self]
      · rfl
      · exact hk1
    · show (desc (setDesc _ k _) k).pageNo = _
      rw [desc_setDesc_self]
      · rfl
      · exact hk1
    · show s1.bufStats.accesses + 1 = _
      rw [f4]
    · show s1.bufStats.diskreads = _
      rw [f5]

theorem exAlloc_eq : allocPage okLayer stdOps 1 0 (BufMgr.new 2 ()) =
    some (Status.OK, 7, some 0, exAlloc) := by
  rfl

theorem allocPage_installs_zeroed_page_witness :
    allocPage okLayer stdOps 1 0 (BufMgr.new 2 ()) = some (Status.OK, 7, some 0, exAlloc) ∧
    ∃ s', allocPage okLayer stdOps 1 0 (BufMgr.new 2 ()) = some (Status.OK, 7, some 0, s') ∧
      page s' 0 = 0 ∧ s'.hashTable.lookup 1 7 0 = (Status.OK, 0) ∧
      (desc s' 0).valid = true ∧ (desc s' 0).dirty = false ∧ (desc s' 0).pinCnt = 1 ∧
      (desc s' 0).file = 1 ∧ (desc s' 0).pageNo = 7 ∧
      s'.bufStats.accesses = (BufMgr.new 2 ()).bufStats.accesses + 1 ∧
      s'.bufStats.diskreads = (BufMgr.new 2 ()).bufStats.diskreads :=
  ⟨exAlloc_eq,
   (allocPage_installs_zeroed_page okLayer stdOps 1 0 (BufMgr.new 2 ()) (by decide)).2 rfl
     (by decide) 0 _ rfl⟩

/-! ### C14 -/

/-- C14: `disposePage` drops the page without write-back.  In a well-formed state
satisfying the hash/frame invariant, for every `(file, pageNo)`: afterwards the
hash table has no entry for the key and no valid frame holds it; if the page was
resident in frame `k`, frame `k` is now invalid with `pinCnt = 0` and
`dirty = false`, every other descriptor is unchanged; every hash entry of another
key is unchanged; the only calls made are the hash removal and
`file.disposePage` (no `writePage`), the counters, the pool and the clock hand
are unchanged; the status returned is the status of `file.disposePage`; and when
the page was not resident, descriptors and hash table are unchanged as well. -/
theorem disposePage_drops_without_write (L : FileLayer σ) (H : DescOps) (file : FilePtr)
    (pageNo : Int) (s : BufMgr σ) (hw : WF s) (hinv : HashInv s) :
    (∀ e, e ∈ (disposePage L H file pageNo s).2.hashTable →
      ¬ (e.file = file ∧ e.pageNo = pageNo)) ∧
    (∀ i, i < s.numBufs → ¬ ((desc (disposePage L H file pageNo s).2 i).valid = true ∧
      (desc (disposePage L H file pageNo s).2 i).file = file ∧
      (desc (disposePage L H file pageNo s).2 i).pageNo = pageNo)) ∧
    (∀ k, s.hashTable.lookup file pageNo 0 = (Status.OK, k) →
      (desc (disposePage L H file pageNo s).2 k).valid = false ∧
      (desc (disposePage L H file pageNo s).2 k).pinCnt = 0 ∧
      (desc (disposePage L H file pageNo s).2 k).dirty = false ∧
      ∀ i, i ≠ k → desc (disposePage L H file pageNo s).2 i = desc s i) ∧
    (∀ e : HashEntry, ¬ (e.file = file ∧ e.pageNo = pageNo) →
      (e ∈ (disposePage L H file pageNo s).2.hashTable ↔ e ∈ s.hashTable)) ∧
    (disposePage L H file pageNo s).2.trace =
      s.trace ++ [Event.hashRemove file pageNo, Event.fileDispose file pageNo] ∧
    (disposePage L H file pageNo s).2.bufStats = s.bufStats ∧
    (disposePage L H file pageNo s).2.bufPool = s.bufPool ∧
    (disposePage L H file pageNo s).2.clockHand = s.clockHand ∧
    (disposePage L H file pageNo s).1 = (L.disposePage s.disk file pageNo).1 ∧
    ((s.hashTable.lookup file pageNo 0).1 ≠ Status.OK →
      (disposePage L H file pageNo s).2.bufTable = s.bufTable ∧
      (disposePage L H file pageNo s).2.hashTable = s.hashTable) := by
  have hlk := (hashInv_iff_linked s).1 hinv
  rcases lookup_cases s.hashTable file pageNo 0 with ⟨e, he, hf, hp, hl⟩ | ⟨hfree, hl⟩
  · obtain ⟨e1, e2, e3, e4⟩ := hinv.2.1 e he
    have hkl : e.frameNo < s.bufTable.length := by rw [hw.2.1]; exact e1
    have hrem : s.hashTable.remove file pageNo =
        (Status.OK, s.hashTable.eraseP (HashEntry.hasKey file pageNo)) :=
      remove_of_mem _ _ _ ⟨e, he, hf, hp⟩
    have hres : disposePage L H file pageNo s =
        ((L.disposePage s.disk file pageNo).1,
         { setDesc s e.frameNo ((desc s e.frameNo).Clear H) with
           hashTable := s.hashTable.eraseP (HashEntry.hasKey file pageNo)
           disk := (L.disposePage s.disk file pageNo).2
           trace := s.trace ++ [Event.hashRemove file pageNo] ++
             [Event.fileDispose file pageNo] }) := by
      unfold disposePage
      simp only [hl, if_true]
      have : (setDesc s e.frameNo ((desc s e.frameNo).Clear H)).hashTable = s.hashTable := rfl
      rw [this, hrem]
      rfl
    have hdesc : ∀ i, desc (disposePage L H file pageNo s).2 i =
        if e.frameNo = i then (desc s e.frameNo).Clear H else desc s i := by
      intro i
      rw [hres]
      show desc (setDesc s e.frameNo ((desc s e.frameNo).Clear H)) i = _
      rw [desc_setDesc]
      by_cases h : e.frameNo = i
      · rw [if_pos ⟨h, hkl⟩, if_pos h]
      · rw [if_neg (fun hh => h hh.1), if_neg h]
    have hht : (disposePage L H file pageNo s).2.hashTable =
        s.hashTable.eraseP (HashEntry.hasKey file pageNo) := by rw [hres]
    refine ⟨?_, ?_, ?_, ?_, ?_, ?_, ?_, ?_, ?_, ?_⟩
    · intro x hx
      rw [hht, mem_eraseP_key hlk.2.2] at hx
      exact hx.2
    · intro i hi
      rw [hdesc]
      by_cases h : e.frameNo = i
      · rw [if_pos h]
        intro hc
        cases hc.1
      · rw [if_neg h]
        rintro ⟨hv, hfi, hpi⟩
        exact h (hinv.2.2 e.frameNo e1 i hi e2 hv
          ⟨by rw [e3, hf, hfi], by rw [e4, hp, hpi]⟩)
    · intro k hk
      rw [hl] at hk
      injection hk with _ hk
      subst hk
      refine ⟨?_, ?_, ?_, ?_⟩
      · rw [hdesc, if_pos rfl]; rfl
      · rw [hdesc, if_pos rfl]; rfl
      · rw [hdesc, if_pos rfl]; rfl
      · intro i hi
        rw [hdesc, if_neg (fun h => hi h.symm)]
    · intro x hx
      rw [hht, mem_eraseP_key hlk.2.2]
      exact ⟨fun h => h.1, fun h => ⟨h, hx⟩⟩
    · rw [hres]; simp
    · rw [hres]; rfl
    · rw [hres]; rfl
    · rw [hres]; rfl
    · rw [hres]
    · intro hne
      rw [hl] at hne
      exact absurd rfl hne
  · have hrem : s.hashTable.remove file pageNo = (Status.HASHNOTFOUND, s.hashTable) :=
      remove_of_not_mem _ _ _ hfree
    have hres : disposePage L H file pageNo s =
        ((L.disposePage s.disk file pageNo).1,
         { s with
           disk := (L.disposePage s.disk file pageNo).2
           trace := s.trace ++ [Event.hashRemove file pageNo] ++
             [Event.fileDispose file pageNo] }) := by
      unfold disposePage
      simp only [hl, reduceCtorEq, if_false, hrem]
    refine ⟨?_, ?_, ?_, ?_, ?_, ?_, ?_, ?_, ?_, ?_⟩
    · intro x hx
      rw [hres] at hx
      exact hfree x hx
    · intro i hi
      rw [hres]
      rintro ⟨hv, hfi, hpi⟩
      have hm := hlk.1 i hi (by simpa [vkey] using hv)
      exact hfree _ hm ⟨hfi, hpi⟩
    · intro k hk
      rw [hl] at hk
      injection hk with hk _
      cases hk
    · intro x _
      rw [hres]
    · rw [hres]; simp
    · rw [hres]
    · rw [hres]
    · rw [hres]
    · rw [hres]
    · intro _
      rw [hres]
      exact ⟨rfl, rfl⟩

theorem exDisposed_eq : disposePage okLayer stdOps 1 6 exUnpinDirty = (Status.OK, exDisposed) := by
  rfl

theorem disposePage_drops_without_write_witness :
    disposePage okLayer stdOps 1 6 exUnpinDirty = (Status.OK, exDisposed) ∧
    (∀ e, e ∈ (disposePage okLayer stdOps 1 6 exUnpinDirty).2.hashTable →
      ¬ (e.file = 1 ∧ e.pageNo = 6)) ∧
    (disposePage okLayer stdOps 1 6 exUnpinDirty).2.trace =
      exUnpinDirty.trace ++ [Event.hashRemove 1 6, Event.fileDispose 1 6] :=
  ⟨exDisposed_eq,
   (disposePage_drops_without_write okLayer stdOps 1 6 exUnpinDirty
      (by decide) (by decide)).1,
   (disposePage_drops_without_write okLayer stdOps 1 6 exUnpinDirty
      (by decide) (by decide)).2.2.2.2.1⟩

/-! ### C17 -/

theorem frameTidy_default : frameTidy (default : BufDesc) := by
  refine ⟨le_refl _, fun h => ?_, fun h => absurd h (lt_irrefl _)⟩
  cases h

theorem frameTidy_clear (H : DescOps) (d : BufDesc) : frameTidy (d.Clear H) := by
  refine ⟨le_refl _, fun h => ?_, fun h => absurd h (lt_irrefl _)⟩
  cases h

theorem frameTidy_set (H : DescOps) (d : BufDesc) (file : FilePtr) (pageNo : Int) :
    frameTidy (d.Set H file pageNo) :=
  ⟨by show (0 : Int) ≤ 1; decide, fun _ => rfl, fun _ => rfl⟩

theorem frameTidy_setDesc {s : BufMgr σ} (h : ∀ i, frameTidy (desc s i)) (k : Nat)
    (d : BufDesc) (hd : frameTidy d) : ∀ i, frameTidy (desc (setDesc s k d) i) := by
  intro i
  rw [desc_setDesc]
  split
  · exact hd
  · exact h i

theorem frameTidy_of_table {s t : BufMgr σ} (h : ∀ i, frameTidy (desc s i))
    (ht : t.bufTable = s.bufTable) : ∀ i, frameTidy (desc t i) := by
  intro i
  rw [desc_of_table ht i]
  exact h i

theorem allocBuf_tidy (L : FileLayer σ) (H : DescOps) (frame : Nat) {s : BufMgr σ}
    (h : ∀ i, frameTidy (desc s i)) {st : Status} {k : Nat} {s' : BufMgr σ}
    (ha : allocBuf L H frame s = some (st, k, s')) : ∀ i, frameTidy (desc s' i) := by
  obtain ⟨m, hr, _, ho⟩ := allocBuf_outcome L H frame s ha
  intro i
  obtain ⟨fv, _, _, _, fp, fd⟩ := refOnly_fields hr i
  have hm : frameTidy (desc m i) := by
    obtain ⟨a, b, c⟩ := h i
    exact ⟨by rw [fp]; exact a, by rw [fd, fv]; exact b, by rw [fp, fv]; exact c⟩
  rcases allocOutcome_desc L H frame ho i with hd | ⟨_, _, _, _, _, hd⟩
  · rw [hd]; exact hm
  · rw [hd]; exact frameTidy_clear H _

theorem readPage_tidy (L : FileLayer σ) (H : DescOps) (file : FilePtr) (PageNo : Int)
    {s : BufMgr σ} (hg : Good s) (h : ∀ i, frameTidy (desc s i))
    {st : Status} {pg : Option Nat} {s' : BufMgr σ}
    (hr : readPage L H file PageNo s = some (st, pg, s')) : ∀ i, frameTidy (desc s' i) := by
  unfold readPage at hr
  rcases lookup_cases s.hashTable file PageNo 0 with ⟨e, he, hf, hp, hl⟩ | ⟨hfree, hl⟩
  · obtain ⟨e1, e2, e3, e4⟩ := good_frame_of_entry hg he
    simp only [hl, if_true, Option.some.injEq, Prod.mk.injEq] at hr
    obtain ⟨-, -, rfl⟩ := hr
    apply frameTidy_of_table (s := setDesc s e.frameNo
      { desc s e.frameNo with pinCnt := (desc s e.frameNo).pinCnt + 1, refbit := true }) _ rfl
    apply frameTidy_setDesc h
    obtain ⟨a, b, c⟩ := h e.frameNo
    exact ⟨by show 0 ≤ (desc s e.frameNo).pinCnt + 1; omega, fun _ => e2, fun _ => e2⟩
  · simp only [hl, reduceCtorEq, if_false, if_true] at hr
    cases ha : allocBuf L H 0 s with
    | none => rw [ha] at hr; cases hr
    | some r =>
      obtain ⟨st1, k, s1⟩ := r
      rw [ha] at hr
      simp only at hr
      have t1 := allocBuf_tidy L H 0 h ha
      split at hr
      · simp only [Option.some.injEq, Prod.mk.injEq] at hr
        obtain ⟨-, -, rfl⟩ := hr
        exact t1
      · split at hr
        · simp only [Option.some.injEq, Prod.mk.injEq] at hr
          obtain ⟨-, -, rfl⟩ := hr
          exact frameTidy_of_table t1 rfl
        · split at hr
          · simp only [Option.some.injEq, Prod.mk.injEq] at hr
            obtain ⟨-, -, rfl⟩ := hr
            exact frameTidy_of_table t1 rfl
          · simp only [Option.some.injEq, Prod.mk.injEq] at hr
            obtain ⟨-, -, rfl⟩ := hr
            apply frameTidy_of_table (s := setDesc s1 k ((desc s1 k).Set H file PageNo)) _
              (by simp [setDesc, desc])
            exact frameTidy_setDesc t1 _ _ (frameTidy_set H _ _ _)

theorem unPinPage_tidy (file : FilePtr) (PageNo : Int) (dirty : Bool)
    {s : BufMgr σ} (hg : Good s) (h : ∀ i, frameTidy (desc s i)) :
    ∀ i, frameTidy (desc (unPinPage file PageNo dirty s).2 i) := by
  unfold unPinPage
  rcases lookup_cases s.hashTable file PageNo 0 with ⟨e, he, hf, hp, hl⟩ | ⟨hfree, hl⟩
  · obtain ⟨e1, e2, e3, e4⟩ := good_frame_of_entry hg he
    simp only [hl, ne_eq, not_true_eq_false, if_false]
    split
    · exact h
    · rename_i hne
      apply frameTidy_setDesc h
      obtain ⟨a, b, c⟩ := h e.frameNo
      have hnn : (0 : Int) ≤ (desc s e.frameNo).pinCnt - 1 := by omega
      cases dirty
      · exact ⟨hnn, fun _ => e2, fun _ => e2⟩
      · exact ⟨hnn, fun _ => e2, fun _ => e2⟩
  · simp only [hl, ne_eq, reduceCtorEq, not_false_eq_true, if_true]
    exact h

theorem allocPage_tidy (L : FileLayer σ) (H : DescOps) (file : FilePtr) (pageNo : Int)
    {s : BufMgr σ} (h : ∀ i, frameTidy (desc s i))
    {st : Status} {pn : Int} {pg : Option Nat} {s' : BufMgr σ}
    (hr : allocPage L H file pageNo s = some (st, pn, pg, s')) :
    ∀ i, frameTidy (desc s' i) := by
  unfold allocPage at hr
  simp only at hr
  split at hr
  · simp only [Option.some.injEq, Prod.mk.injEq] at hr
    obtain ⟨-, -, -, rfl⟩ := hr
    exact frameTidy_of_table h rfl
  · cases ha : allocBuf L H 0 { s with disk := (L.allocatePage s.disk file pageNo).2.2,
                                       trace := s.trace ++ [Event.fileAllocate file] } with
    | none => rw [ha] at hr; cases hr
    | some r =>
      obtain ⟨st1, k, s1⟩ := r
      rw [ha] at hr
      simp only at hr
      have t0 : ∀ i, frameTidy (desc
          { s with disk := (L.allocatePage s.disk file pageNo).2.2,
                   trace := s.trace ++ [Event.fileAllocate file] } i) :=
        frameTidy_of_table h rfl
      have t1 := allocBuf_tidy L H 0 t0 ha
      split at hr
      · simp only [Option.some.injEq, Prod.mk.injEq] at hr
        obtain ⟨-, -, -, rfl⟩ := hr
        exact t1
      · split at hr
        · simp only [Option.some.injEq, Prod.mk.injEq] at hr
          obtain ⟨-, -, -, rfl⟩ := hr
          exact frameTidy_of_table t1 rfl
        · simp only [Option.some.injEq, Prod.mk.injEq] at hr
          obtain ⟨-, -, -, rfl⟩ := hr
          apply frameTidy_of_table
            (s := setDesc s1 k ((desc s1 k).Set H file (L.allocatePage s.disk file pageNo).2.1))
            _ (by simp [setDesc, desc])
          exact frameTidy_setDesc t1 _ _ (frameTidy_set H _ _ _)

theorem disposePage_tidy (L : FileLayer σ) (H : DescOps) (file : FilePtr) (pageNo : Int)
    {s : BufMgr σ} (h : ∀ i, frameTidy (desc s i)) :
    ∀ i, frameTidy (desc (disposePage L H file pageNo s).2 i) := by
  unfold disposePage
  simp only
  split
  · apply frameTidy_of_table (s := setDesc s (s.hashTable.lookup file pageNo 0).2
      ((desc s (s.hashTable.lookup file pageNo 0).2).Clear H)) _ rfl
    exact frameTidy_setDesc h _ _ (frameTidy_clear H _)
  · exact frameTidy_of_table h rfl

theorem flushFrame_tidy (file : FilePtr) {i : Nat} {s : BufMgr σ}
    (h : ∀ j, frameTidy (desc s j)) (hi : i < s.bufTable.length)
    (hd : (desc s i).dirty = false) (hp : ¬ (desc s i).pinCnt > 0) :
    ∀ j, frameTidy (desc (flushFrame file i s) j) := by
  intro j
  rw [flushFrame_desc file i s hi j]
  split
  · refine ⟨(h i).1, fun hc => ?_, fun hc => absurd hc hp⟩
    rw [show ({ desc s i with file := NULL, pageNo := -1, valid := false } : BufDesc).dirty
      = (desc s i).dirty from rfl, hd] at hc
    cases hc
  · exact h j

theorem flushFileLoop_tidy (L : FileLayer σ) (file : FilePtr) (n : Nat) :
    ∀ (i : Nat) (s : BufMgr σ), (∀ j, frameTidy (desc s j)) →
      ∀ j, frameTidy (desc (flushFileLoop L file n i s).2 j) := by
  induction n with
  | zero => intro i s h; exact h
  | succ n ih =>
    intro i s h
    rw [flushFileLoop]
    simp only
    split
    · rename_i hvf
      have hil : i < s.bufTable.length := desc_valid_lt hvf.1
      split
      · exact h
      · rename_i hp
        split
        · rename_i hd
          split
          · exact frameTidy_of_table h rfl
          · apply ih
            have h0 : ∀ j, frameTidy (desc (setDesc { s with
                disk := (L.writePage s.disk (desc s i).file (desc s i).pageNo (page s i)).2,
                trace := s.trace ++
                  [Event.fileWrite (desc s i).file (desc s i).pageNo (page s i)] } i
                { desc s i with dirty := false }) j) := by
              apply frameTidy_of_table (s := setDesc s i { desc s i with dirty := false }) _ rfl
              apply frameTidy_setDesc h
              refine ⟨(h i).1, fun hc => ?_, (h i).2.2⟩
              cases hc
            have hdi : desc (setDesc { s with
                disk := (L.writePage s.disk (desc s i).file (desc s i).pageNo (page s i)).2,
                trace := s.trace ++
                  [Event.fileWrite (desc s i).file (desc s i).pageNo (page s i)] } i
                { desc s i with dirty := false }) i = { desc s i with dirty := false } :=
              desc_setDesc_self _ _ _ hil
            apply flushFrame_tidy file h0 (by simpa [setDesc] using hil)
            · rw [hdi]
            · rw [hdi]; exact hp
        · rename_i hd
          apply ih
          exact flushFrame_tidy file h hil (by simpa using hd) hp
    · split
      · exact h
      · exact ih (i + 1) s h

theorem reachable_tidy (L : FileLayer σ) (H : DescOps) {s : BufMgr σ}
    (h : Reachable L H s) : ∀ i, frameTidy (desc s i) := by
  induction h with
  | init bufs disk hb =>
    intro i
    by_cases hi : i < bufs
    · have : desc (BufMgr.new bufs disk) i =
          { (default : BufDesc) with frameNo := i, valid := false } := by
        simp [desc, BufMgr.new, List.getD_eq_getElem?_getD, List.getElem?_map,
          List.getElem?_range hi]
      rw [this]
      refine ⟨le_refl _, fun hc => ?_, fun hc => absurd hc (lt_irrefl _)⟩
      cases hc
    · have : desc (BufMgr.new bufs disk) i = default := by
        simp [desc, BufMgr.new, List.getD_eq_getElem?_getD,
          List.getElem?_eq_none (show ((List.range bufs).map _).length ≤ i by simp; omega)]
      rw [this]
      exact frameTidy_default
  | readPage file PageNo hs hr ih =>
    exact readPage_tidy L H file PageNo (reachable_good L H hs) ih hr
  | unPinPage file PageNo dirty hs ih =>
    exact unPinPage_tidy file PageNo dirty (reachable_good L H hs) ih
  | allocPage file pageNo _ hr ih => exact allocPage_tidy L H file pageNo ih hr
  | disposePage file pageNo _ ih => exact disposePage_tidy L H file pageNo ih
  | flushFile file _ ih => exact flushFileLoop_tidy L file _ 0 _ ih
  | writeBytes k data _ ih => exact frameTidy_of_table ih rfl

theorem exReread_eq : readPage okLayer stdOps 1 6 exFlushed =
    some (Status.OK, some 0, exReread) := by
  rfl

theorem exReread_reachable : Reachable okLayer stdOps exReread := by
  have h := Reachable.flushFile 1 exFlushable_reachable
  rw [exFlushed_eq] at h
  exact Reachable.readPage 1 6 h exReread_eq

theorem allocOutcome_unixerr (L : FileLayer σ) (H : DescOps) (frame : Nat) {m : BufMgr σ}
    {k : Nat} {s' : BufMgr σ} (h : AllocOutcome L H frame m Status.UNIXERR k s') :
    (desc m m.clockHand).valid = true ∧ ¬ (desc m m.clockHand).pinCnt > 0 ∧
    (desc m m.clockHand).dirty = true ∧
    (L.writePage m.disk (desc m m.clockHand).file (desc m m.clockHand).pageNo
      (page m (desc m m.clockHand).frameNo)).1 ≠ Status.OK ∧
    k = frame ∧
    s' = { m with
      disk := (L.writePage m.disk (desc m m.clockHand).file (desc m m.clockHand).pageNo
        (page m (desc m m.clockHand).frameNo)).2
      trace := m.trace ++ [Event.fileWrite (desc m m.clockHand).file
        (desc m m.clockHand).pageNo (page m (desc m m.clockHand).frameNo)] } := by
  cases h with
  | writeFailed hv hp hr hd hne => exact ⟨hv, hp, hd, hne, rfl, rfl⟩

theorem allocOutcome_write_status (L : FileLayer σ) (H : DescOps) (frame : Nat)
    {m : BufMgr σ} {st : Status} {k : Nat} {s' : BufMgr σ}
    (h : AllocOutcome L H frame m st k s') (f : FilePtr) (p : Int) (b : Page)
    (t : List Event) (ht : s'.trace = m.trace ++ Event.fileWrite f p b :: t)
    (hfail : (L.writePage m.disk f p b).1 ≠ Status.OK) : st = Status.UNIXERR := by
  have hnil : ∀ (l : List Event) (x : Event) (t : List Event), l ≠ l ++ x :: t := by
    intro l x t hc
    have := congrArg List.length hc
    simp at this
  cases h with
  | free hv => exact absurd ht (hnil _ _ _)
  | exceeded hv hp => exact absurd ht (hnil _ _ _)
  | writeFailed hv hp hr hd hne => rfl
  | removeFailed hv hp hr hwr hne =>
    exfalso
    by_cases hd : (desc m m.clockHand).dirty = true
    · simp only [afterWrite, wroteBack, hd, if_true, List.append_assoc,
        List.append_cancel_left_eq, List.singleton_append, List.cons.injEq] at ht
      obtain ⟨he, _⟩ := ht
      injection he with h1 h2 h3
      rw [← h1, ← h2, ← h3] at hfail
      exact hfail (hwr hd)
    · simp only [afterWrite, hd, Bool.false_eq_true, if_false, List.append_cancel_left_eq,
        List.cons.injEq, reduceCtorEq, false_and] at ht
  | evicted hv hp hr hwr heq =>
    exfalso
    by_cases hd : (desc m m.clockHand).dirty = true
    · simp only [setDesc, afterWrite, wroteBack, hd, if_true, List.append_assoc,
        List.append_cancel_left_eq, List.singleton_append, List.cons.injEq] at ht
      obtain ⟨he, _⟩ := ht
      injection he with h1 h2 h3
      rw [← h1, ← h2, ← h3] at hfail
      exact hfail (hwr hd)
    · simp only [setDesc, afterWrite, hd, Bool.false_eq_true, if_false,
        List.append_cancel_left_eq, List.cons.injEq, reduceCtorEq, false_and] at ht

/-- C19: a failed eviction write-back keeps the occupant.  In a well-formed
state: if `allocBuf` calls `writePage` for a victim and the call fails, it
returns `UNIXERR`; and whenever it returns `UNIXERR`, the frame `v` under the
clock hand was valid, dirty and not pinned, the only call made was the failed
`writePage` of its page, every descriptor keeps its valid, dirty, pinCnt, file
and pageNo fields (so no frame was invalidated), the page pool and the hash
table are unchanged (the victim's entry is still there), and the counters,
`diskwrites` included, are unchanged. -/
theorem allocBuf_failed_writeback_keeps_occupant (L : FileLayer σ) (H : DescOps)
    (frame : Nat) (s : BufMgr σ) (hw : WF s) {st : Status} {k : Nat} {s' : BufMgr σ}
    (ha : allocBuf L H frame s = some (st, k, s')) :
    (∀ f p b t, s'.trace = s.trace ++ Event.fileWrite f p b :: t →
      (L.writePage s.disk f p b).1 ≠ Status.OK → st = Status.UNIXERR) ∧
    (st = Status.UNIXERR →
      (desc s s'.clockHand).valid = true ∧ (desc s s'.clockHand).dirty = true ∧
      ¬ (desc s s'.clockHand).pinCnt > 0 ∧
      s'.trace = s.trace ++ [Event.fileWrite (desc s s'.clockHand).file
        (desc s s'.clockHand).pageNo (page s s'.clockHand)] ∧
      (L.writePage s.disk (desc s s'.clockHand).file (desc s s'.clockHand).pageNo
        (page s s'.clockHand)).1 ≠ Status.OK ∧
      (∀ i, (desc s' i).valid = (desc s i).valid ∧ (desc s' i).dirty = (desc s i).dirty ∧
        (desc s' i).pinCnt = (desc s i).pinCnt ∧ (desc s' i).file = (desc s i).file ∧
        (desc s' i).pageNo = (desc s i).pageNo) ∧
      s'.bufPool = s.bufPool ∧ s'.hashTable = s.hashTable ∧ s'.bufStats = s.bufStats ∧
      k = frame) := by
  obtain ⟨m, hr, hc, ho⟩ := allocBuf_outcome L H frame s ha
  have hc' : m.clockHand < s.numBufs := hc hw.1
  have hr0 := hr
  obtain ⟨_, rp, rh, rs, rd, rt, _, _⟩ := hr0
  constructor
  · intro f p b t ht hfail
    rw [← rt] at ht
    rw [← rd] at hfail
    exact allocOutcome_write_status L H frame ho f p b t ht hfail
  · intro hst
    subst hst
    obtain ⟨hv, hp, hd, hne, hk, hs'⟩ := allocOutcome_unixerr L H frame ho
    obtain ⟨fv, ff, fpn, ffr, fp, fd⟩ := refOnly_fields hr m.clockHand
    have hch : s'.clockHand = m.clockHand := by rw [hs']
    have hfr : (desc s m.clockHand).frameNo = m.clockHand := hw.2.2.2.2 _ hc'
    have hpage : page m (desc m m.clockHand).frameNo = page s m.clockHand := by
      rw [ffr, hfr]
      simp [page, rp]
    rw [hpage, ff, fpn, rd] at hne
    rw [hch]
    refine ⟨by rw [← fv]; exact hv, by rw [← fd]; exact hd, by rw [← fp]; exact hp, ?_, hne,
      ?_, ?_, ?_, ?_, hk⟩
    · rw [hs']
      show m.trace ++ _ = _
      rw [hpage, ff, fpn, rt]
    · intro i
      obtain ⟨a, b, c, _, e, g⟩ := refOnly_fields hr i
      have : desc s' i = desc m i := by rw [hs']; rfl
      rw [this]
      exact ⟨a, g, e, b, c⟩
    · rw [hs']; exact rp
    · rw [hs']; exact rh
    · rw [hs']; exact rs

theorem exDirtyKept_eq : allocBuf failLayer stdOps 0 exDirty =
    some (Status.UNIXERR, 0, exDirtyKept) := by
  rfl

theorem allocBuf_failed_writeback_keeps_occupant_witness :
    allocBuf failLayer stdOps 0 exDirty = some (Status.UNIXERR, 0, exDirtyKept) ∧
    exDirtyKept.hashTable = exDirty.hashTable ∧ exDirtyKept.bufStats = exDirty.bufStats ∧
    exDirtyKept.bufTable = exDirty.bufTable :=
  ⟨exDirtyKept_eq,
   ((allocBuf_failed_writeback_keeps_occupant failLayer stdOps 0 exDirty (by decide)
      exDirtyKept_eq).2 rfl).2.2.2.2.2.2.2.1,
   ((allocBuf_failed_writeback_keeps_occupant failLayer stdOps 0 exDirty (by decide)
      exDirtyKept_eq).2 rfl).2.2.2.2.2.2.2.2.1, rfl⟩

/-! ### C20 -/

theorem allocBufLoop_mono (L : FileLayer σ) (H : DescOps) (fuel : Nat) :
    ∀ (np frame : Nat) (s : BufMgr σ) (r : Status × Nat × BufMgr σ),
      allocBufLoop L H fuel np frame s = some r →
      ∀ fuel1, fuel ≤ fuel1 → allocBufLoop L H fuel1 np frame s = some r := by
  induction fuel with
  | zero => intro np frame s r h; cases h
  | succ n ih =>
    intro np frame s r h fuel1 hle
    obtain ⟨f, rfl⟩ : ∃ f, fuel1 = f + 1 := ⟨fuel1 - 1, by omega⟩
    rw [allocBufLoop] at h ⊢
    cases hi : allocBufIter L H np frame s with
    | next np1 s1 =>
      rw [hi] at h
      simp only at h ⊢
      exact ih np1 frame s1 r h f (by omega)
    | ret st k s1 =>
      rw [hi] at h
      exact h

theorem allocOutcome_status (L : FileLayer σ) (H : DescOps) (frame : Nat) {m : BufMgr σ}
    {st : Status} {k : Nat} {s' : BufMgr σ} (h : AllocOutcome L H frame m st k s') :
    st = Status.OK ∨ st = Status.BUFFEREXCEEDED ∨ st = Status.UNIXERR ∨
      st = Status.HASHTBLERROR := by
  cases h with
  | free hv => exact Or.inl rfl
  | exceeded hv hp => exact Or.inr (Or.inl rfl)
  | writeFailed hv hp hr hd hne => exact Or.inr (Or.inr (Or.inl rfl))
  | removeFailed hv hp hr hwr hne => exact Or.inr (Or.inr (Or.inr rfl))
  | evicted hv hp hr hwr heq => exact Or.inl rfl

/-- C20: `allocBuf` always terminates within two sweeps.  For every state with
`numBufs >= 1` descriptors, whatever the descriptors, the clock hand and the file
layer, the loop of `allocBuf` returns within `2 * numBufs` clock advances (passes
of the loop; more passes allowed give the same result), its status is `OK`,
`BUFFEREXCEEDED`, `UNIXERR` or `HASHTBLERROR`, and the clock hand is in
`[0, numBufs)` when it returns. -/
theorem allocBuf_terminates_within_two_sweeps (L : FileLayer σ) (H : DescOps) (frame : Nat)
    (s : BufMgr σ) (hn : 1 ≤ s.numBufs) (hl : s.bufTable.length = s.numBufs) :
    ∃ st k s', allocBufLoop L H (2 * s.numBufs) 0 frame s = some (st, k, s') ∧
      (∀ fuel, 2 * s.numBufs ≤ fuel → allocBufLoop L H fuel 0 frame s = some (st, k, s')) ∧
      (st = Status.OK ∨ st = Status.BUFFEREXCEEDED ∨ st = Status.UNIXERR ∨
        st = Status.HASHTBLERROR) ∧
      s'.clockHand < s.numBufs ∧ s'.numBufs = s.numBufs := by
  have hb : (s.numBufs - 1 - 0) + clearable s + 1 ≤ 2 * s.numBufs := by
    have : clearable s ≤ s.bufTable.length := List.countP_le_length _
    omega
  obtain ⟨⟨st, k, s'⟩, hr⟩ := allocBufLoop_returns L H (2 * s.numBufs) 0 frame s hb
  obtain ⟨m, hro, hc, ho⟩ := allocBufLoop_outcome L H _ 0 frame s hr
  obtain ⟨a1, _, a3, _⟩ := allocOutcome_static L H frame ho
  refine ⟨st, k, s', hr, fun fuel hf => allocBufLoop_mono L H _ 0 frame s _ hr fuel hf,
    allocOutcome_status L H frame ho, ?_, a1.trans hro.1⟩
  rw [a3]
  exact hc hn

theorem allocBuf_terminates_within_two_sweeps_witness :
    allocBufLoop okLayer stdOps 3 0 0 exMixed = some (Status.BUFFEREXCEEDED, 0, exMixedSwept) ∧
    allocBufLoop okLayer stdOps 2 0 0 exMixed = none ∧
    ∃ st k s', allocBufLoop okLayer stdOps (2 * exMixed.numBufs) 0 0 exMixed
        = some (st, k, s') ∧
      (∀ fuel, 2 * exMixed.numBufs ≤ fuel →
        allocBufLoop okLayer stdOps fuel 0 0 exMixed = some (st, k, s')) ∧
      (st = Status.OK ∨ st = Status.BUFFEREXCEEDED ∨ st = Status.UNIXERR ∨
        st = Status.HASHTBLERROR) ∧
      s'.clockHand < exMixed.numBufs ∧ s'.numBufs = exMixed.numBufs :=
  ⟨rfl, rfl,
   allocBuf_terminates_within_two_sweeps okLayer stdOps 0 exMixed (by decide) rfl⟩

/-! ### C18 -/

theorem allocBufIter_clear (L : FileLayer σ) (H : DescOps) (np frame : Nat) (s : BufMgr σ)
    (hv : (desc (advanceClock s) (advanceClock s).clockHand).valid = true)
    (hp : ¬ (desc (advanceClock s) (advanceClock s).clockHand).pinCnt > 0)
    (hr : (desc (advanceClock s) (advanceClock s).clockHand).refbit = true) :
    allocBufIter L H np frame s =
      .next np (setDesc (advanceClock s) (advanceClock s).clockHand
        { desc (advanceClock s) (advanceClock s).clockHand with refbit := false }) := by
  unfold allocBufIter
  simp only [hv, hr, Bool.not_true, Bool.false_eq_true, if_false, if_true, hp]

/-- A run of `j` passes over frames `a .. a+j-1` (no wrap-around), `a` being the
frame after the clock hand, all valid, unpinned and referenced: the loop clears
their reference bits and goes on from the state `s2`. -/
theorem allocBufLoop_clearRun (L : FileLayer σ) (H : DescOps) (frame : Nat) (j : Nat) :
    ∀ (s : BufMgr σ) (np f : Nat), 1 ≤ s.numBufs →
      (s.clockHand + 1) % s.numBufs + j ≤ s.numBufs →
      (∀ i, (s.clockHand + 1) % s.numBufs ≤ i → i < (s.clockHand + 1) % s.numBufs + j →
        (desc s i).valid = true ∧ ¬ (desc s i).pinCnt > 0 ∧ (desc s i).refbit = true) →
      ∃ s2, allocBufLoop L H (j + f) np frame s = allocBufLoop L H f np frame s2 ∧
        s2.clockHand =
          (if j = 0 then s.clockHand else (s.clockHand + 1) % s.numBufs + j - 1) ∧
        (∀ i, desc s2 i =
          if (s.clockHand + 1) % s.numBufs ≤ i ∧ i < (s.clockHand + 1) % s.numBufs + j
          then { desc s i with refbit := false } else desc s i) ∧
        s2.numBufs = s.numBufs ∧ s2.bufPool = s.bufPool ∧ s2.hashTable = s.hashTable ∧
        s2.bufStats = s.bufStats ∧ s2.disk = s.disk ∧ s2.trace = s.trace ∧
        s2.bufTable.length = s.bufTable.length := by
  induction j with
  | zero =>
    intro s np f _ _ _
    refine ⟨s, by rw [Nat.zero_add], by rw [if_pos rfl], ?_, rfl, rfl, rfl, rfl, rfl, rfl, rfl⟩
    intro i
    rw [if_neg (fun h => by omega)]
  | succ j ih =>
    intro s np f hn hle hall
    obtain ⟨a, ha⟩ : ∃ a, a = (s.clockHand + 1) % s.numBufs := ⟨_, rfl⟩
    rw [← ha] at hle hall ⊢
    have haN : a < s.numBufs := by rw [ha]; exact Nat.mod_lt _ hn
    obtain ⟨hva, hpa, hra⟩ := hall a (le_refl _) (by omega)
    have hal : a < s.bufTable.length := desc_valid_lt hva
    have hadv : (advanceClock s).clockHand = a := by rw [ha]; rfl
    have hdadv : ∀ i, desc (advanceClock s) i = desc s i := fun _ => rfl
    have hiter := allocBufIter_clear L H np frame s
      (by rw [hadv, hdadv]; exact hva) (by rw [hadv, hdadv]; exact hpa)
      (by rw [hadv, hdadv]; exact hra)
    rw [hadv, hdadv] at hiter
    obtain ⟨s1, hs1⟩ : ∃ s1, s1 = setDesc (advanceClock s) a
        { desc s a with refbit := false } := ⟨_, rfl⟩
    rw [← hs1] at hiter
    have hstep : allocBufLoop L H (j + 1 + f) np frame s =
        allocBufLoop L H (j + f) np frame s1 := by
      have e : j + 1 + f = (j + f) + 1 := by omega
      rw [e, allocBufLoop, hiter]
    have h1c : s1.clockHand = a := by rw [hs1]; exact hadv
    have h1n : s1.numBufs = s.numBufs := by rw [hs1]; rfl
    have h1d : ∀ i, desc s1 i = if i = a then { desc s a with refbit := false }
        else desc s i := by
      intro i
      rw [hs1, desc_setDesc]
      by_cases hi : a = i
      · subst hi
        rw [if_pos ⟨rfl, hal⟩, if_pos rfl]
      · rw [if_neg (fun h => hi h.1), if_neg (fun h => hi h.symm)]
        rfl
    have h1l : s1.bufTable.length = s.bufTable.length := by
      rw [hs1]; simp [setDesc, advanceClock]
    rcases Nat.eq_zero_or_pos j with hj0 | hjpos
    · subst hj0
      have hstep0 : allocBufLoop L H (0 + 1 + f) np frame s =
          allocBufLoop L H f np frame s1 := by
        rw [hstep, Nat.zero_add]
      refine ⟨s1, hstep0, ?_, ?_, h1n, by rw [hs1]; rfl, by rw [hs1]; rfl,
        by rw [hs1]; rfl, by rw [hs1]; rfl, by rw [hs1]; rfl, h1l⟩
      · rw [if_neg (by omega), h1c]; omega
      · intro i
        rw [h1d i]
        by_cases hi : i = a
        · rw [if_pos hi, if_pos (by omega), hi]
        · rw [if_neg hi, if_neg (by omega)]
    · have ha1 : (s1.clockHand + 1) % s1.numBufs = a + 1 := by
        rw [h1c, h1n]
        exact Nat.mod_eq_of_lt (by omega)
      obtain ⟨s2, e2, c2, d2, n2, p2, t2, b2, k2, tr2, l2⟩ := ih s1 np f
        (by rw [h1n]; exact hn) (by rw [ha1, h1n]; omega)
        (by
          intro i hi1 hi2
          rw [ha1] at hi1 hi2
          rw [h1d i, if_neg (by omega)]
          exact hall i (by omega) (by omega))
      rw [ha1] at c2 d2
      refine ⟨s2, hstep.trans e2, ?_, ?_, n2.trans h1n, by rw [p2, hs1]; rfl,
        by rw [t2, hs1]; rfl, by rw [b2, hs1]; rfl, by rw [k2, hs1]; rfl,
        by rw [tr2, hs1]; rfl, l2.trans h1l⟩
      · rw [c2, if_neg (by omega), if_neg (by omega)]; omega
      · intro i
        rw [d2 i, h1d i]
        by_cases hi : i = a
        · rw [if_neg (by omega), if_pos hi, if_pos (by omega), hi]
        · rw [if_neg hi]
          by_cases hr : a + 1 ≤ i ∧ i < a + 1 + j
          · rw [if_pos hr, if_pos (by omega)]
          · rw [if_neg hr, if_neg (by omega)]

/-- The first sweep: when every frame is valid, unpinned and referenced, `numBufs`
passes clear every reference bit, return nothing, and bring the clock hand back
to where it was. -/
theorem allocBufLoop_firstSweep (L : FileLayer σ) (H : DescOps) (frame : Nat)
    (s : BufMgr σ) (np f : Nat) (hw : WF s) (hall : AllReferenced s) :
    ∃ s3, allocBufLoop L H (s.numBufs + f) np frame s = allocBufLoop L H f np frame s3 ∧
      s3.clockHand = s.clockHand ∧
      (∀ i, i < s.numBufs → desc s3 i = { desc s i with refbit := false }) ∧
      s3.numBufs = s.numBufs ∧ s3.bufPool = s.bufPool ∧ s3.hashTable = s.hashTable ∧
      s3.bufStats = s.bufStats ∧ s3.disk = s.disk ∧ s3.trace = s.trace ∧
      s3.bufTable.length = s.bufTable.length := by
  obtain ⟨w1, w2, w3, w4, w5⟩ := hw
  obtain ⟨a, ha⟩ : ∃ a, a = (s.clockHand + 1) % s.numBufs := ⟨_, rfl⟩
  have haN : a < s.numBufs := by rw [ha]; exact Nat.mod_lt _ w1
  have hclr : ∀ i, i < s.numBufs →
      (desc s i).valid = true ∧ ¬ (desc s i).pinCnt > 0 ∧ (desc s i).refbit = true := by
    intro i hi
    obtain ⟨x, y, z⟩ := hall i hi
    exact ⟨x, by rw [y]; exact lt_irrefl _, z⟩
  obtain ⟨s2, e2, c2, d2, n2, p2, t2, b2, k2, tr2, l2⟩ :=
    allocBufLoop_clearRun L H frame (s.numBufs - a) s np (a + f) w1
      (by rw [← ha]; omega)
      (by intro i _ hi2; rw [← ha] at hi2; exact hclr i (by omega))
  rw [← ha] at c2 d2
  have hc2 : s2.clockHand = s.numBufs - 1 := by
    rw [c2, if_neg (by omega)]; omega
  have ha2 : (s2.clockHand + 1) % s2.numBufs = 0 := by
    rw [hc2, n2, Nat.sub_add_cancel w1, Nat.mod_self]
  obtain ⟨s3, e3, c3, d3, n3, p3, t3, b3, k3, tr3, l3⟩ :=
    allocBufLoop_clearRun L H frame a s2 np f (by rw [n2]; exact w1)
      (by rw [ha2, n2]; omega)
      (by
        intro i _ hi2
        rw [ha2] at hi2
        rw [d2 i, if_neg (by omega)]
        exact hclr i (by omega))
  rw [ha2] at c3 d3
  have efuel : s.numBufs + f = (s.numBufs - a) + (a + f) := by omega
  refine ⟨s3, by rw [efuel, e2, e3], ?_, ?_, n3.trans n2, p3.trans p2, t3.trans t2,
    b3.trans b2, k3.trans k2, tr3.trans tr2, l3.trans l2⟩
  · rw [c3]
    by_cases ha0 : a = 0
    · rw [if_pos ha0, hc2]
      have hm : (s.clockHand + 1) % s.numBufs = 0 := by rw [← ha]; exact ha0
      have hdvd : s.numBufs ∣ s.clockHand + 1 := Nat.dvd_of_mod_eq_zero hm
      have := Nat.le_of_dvd (by omega) hdvd
      omega
    · rw [if_neg ha0]
      have hlt : s.clockHand + 1 < s.numBufs := by
        by_contra hc
        have he : s.clockHand + 1 = s.numBufs := by omega
        rw [he, Nat.mod_self] at ha
        exact ha0 ha
      rw [Nat.mod_eq_of_lt hlt] at ha
      omega
  · intro i hi
    rw [d3 i, d2 i]
    by_cases hia : i < a
    · rw [if_pos ⟨Nat.zero_le _, by omega⟩, if_neg (by omega)]
    · rw [if_neg (by omega), if_pos ⟨by omega, by omega⟩]

/-- A pass whose frame is valid, unpinned, unreferenced, written back without
error when dirty, and present in the hash table, returns that frame with `OK`. -/
theorem allocBufIter_victim (L : FileLayer σ) (H : DescOps) (np frame : Nat) (s : BufMgr σ)
    (hv : (desc (advanceClock s) (advanceClock s).clockHand).valid = true)
    (hp : ¬ (desc (advanceClock s) (advanceClock s).clockHand).pinCnt > 0)
    (hr : (desc (advanceClock s) (advanceClock s).clockHand).refbit = false)
    (hwb : (desc (advanceClock s) (advanceClock s).clockHand).dirty = true →
      (L.writePage (advanceClock s).disk (desc (advanceClock s) (advanceClock s).clockHand).file
        (desc (advanceClock s) (advanceClock s).clockHand).pageNo
        (page (advanceClock s) (desc (advanceClock s) (advanceClock s).clockHand).frameNo)).1
        = Status.OK)
    (hm : ∃ e, e ∈ (advanceClock s).hashTable ∧
      e.file = (desc (advanceClock s) (advanceClock s).clockHand).file ∧
      e.pageNo = (desc (advanceClock s) (advanceClock s).clockHand).pageNo) :
    ∃ s1, allocBufIter L H np frame s = .ret Status.OK (advanceClock s).clockHand s1 ∧
      AllocOutcome L H frame (advanceClock s) Status.OK (advanceClock s).clockHand s1 := by
  cases hi : allocBufIter L H np frame s with
  | next np1 s1 =>
    obtain ⟨_, hc | hc⟩ := allocBufIter_next_cases L H np frame s hi
    · exact absurd hc.2.2.2 hp
    · rw [hr] at hc
      exact absurd hc.2.2.2 (by simp)
  | ret st k s1 =>
    have ho := allocBufIter_ret L H np frame s hi
    cases ho with
    | free hv0 => rw [hv] at hv0; cases hv0
    | exceeded hv0 hp0 => exact absurd hp0 hp
    | writeFailed hv0 hp0 hr0 hd0 hw0 => exact absurd (hwb hd0) hw0
    | removeFailed hv0 hp0 hr0 hw0 hne =>
      rw [remove_of_mem _ _ _ hm] at hne
      exact absurd rfl hne
    | evicted hv0 hp0 hr0 hw0 heq =>
      exact ⟨_, rfl, AllocOutcome.evicted hv0 hp0 hr0 hw0 heq⟩

/-- A pass that lands on an invalid frame returns it at once. -/
theorem allocBufIter_free (L : FileLayer σ) (H : DescOps) (np frame : Nat) (s : BufMgr σ)
    (hv : (desc (advanceClock s) (advanceClock s).clockHand).valid = false) :
    allocBufIter L H np frame s
      = .ret Status.OK (advanceClock s).clockHand (advanceClock s) := by
  unfold allocBufIter
  simp [hv]

/-- When the frame after the clock hand is invalid, `allocBuf` returns it and
only moves the clock hand. -/
theorem allocBuf_free (L : FileLayer σ) (H : DescOps) (frame : Nat) (s : BufMgr σ)
    (hn : 1 ≤ s.numBufs)
    (hv : (desc s ((s.clockHand + 1) % s.numBufs)).valid = false) :
    allocBuf L H frame s
      = some (Status.OK, (s.clockHand + 1) % s.numBufs, advanceClock s) := by
  unfold allocBuf
  obtain ⟨f, hf⟩ : ∃ f, 2 * s.numBufs = f + 1 := ⟨2 * s.numBufs - 1, by omega⟩
  rw [hf, allocBufLoop, allocBufIter_free L H 0 frame s _]
  · rfl
  · have : desc (advanceClock s) (advanceClock s).clockHand
        = desc s ((s.clockHand + 1) % s.numBufs) := desc_of_table rfl _
    rw [this]
    exact hv

theorem new_filled (N : Nat) (disk : σ) (h : 1 ≤ N) :
    Filled N [] (BufMgr.new N disk) := by
  have hd : ∀ i, i < N → desc (BufMgr.new N disk) i =
      { (default : BufDesc) with frameNo := i, valid := false } := by
    intro i hi
    simp [desc, BufMgr.new, List.getD_eq_getElem?_getD, List.getElem?_map, List.getElem?_range hi]
  refine ⟨new_good N disk h, rfl, Nat.zero_le _, ?_, ?_, ?_, rfl, rfl, rfl, ?_⟩
  · show (N - 1 + 1) % N = 0 % N
    rw [Nat.sub_add_cancel h, Nat.mod_self, Nat.zero_mod]
  · intro i hi
    rw [hd i hi]
    simp
  · intro i key hk
    simp at hk
  · intro e he
    cases he

/-- A `readPage` miss when the frame after the clock hand is invalid: the page
goes into that frame, with one file read and one hash insert. -/
theorem readPage_into_free (L : FileLayer σ) (H : DescOps) (file : FilePtr) (pageNo : Int)
    (s : BufMgr σ) (hw : WF s)
    (hfree : ∀ e, e ∈ s.hashTable → ¬ (e.file = file ∧ e.pageNo = pageNo))
    (hv : (desc s ((s.clockHand + 1) % s.numBufs)).valid = false)
    (hrd : (L.readPage s.disk file pageNo (page s ((s.clockHand + 1) % s.numBufs))).1
      = Status.OK) :
    ∃ s1, readPage L H file pageNo s
        = some (Status.OK, some ((s.clockHand + 1) % s.numBufs), s1) ∧
      s1.numBufs = s.numBufs ∧ s1.clockHand = (s.clockHand + 1) % s.numBufs ∧
      (∀ i, desc s1 i = if (s.clockHand + 1) % s.numBufs = i
        then (desc s ((s.clockHand + 1) % s.numBufs)).Set H file pageNo else desc s i) ∧
      s1.bufStats.accesses = s.bufStats.accesses + 1 ∧
      s1.bufStats.diskreads = s.bufStats.diskreads + 1 ∧
      s1.bufStats.diskwrites = s.bufStats.diskwrites ∧
      s1.trace = s.trace ++ [Event.fileRead file pageNo,
        Event.hashInsert file pageNo ((s.clockHand + 1) % s.numBufs)] ∧
      s1.hashTable = ⟨file, pageNo, (s.clockHand + 1) % s.numBufs⟩ :: s.hashTable ∧
      s1.disk = (L.readPage s.disk file pageNo
        (page s ((s.clockHand + 1) % s.numBufs))).2.2 ∧
      s1.bufPool = s.bufPool.set ((s.clockHand + 1) % s.numBufs)
        (L.readPage s.disk file pageNo (page s ((s.clockHand + 1) % s.numBufs))).2.1 := by
  obtain ⟨w1, w2, w3, w4, w5⟩ := hw
  have ha := allocBuf_free L H 0 s w1 hv
  have hrd1 : (L.readPage (advanceClock s).disk file pageNo
      (page (advanceClock s) ((s.clockHand + 1) % s.numBufs))).1 = Status.OK := hrd
  have hfree1 : ∀ e, e ∈ (advanceClock s).hashTable →
      ¬ (e.file = file ∧ e.pageNo = pageNo) := hfree
  have hjN : (s.clockHand + 1) % s.numBufs < s.numBufs := Nat.mod_lt _ w1
  rcases lookup_cases s.hashTable file pageNo 0 with ⟨e, he, hf, hp, _⟩ | ⟨_, hl⟩
  · exact absurd ⟨hf, hp⟩ (hfree e he)
  · unfold readPage
    simp only [hl, reduceCtorEq, if_false, if_true, ha, ne_eq, not_true_eq_false, hrd1,
      insert_of_free _ _ _ ((s.clockHand + 1) % s.numBufs) hfree1]
    refine ⟨_, rfl, rfl, rfl, ?_, rfl, rfl, rfl, ?_, rfl, rfl, rfl⟩
    · intro i
      rw [desc_setDesc]
      by_cases hji : (s.clockHand + 1) % s.numBufs = i
      · rw [if_pos hji, if_pos ⟨hji, by show _ < s.bufTable.length; omega⟩]
        rfl
      · rw [if_neg hji, if_neg (fun h => hji h.1)]
        rfl
    · show s.trace ++ [Event.fileRead file pageNo] ++ _ = _
      rw [List.append_assoc]
      rfl

/-- What `unPinPage` leaves alone, whatever it returns. -/
theorem unPinPage_static (file : FilePtr) (pageNo : Int) (dirty : Bool) (s : BufMgr σ) :
    (unPinPage file pageNo dirty s).2.numBufs = s.numBufs ∧
    (unPinPage file pageNo dirty s).2.clockHand = s.clockHand ∧
    (unPinPage file pageNo dirty s).2.bufStats = s.bufStats ∧
    (unPinPage file pageNo dirty s).2.trace = s.trace ∧
    (unPinPage file pageNo dirty s).2.hashTable = s.hashTable ∧
    (unPinPage file pageNo dirty s).2.disk = s.disk ∧
    (unPinPage file pageNo dirty s).2.bufPool = s.bufPool ∧
    ∀ i, (desc (unPinPage file pageNo dirty s).2 i).valid = (desc s i).valid ∧
      (desc (unPinPage file pageNo dirty s).2 i).file = (desc s i).file ∧
      (desc (unPinPage file pageNo dirty s).2 i).pageNo = (desc s i).pageNo := by
  unfold unPinPage
  simp only
  split
  · exact ⟨rfl, rfl, rfl, rfl, rfl, rfl, rfl, fun _ => ⟨rfl, rfl, rfl⟩⟩
  · split
    · exact ⟨rfl, rfl, rfl, rfl, rfl, rfl, rfl, fun _ => ⟨rfl, rfl, rfl⟩⟩
    · refine ⟨rfl, rfl, rfl, rfl, rfl, rfl, rfl, fun i => ?_⟩
      rw [desc_setDesc]
      split
      · rename_i h
        rw [← h.1]
        cases dirty <;> exact ⟨rfl, rfl, rfl⟩
      · exact ⟨rfl, rfl, rfl⟩

theorem unPinPage_fill (N : Nat) (ks : List (FilePtr × Int)) (file : FilePtr) (pageNo : Int)
    (dirty : Bool) (s : BufMgr σ) (hf : Filled N ks s) :
    Filled N ks (unPinPage file pageNo dirty s).2 := by
  obtain ⟨hg, hn, hle, hc, hval, hkey, ha, hr, hwz, htr⟩ := hf
  obtain ⟨u1, u2, u3, u4, u5, u6, u7, u8⟩ := unPinPage_static file pageNo dirty s
  refine ⟨unPinPage_good file pageNo dirty hg, u1.trans hn, hle, by rw [u2]; exact hc, ?_, ?_,
    by rw [u3]; exact ha, by rw [u3]; exact hr, by rw [u3]; exact hwz, by rw [u4]; exact htr⟩
  · intro i hi
    rw [(u8 i).1]
    exact hval i hi
  · intro i key hk
    rw [(u8 i).2.1, (u8 i).2.2]
    exact hkey i key hk

theorem readPage_fill (L : FileLayer σ) (H : DescOps) (N : Nat) (ks : List (FilePtr × Int))
    (file : FilePtr) (pageNo : Int) (s : BufMgr σ) (hf : Filled N ks s)
    (hlt : ks.length < N) (hnew : (file, pageNo) ∉ ks)
    (hrd : ∀ d pg, (L.readPage d file pageNo pg).1 = Status.OK) :
    ∃ s1, readPage L H file pageNo s = some (Status.OK, some ks.length, s1) ∧
      Filled N (ks ++ [(file, pageNo)]) s1 := by
  obtain ⟨hg, hn, hle, hc, hval, hkey, ha, hr, hwz, htr⟩ := hf
  have hadv : (s.clockHand + 1) % s.numBufs = ks.length := by
    rw [hn, hc, Nat.mod_eq_of_lt hlt]
  have hfree : ∀ e, e ∈ s.hashTable → ¬ (e.file = file ∧ e.pageNo = pageNo) := by
    intro e he hk
    obtain ⟨e1, e2, e3, e4⟩ := good_frame_of_entry hg he
    have hi : e.frameNo < ks.length := (hval _ (hn ▸ e1)).1 e2
    obtain ⟨k1, k2⟩ := hkey _ _ (List.getElem?_eq_getElem hi)
    apply hnew
    have hkk : ks[e.frameNo] = (file, pageNo) :=
      Prod.ext (by rw [← k1, e3]; exact hk.1) (by rw [← k2, e4]; exact hk.2)
    rw [← hkk]
    exact List.getElem_mem hi
  have hinv : (desc s ((s.clockHand + 1) % s.numBufs)).valid = false := by
    rw [hadv]
    cases hv : (desc s ks.length).valid
    · rfl
    · exact absurd ((hval ks.length hlt).1 hv) (lt_irrefl _)
  obtain ⟨s1, h1, p1, p2, p3, p4, p5, p6, p7, p8, p9, p10⟩ :=
    readPage_into_free L H file pageNo s hg.1 hfree hinv (hrd _ _)
  rw [hadv] at h1 p2 p3 p7
  refine ⟨s1, h1, readPage_good L H file pageNo hg h1, p1.trans hn, ?_, ?_, ?_, ?_, ?_, ?_,
    ?_, ?_⟩
  · rw [List.length_append]
    exact hlt
  · rw [p2, List.length_append]
    rfl
  · intro i hi
    rw [p3 i, List.length_append]
    by_cases hji : ks.length = i
    · rw [if_pos hji]
      subst hji
      exact ⟨fun _ => Nat.lt_succ_self _, fun _ => rfl⟩
    · rw [if_neg hji, hval i hi]
      show i < ks.length ↔ i < ks.length + 1
      omega
  · intro i key hk
    rw [p3 i]
    by_cases hji : ks.length = i
    · rw [if_pos hji]
      subst hji
      rw [List.getElem?_append_right (le_refl _), Nat.sub_self] at hk
      cases hk
      exact ⟨rfl, rfl⟩
    · rw [if_neg hji]
      have hil : i < ks.length := by
        by_contra hc2
        rw [List.getElem?_append_right (by omega)] at hk
        have : i - ks.length ≠ 0 := by omega
        obtain ⟨m, hm⟩ : ∃ m, i - ks.length = m + 1 := ⟨i - ks.length - 1, by omega⟩
        rw [hm] at hk
        cases hk
      rw [List.getElem?_append_left hil] at hk
      exact hkey i key hk
  · rw [p4, ha, List.length_append]
    rfl
  · rw [p5, hr, List.length_append]
    rfl
  · rw [p6]
    exact hwz
  · intro e he
    rw [p7] at he
    rcases List.mem_append.1 he with h | h
    · exact htr e h
    · simp only [List.mem_cons, List.mem_singleton, List.not_mem_nil, or_false] at h
      rcases h with rfl | rfl <;> rfl

/-- Reading the page a valid frame holds is a hit: no file call, the frame is
returned, only `accesses` moves. -/
theorem readPage_hit_at (L : FileLayer σ) (H : DescOps) (s : BufMgr σ) (hg : Good s)
    (i : Nat) (hi : i < s.numBufs) (hv : (desc s i).valid = true) :
    ∃ s2, readPage L H (desc s i).file (desc s i).pageNo s = some (Status.OK, some i, s2) ∧
      s2.bufStats.diskreads = s.bufStats.diskreads ∧
      s2.bufStats.diskwrites = s.bufStats.diskwrites ∧
      s2.trace = s.trace ∧ s2.disk = s.disk ∧ s2.hashTable = s.hashTable ∧
      s2.bufPool = s.bufPool := by
  have hlk := (hashInv_iff_linked s).1 hg.2
  have hm : (⟨(desc s i).file, (desc s i).pageNo, i⟩ : HashEntry) ∈ s.hashTable :=
    hlk.1 i hi (by simpa [vkey] using hv)
  rcases lookup_cases s.hashTable (desc s i).file (desc s i).pageNo 0 with
    ⟨e, he, hf, hp, hl⟩ | ⟨hfree, _⟩
  · have hei : e = ⟨(desc s i).file, (desc s i).pageNo, i⟩ := keysDistinct_eq hlk.2.2 he hm hf hp
    rw [hei] at hl
    unfold readPage
    simp only [hl, if_true]
    exact ⟨_, rfl, rfl, rfl, rfl, rfl, rfl, rfl⟩
  · exact absurd ⟨rfl, rfl⟩ (hfree _ hm)

theorem runCalls_fill (L : FileLayer σ) (H : DescOps) (N : Nat) :
    ∀ (cs : List Call) (ks : List (FilePtr × Int)) (s : BufMgr σ), Filled N ks s →
      (ks ++ readKeys cs).length ≤ N → (ks ++ readKeys cs).Nodup →
      (∀ d pg key, key ∈ readKeys cs → (L.readPage d key.1 key.2 pg).1 = Status.OK) →
      ∃ s1, runCalls L H cs s
          = some ((List.range (readKeys cs).length).map
              (fun i => (Status.OK, some (ks.length + i))), s1) ∧
        Filled N (ks ++ readKeys cs) s1 := by
  intro cs
  induction cs with
  | nil =>
    intro ks s hf _ _ _
    refine ⟨s, rfl, ?_⟩
    show Filled N (ks ++ []) s
    rw [List.append_nil]
    exact hf
  | cons c cs ih =>
    intro ks s hf hlen hnd hrd
    cases c with
    | read file pageNo =>
      have hk : readKeys (Call.read file pageNo :: cs) = (file, pageNo) :: readKeys cs := rfl
      rw [hk] at hlen hnd hrd ⊢
      rw [List.append_cons] at hlen hnd ⊢
      have hlt : ks.length < N := by
        rw [List.length_append, List.length_append] at hlen
        simp only [List.length_singleton] at hlen
        omega
      have hnew : (file, pageNo) ∉ ks := fun hin =>
        (List.nodup_append.1 (List.Nodup.of_append_left hnd)).2.2 hin
          (List.mem_singleton_self _)
      obtain ⟨s1, h1, hf1⟩ := readPage_fill L H N ks file pageNo s hf hlt hnew
        (fun d pg => hrd d pg (file, pageNo) (List.mem_cons_self _ _))
      obtain ⟨s2, h2, hf2⟩ := ih (ks ++ [(file, pageNo)]) s1 hf1 hlen hnd
        (fun d pg key hkey => hrd d pg key (List.mem_cons_of_mem _ hkey))
      refine ⟨s2, ?_, hf2⟩
      rw [runCalls, h1]
      simp only [h2]
      rw [List.length_cons, List.range_succ_eq_map, List.map_cons, List.map_map]
      refine congrArg some (Prod.ext ?_ rfl)
      refine congrArg₂ List.cons rfl ?_
      apply List.map_congr_left
      intro i _
      simp only [List.length_append, List.length_singleton, Function.comp]
      rw [Nat.add_assoc, Nat.add_comm 1 i]
    | unpin file pageNo dirty =>
      have hk : readKeys (Call.unpin file pageNo dirty :: cs) = readKeys cs := rfl
      rw [hk] at hlen hnd hrd ⊢
      rw [runCalls]
      exact ih ks _ (unPinPage_fill N ks file pageNo dirty s hf) hlen hnd hrd

/-- C16: a workload that fits the pool causes one read per page and no writes.
From the constructor's state with `N >= 1` frames, run any list of `readPage` and
`unPinPage` calls whose `readPage` keys are pairwise distinct and at most `N` in
number, over a file layer whose reads of those keys succeed.  Then the run
returns, the `i`-th `readPage` (from 0) returns `OK` with frame `i`, and in the
final state `diskreads = accesses = ` the number `k` of reads, `diskwrites = 0`
and no `writePage` was issued; frame `i` is valid and holds the `i`-th key, and a
further `readPage` of that key returns `OK` with frame `i` without any file call,
leaving `diskreads = k` and `diskwrites = 0`. -/
theorem workload_fitting_pool_reads_once (L : FileLayer σ) (H : DescOps) (N : Nat) (disk : σ)
    (cs : List Call) (hN : 1 ≤ N) (hk : (readKeys cs).length ≤ N)
    (hd : (readKeys cs).Nodup)
    (hrd : ∀ d pg key, key ∈ readKeys cs → (L.readPage d key.1 key.2 pg).1 = Status.OK) :
    ∃ s1, runCalls L H cs (BufMgr.new N disk)
        = some ((List.range (readKeys cs).length).map (fun i => (Status.OK, some i)), s1) ∧
      s1.bufStats.diskreads = (readKeys cs).length ∧
      s1.bufStats.accesses = (readKeys cs).length ∧
      s1.bufStats.diskwrites = 0 ∧
      (∀ e, e ∈ s1.trace → Event.isWrite e = false) ∧
      ∀ i key, (readKeys cs)[i]? = some key →
        (desc s1 i).valid = true ∧ (desc s1 i).file = key.1 ∧ (desc s1 i).pageNo = key.2 ∧
        ∃ s2, readPage L H key.1 key.2 s1 = some (Status.OK, some i, s2) ∧
          s2.bufStats.diskreads = (readKeys cs).length ∧ s2.bufStats.diskwrites = 0 ∧
          s2.trace = s1.trace ∧ s2.disk = s1.disk := by
  obtain ⟨s1, h1, hf⟩ := runCalls_fill L H N cs [] (BufMgr.new N disk) (new_filled N disk hN)
    (by rw [List.nil_append]; exact hk) (by rw [List.nil_append]; exact hd) hrd
  rw [List.nil_append] at hf
  obtain ⟨hg, hn, hle, hc, hval, hkey, ha, hr, hwz, htr⟩ := hf
  refine ⟨s1, ?_, hr, ha, hwz, htr, ?_⟩
  · rw [h1]
    refine congrArg some (Prod.ext ?_ rfl)
    apply List.map_congr_left
    intro i _
    show (Status.OK, some ([].length + i)) = (Status.OK, some i)
    rw [List.length_nil, Nat.zero_add]
  · intro i key hik
    have hil : i < (readKeys cs).length := by
      by_contra hc2
      rw [List.getElem?_eq_none (by omega)] at hik
      cases hik
    have hiN : i < s1.numBufs := by omega
    have hv : (desc s1 i).valid = true := (hval i (by omega)).2 hil
    obtain ⟨k1, k2⟩ := hkey i key hik
    obtain ⟨s2, r1, r2, r3, r4, r5, _⟩ := readPage_hit_at L H s1 hg i hiN hv
    rw [k1, k2] at r1
    exact ⟨hv, k1, k2, s2, r1, r2.trans hr, r3.trans hwz, r4, r5⟩

theorem workload_fitting_pool_reads_once_witness :
    (readKeys exWorkload = [(1, 5), (1, 6)] ∧
     runCalls okLayer stdOps exWorkload (BufMgr.new 2 ())
       = some ([(Status.OK, some 0), (Status.OK, some 1)], exWorked)) ∧
    ∃ s1, runCalls okLayer stdOps exWorkload (BufMgr.new 2 ())
        = some ((List.range (readKeys exWorkload).length).map
            (fun i => (Status.OK, some i)), s1) ∧
      s1.bufStats.diskreads = (readKeys exWorkload).length ∧
      s1.bufStats.accesses = (readKeys exWorkload).length ∧
      s1.bufStats.diskwrites = 0 ∧
      (∀ e, e ∈ s1.trace → Event.isWrite e = false) ∧
      ∀ i key, (readKeys exWorkload)[i]? = some key →
        (desc s1 i).valid = true ∧ (desc s1 i).file = key.1 ∧ (desc s1 i).pageNo = key.2 ∧
        ∃ s2, readPage okLayer stdOps key.1 key.2 s1 = some (Status.OK, some i, s2) ∧
          s2.bufStats.diskreads = (readKeys exWorkload).length ∧
          s2.bufStats.diskwrites = 0 ∧
          s2.trace = s1.trace ∧ s2.disk = s1.disk :=
  ⟨⟨rfl, rfl⟩,
    workload_fitting_pool_reads_once okLayer stdOps 2 () exWorkload (by decide) (by decide)
      (by decide) (fun _ _ _ _ => rfl)⟩

/-! ### C15 -/

/-- A pass returns `BUFFEREXCEEDED` only on a valid frame and with the pin
counter one short of the pool size. -/
theorem allocBufIter_exceeded (L : FileLayer σ) (H : DescOps) (np frame : Nat) (s : BufMgr σ)
    {k : Nat} {s1 : BufMgr σ}
    (h : allocBufIter L H np frame s = .ret Status.BUFFEREXCEEDED k s1) :
    s.numBufs ≤ np + 1 ∧ (desc s ((s.clockHand + 1) % s.numBufs)).valid = true := by
  have ho := allocBufIter_ret L H np frame s h
  cases ho with
  | exceeded hv hp =>
    refine ⟨?_, hv⟩
    unfold allocBufIter at h
    simp only [hv, hp, Bool.not_true, Bool.false_eq_true, if_false, if_true] at h
    by_contra hc
    rw [if_neg (by show ¬ (advanceClock s).numBufs ≤ np + 1; exact hc)] at h
    cases h

/-- While an invalid frame lies ahead of the clock hand, closer than the number
of pinned frames still allowed, the loop does not return `BUFFEREXCEEDED`. -/
theorem allocBufLoop_not_exceeded (L : FileLayer σ) (H : DescOps) (frame : Nat) (fuel : Nat) :
    ∀ (np : Nat) (s : BufMgr σ) (st : Status) (k : Nat) (s1 : BufMgr σ), 1 ≤ s.numBufs →
      (∃ j, np + j < s.numBufs ∧
        (desc s ((s.clockHand + 1 + j) % s.numBufs)).valid = false) →
      allocBufLoop L H fuel np frame s = some (st, k, s1) → st ≠ Status.BUFFEREXCEEDED := by
  induction fuel with
  | zero => intro np s st k s1 _ _ h; cases h
  | succ n ih =>
    intro np s st k s1 hn hj h
    obtain ⟨j, hj1, hj2⟩ := hj
    rw [allocBufLoop] at h
    cases hi : allocBufIter L H np frame s with
    | ret st0 k0 s0 =>
      rw [hi] at h
      simp only [Option.some.injEq, Prod.mk.injEq] at h
      obtain ⟨rfl, rfl, rfl⟩ := h
      intro hst
      subst hst
      obtain ⟨e1, e2⟩ := allocBufIter_exceeded L H np frame s hi
      have hj0 : j = 0 := by omega
      subst hj0
      rw [Nat.add_zero, e2] at hj2
      cases hj2
    | next np1 s0 =>
      rw [hi] at h
      simp only at h
      obtain ⟨hro, hch⟩ := allocBufIter_next L H np frame s hi
      obtain ⟨hv, hcase⟩ := allocBufIter_next_cases L H np frame s hi
      have hv1 : (desc s ((s.clockHand + 1) % s.numBufs)).valid = true := hv
      have hj0 : j ≠ 0 := by
        intro h0
        subst h0
        rw [Nat.add_zero, hv1] at hj2
        cases hj2
      have hnp : np1 ≤ np + 1 := by
        rcases hcase with hc | hc
        · omega
        · omega
      have hn0 : s0.numBufs = s.numBufs := hro.1
      refine ih np1 s0 st k s1 (by rw [hn0]; exact hn) ⟨j - 1, by rw [hn0]; omega, ?_⟩ h
      rw [(refOnly_fields hro _).1, hch, hn0]
      have hidx : ((s.clockHand + 1) % s.numBufs + 1 + (j - 1)) % s.numBufs
          = (s.clockHand + 1 + j) % s.numBufs := by
        have : (s.clockHand + 1) % s.numBufs + 1 + (j - 1)
            = (s.clockHand + 1) % s.numBufs + j := by omega
        rw [this, Nat.mod_add_mod]
      rw [hidx]
      exact hj2

/-- With the representation invariant, an invalid frame somewhere in the pool and
every dirty resident page writable, `allocBuf` returns `OK`; the storage is the
old one or the old one after the write-back of one resident page. -/
theorem allocBuf_ok_of_free (L : FileLayer σ) (H : DescOps) (frame : Nat) (s : BufMgr σ)
    (hg : Good s) (kf : Nat) (hkf : kf < s.numBufs) (hinv : (desc s kf).valid = false)
    (hwb : ∀ i, i < s.numBufs → (desc s i).valid = true → (desc s i).dirty = true →
      ∀ d b, (L.writePage d (desc s i).file (desc s i).pageNo b).1 = Status.OK) :
    ∃ k s1, allocBuf L H frame s = some (Status.OK, k, s1) ∧
      (s1.disk = s.disk ∨ ∃ i b, i < s.numBufs ∧ (desc s i).valid = true ∧
        s1.disk = (L.writePage s.disk (desc s i).file (desc s i).pageNo b).2) := by
  obtain ⟨w1, w2, w3, w4, w5⟩ := hg.1
  obtain ⟨⟨st, k, s1⟩, hr⟩ := allocBuf_returns L H frame s w1 w2
  have hne : st ≠ Status.BUFFEREXCEEDED := by
    have ha : (s.clockHand + 1) % s.numBufs < s.numBufs := Nat.mod_lt _ w1
    refine allocBufLoop_not_exceeded L H frame _ 0 s st k s1 w1 ?_ hr
    by_cases hle : (s.clockHand + 1) % s.numBufs ≤ kf
    · refine ⟨kf - (s.clockHand + 1) % s.numBufs, by omega, ?_⟩
      rw [← Nat.mod_add_mod, Nat.add_sub_cancel' hle, Nat.mod_eq_of_lt hkf]
      exact hinv
    · refine ⟨kf + s.numBufs - (s.clockHand + 1) % s.numBufs, by omega, ?_⟩
      rw [← Nat.mod_add_mod]
      have : (s.clockHand + 1) % s.numBufs + (kf + s.numBufs - (s.clockHand + 1) % s.numBufs)
          = kf + s.numBufs := by omega
      rw [this, Nat.add_mod_right, Nat.mod_eq_of_lt hkf]
      exact hinv
  obtain ⟨m, hro, hc, ho⟩ := allocBuf_outcome L H frame s hr
  have hcN : m.clockHand < s.numBufs := hc w1
  have hgm : Good m := good_refOnly hg hro hcN
  obtain ⟨f1, f2, f3, f4, f5, f6⟩ := refOnly_fields hro m.clockHand
  have hdk : m.disk = s.disk := hro.2.2.2.2.1
  cases ho with
  | free hv => exact ⟨_, _, hr, Or.inl hdk⟩
  | exceeded hv hp => exact absurd rfl hne
  | writeFailed hv hp hr0 hd hw =>
    exfalso
    apply hw
    rw [f2, f3]
    exact hwb m.clockHand hcN (f1 ▸ hv) (f6 ▸ hd) _ _
  | removeFailed hv hp hr0 hw0 hrm =>
    exfalso
    apply hrm
    rw [remove_of_mem _ _ _ (good_entry_of_valid hgm (by rw [hro.1]; exact hcN) hv)]
  | evicted hv hp hr0 hw0 heq =>
    refine ⟨_, _, hr, ?_⟩
    by_cases hd : (desc m m.clockHand).dirty = true
    · right
      refine ⟨m.clockHand, page m (desc m m.clockHand).frameNo, hcN, f1 ▸ hv, ?_⟩
      show (afterWrite L m).disk = _
      unfold afterWrite
      rw [if_pos hd]
      show (L.writePage m.disk (desc m m.clockHand).file (desc m m.clockHand).pageNo _).2 = _
      rw [f2, f3, hdk]
    · left
      show (afterWrite L m).disk = _
      unfold afterWrite
      rw [if_neg hd]
      exact hdk

/-- A `readPage` miss on which `allocBuf` and the file read succeed returns the
frame `allocBuf` chose, holding the bytes the file read delivered. -/
theorem readPage_miss_ok (L : FileLayer σ) (H : DescOps) (file : FilePtr)
    (PageNo : Int) (s : BufMgr σ) (hw : WF s)
    (hfree : ∀ e, e ∈ s.hashTable → ¬ (e.file = file ∧ e.pageNo = PageNo))
    {k : Nat} {s1 : BufMgr σ} (ha : allocBuf L H 0 s = some (Status.OK, k, s1))
    (hrd : (L.readPage s1.disk file PageNo (page s1 k)).1 = Status.OK) :
    ∃ s2, readPage L H file PageNo s = some (Status.OK, some k, s2) ∧
      page s2 k = (L.readPage s1.disk file PageNo (page s1 k)).2.1 := by
  obtain ⟨w1, w2, w3, w4, w5⟩ := hw
  obtain ⟨f1, f2, f3, f4, f5, f6, f7, f8⟩ := allocBuf_frame L H 0 s w1 ha
  obtain ⟨hk, hvk, _⟩ := f8 rfl
  have hfree1 : ∀ e, e ∈ s1.hashTable → ¬ (e.file = file ∧ e.pageNo = PageNo) :=
    fun e he => hfree e (f7 e he)
  rcases lookup_cases s.hashTable file PageNo 0 with ⟨e, he, hf, hp, _⟩ | ⟨_, hl⟩
  · exact absurd ⟨hf, hp⟩ (hfree e he)
  · unfold readPage
    simp only [hl, reduceCtorEq, if_false, if_true, ha, ne_eq, not_true_eq_false, hrd,
      insert_of_free _ _ _ k hfree1]
    refine ⟨_, rfl, ?_⟩
    show (s1.bufPool.set k _).getD k 0 = _
    exact page_set_self _ _ _ (by rw [f2, w3]; exact hk)

/-- An `allocPage` that returns `OK` with page number `n` and frame `k` leaves the
hash entry `(file, n) -> k`. -/
theorem allocPage_ok_entry (L : FileLayer σ) (H : DescOps) (file : FilePtr) (pageNo : Int)
    (s : BufMgr σ) {n : Int} {k : Nat} {s1 : BufMgr σ}
    (h : allocPage L H file pageNo s = some (Status.OK, n, some k, s1)) :
    (⟨file, n, k⟩ : HashEntry) ∈ s1.hashTable := by
  unfold allocPage at h
  simp only at h
  split at h
  · simp only [Option.some.injEq, Prod.mk.injEq, reduceCtorEq, false_and] at h
  · cases ha : allocBuf L H 0 { s with disk := (L.allocatePage s.disk file pageNo).2.2,
                                       trace := s.trace ++ [Event.fileAllocate file] } with
    | none => rw [ha] at h; cases h
    | some r =>
      obtain ⟨st1, k1, s2⟩ := r
      rw [ha] at h
      simp only at h
      split at h
      · simp only [Option.some.injEq, Prod.mk.injEq, reduceCtorEq, false_and, and_false] at h
      · rcases insert_cases s2.hashTable file (L.allocatePage s.disk file pageNo).2.1 k1 with
          ⟨_, hi⟩ | ⟨_, hi⟩
        · simp only [hi, ne_eq, reduceCtorEq, not_false_eq_true, if_true, Option.some.injEq,
            Prod.mk.injEq, false_and] at h
        · simp only [hi, ne_eq, not_true_eq_false, if_false, Option.some.injEq,
            Prod.mk.injEq, true_and] at h
          obtain ⟨rfl, rfl, rfl⟩ := h
          exact List.mem_cons_self _ _

/-- When a pass of the flush loop goes on to status `OK`, it did not stop at the
frame it visited: the frame was not a pinned page of the file, not a stale frame
of the file, and its write-back, if any, succeeded. -/
theorem flushFileLoop_ok_conds (L : FileLayer σ) (file : FilePtr) (n i : Nat) (s : BufMgr σ)
    (hok : (flushFileLoop L file (n + 1) i s).1 = Status.OK) :
    ¬ ((desc s i).valid = true ∧ (desc s i).file = file ∧ (desc s i).pinCnt > 0) ∧
    ¬ ((desc s i).valid = false ∧ (desc s i).file = file) ∧
    ((desc s i).valid = true → (desc s i).file = file → (desc s i).dirty = true →
      (L.writePage s.disk (desc s i).file (desc s i).pageNo (page s i)).1 = Status.OK) := by
  rw [flushFileLoop] at hok
  simp only at hok
  refine ⟨?_, ?_, ?_⟩
  · rintro ⟨hv, hf, hp⟩
    rw [if_pos ⟨hv, hf⟩, if_pos hp] at hok
    cases hok
  · rintro ⟨hv, hf⟩
    rw [if_neg (by rw [hv]; simp), if_pos ⟨hv, hf⟩] at hok
    cases hok
  · intro hv hf hd
    rw [if_pos ⟨hv, hf⟩] at hok
    by_cases hp : (desc s i).pinCnt > 0
    · rw [if_pos hp] at hok
      cases hok
    · rw [if_neg hp, if_pos hd] at hok
      by_contra hne
      rw [if_pos hne] at hok
      exact hne hok

/-- A flush that returns `OK` and writes no page numbered `p` leaves the stored
bytes of page `p` of the file alone. -/
theorem flushFileLoop_keeps_bytes (L : FileLayer σ) (bytes : σ → FilePtr → Int → Option Page)
    (hs : IsPageStore L bytes) (file : FilePtr) (p : Int) (b : Page) (n : Nat) :
    ∀ (i : Nat) (s : BufMgr σ), i + n ≤ s.bufTable.length →
      (flushFileLoop L file n i s).1 = Status.OK →
      (∀ j, i ≤ j → j < i + n → owned file (desc s j) = true → (desc s j).pageNo ≠ p) →
      bytes s.disk file p = some b →
      bytes (flushFileLoop L file n i s).2.disk file p = some b := by
  induction n with
  | zero => intro i s _ _ _ hb; exact hb
  | succ n ih =>
    intro i s hl hok hdist hb
    obtain ⟨c1, c2, c3⟩ := flushFileLoop_ok_conds L file n i s hok
    obtain ⟨s1, t, he, hd1, _, _, hdisk, hpool, hnum, hhand, hlen, _, _⟩ :=
      flushFileLoop_advance L file n i s (by omega) c1 c2 c3
    rw [he] at hok ⊢
    refine ih (i + 1) s1 (by rw [hlen]; omega) hok ?_ ?_
    · intro j h1 h2 ho
      rw [hd1 j, if_neg (fun h => by omega)] at ho ⊢
      exact hdist j (by omega) (by omega) ho
    · rw [hdisk]
      split
      · rename_i hc
        rw [hs.write_other _ _ _ _ _ _
          (fun h => hdist i (le_refl _) (by omega) hc.1 h.2.symm)]
        exact hb
      · exact hb

/-- A flush that returns `OK` and meets frame `k` holding a dirty page `p` of the
file with bytes `b` leaves `b` as the stored bytes of page `p`. -/
theorem flushFileLoop_writes_bytes (L : FileLayer σ)
    (bytes : σ → FilePtr → Int → Option Page) (hs : IsPageStore L bytes) (file : FilePtr)
    (p : Int) (b : Page) (k : Nat) (n : Nat) :
    ∀ (i : Nat) (s : BufMgr σ), i + n ≤ s.bufTable.length →
      (flushFileLoop L file n i s).1 = Status.OK → i ≤ k → k < i + n →
      (desc s k).valid = true → (desc s k).file = file → (desc s k).pageNo = p →
      (desc s k).dirty = true → page s k = b →
      (∀ j, i ≤ j → j < i + n → j ≠ k → owned file (desc s j) = true →
        (desc s j).pageNo ≠ p) →
      bytes (flushFileLoop L file n i s).2.disk file p = some b := by
  induction n with
  | zero => intro i s _ _ h1 h2; omega
  | succ n ih =>
    intro i s hl hok hik hkn hv hf hp hd hb hdist
    obtain ⟨c1, c2, c3⟩ := flushFileLoop_ok_conds L file n i s hok
    obtain ⟨s1, t, he, hd1, _, _, hdisk, hpool, hnum, hhand, hlen, _, _⟩ :=
      flushFileLoop_advance L file n i s (by omega) c1 c2 c3
    rw [he] at hok ⊢
    by_cases hik2 : i = k
    · subst hik2
      have hown : owned file (desc s i) = true := (owned_iff _ _).2 ⟨hv, hf⟩
      have hw := c3 hv hf hd
      rw [hf, hp, hb] at hw
      rw [if_pos ⟨hown, hd⟩, hp, hb] at hdisk
      refine flushFileLoop_keeps_bytes L bytes hs file p b n (i + 1) s1
        (by rw [hlen]; omega) hok ?_ ?_
      · intro j h1 h2 ho
        rw [hd1 j, if_neg (fun h => by omega)] at ho ⊢
        exact hdist j (by omega) (by omega) (by omega) ho
      · rw [hdisk]
        exact hs.write_ok _ _ _ _ hw
    · have hdk : desc s1 k = desc s k := by
        rw [hd1 k, if_neg (fun h => hik2 h.1.symm)]
      refine ih (i + 1) s1 (by rw [hlen]; omega) hok (by omega) (by omega)
        (by rw [hdk]; exact hv) (by rw [hdk]; exact hf) (by rw [hdk]; exact hp)
        (by rw [hdk]; exact hd) ?_ ?_
      · show s1.bufPool.getD k 0 = b
        rw [hpool]
        exact hb
      · intro j h1 h2 h3 ho
        rw [hd1 j, if_neg (fun h => by omega)] at ho ⊢
        exact hdist j (by omega) (by omega) h3 ho

/-- An `allocPage` that returns `OK` with frame `k` keeps the pool size and, in
every other frame, what the frame holds and whether it is dirty. -/
theorem allocPage_other (L : FileLayer σ) (H : DescOps) (file : FilePtr) (pageNo : Int)
    (s : BufMgr σ) {n : Int} {k : Nat} {s1 : BufMgr σ}
    (h : allocPage L H file pageNo s = some (Status.OK, n, some k, s1)) :
    s1.numBufs = s.numBufs ∧
    ∀ i, i ≠ k → (desc s1 i).valid = (desc s i).valid ∧ (desc s1 i).dirty = (desc s i).dirty ∧
      (desc s1 i).file = (desc s i).file ∧ (desc s1 i).pageNo = (desc s i).pageNo := by
  unfold allocPage at h
  simp only at h
  split at h
  · simp only [Option.some.injEq, Prod.mk.injEq, reduceCtorEq, false_and] at h
  · cases ha : allocBuf L H 0 { s with disk := (L.allocatePage s.disk file pageNo).2.2,
                                       trace := s.trace ++ [Event.fileAllocate file] } with
    | none => rw [ha] at h; cases h
    | some r =>
      obtain ⟨st1, k1, s2⟩ := r
      rw [ha] at h
      simp only at h
      split at h
      · simp only [Option.some.injEq, Prod.mk.injEq, reduceCtorEq, false_and, and_false] at h
      · rename_i hst
        have hst1 : st1 = Status.OK := by simpa using hst
        subst hst1
        obtain ⟨m, hro, _, ho⟩ := allocBuf_outcome L H 0 _ ha
        obtain ⟨a1, _⟩ := allocOutcome_static L H 0 ho
        have hother : ∀ i, i ≠ k1 → desc s2 i = desc m i := by
          intro i hi
          rcases (allocOutcome_ok L H 0 ho).2 with ⟨_, hsm⟩ | ⟨hv, _, _⟩
          · rw [hsm]
          · exact (allocOutcome_victim L H 0 ho hv).2.2 i hi
        rcases insert_cases s2.hashTable file (L.allocatePage s.disk file pageNo).2.1 k1 with
          ⟨_, hi⟩ | ⟨_, hi⟩
        · simp only [hi, ne_eq, reduceCtorEq, not_false_eq_true, if_true, Option.some.injEq,
            Prod.mk.injEq, false_and] at h
        · simp only [hi, ne_eq, not_true_eq_false, if_false, Option.some.injEq,
            Prod.mk.injEq, true_and] at h
          obtain ⟨rfl, rfl, hs1⟩ := h
          have hb : s1.bufTable = s2.bufTable.set k1
              ((desc s2 k1).Set H file (L.allocatePage s.disk file pageNo).2.1) := by
            rw [← hs1]
            rfl
          have hn : s1.numBufs = s2.numBufs := by
            rw [← hs1]
            rfl
          refine ⟨hn.trans (a1.trans hro.1), ?_⟩
          intro i hik
          obtain ⟨f1, f2, f3, _, _, f6⟩ := refOnly_fields hro i
          rw [desc_of_set hb, if_neg (fun h => hik h.1.symm), hother i hik]
          exact ⟨f1, f6, f2, f3⟩

/-- An `unPinPage(file, pageNo, true)` that returns `OK` found a hash entry for the
key and left the frame it names dirty. -/
theorem unPinPage_ok_dirty (file : FilePtr) (pageNo : Int) (s s1 : BufMgr σ)
    (hg : Good s) (h : unPinPage file pageNo true s = (Status.OK, s1)) :
    ∃ e, e ∈ s.hashTable ∧ e.file = file ∧ e.pageNo = pageNo ∧
      (desc s1 e.frameNo).dirty = true ∧ ∀ i, i ≠ e.frameNo → desc s1 i = desc s i := by
  unfold unPinPage at h
  rcases lookup_cases s.hashTable file pageNo 0 with ⟨e, he, hf, hp, hl⟩ | ⟨_, hl⟩
  · refine ⟨e, he, hf, hp, ?_⟩
    obtain ⟨e1, e2, _, _⟩ := good_frame_of_entry hg he
    simp only [hl, ne_eq, not_true_eq_false, if_false, if_true] at h
    split at h
    · cases h
    · simp only [Prod.mk.injEq, true_and] at h
      rw [← h]
      refine ⟨?_, fun i hi => desc_setDesc_ne _ _ _ _ (fun h => hi h.symm)⟩
      rw [desc_setDesc_self _ _ _ (desc_valid_lt e2)]
  · simp only [hl, ne_eq, reduceCtorEq, not_false_eq_true, if_true, Prod.mk.injEq,
      false_and] at h

/-- C15 (as amended): written bytes survive a flush round trip.  Over a file
layer that is a page store, from a state `s` that satisfies the representation
invariant: if `allocPage(file)` returns `OK` with page number `n` and frame `k`,
the caller stores `b` in frame `k`, `unPinPage(file, n, true)` returns `OK` and
`flushFile(file)` returns `OK`, leaving state `s4`, and if every page that was
resident and dirty in `s` can be written back (none is, in the constructor's
state), then `readPage(file, n)` from `s4` returns `OK` with a frame whose bytes
are `b`. -/
theorem flush_round_trip_keeps_bytes (L : FileLayer σ) (H : DescOps)
    (bytes : σ → FilePtr → Int → Option Page) (hs : IsPageStore L bytes)
    (file : FilePtr) (pn0 : Int) (b : Page) (s s1 s3 s4 : BufMgr σ) (n : Int) (k : Nat)
    (hg : Good s)
    (h1 : allocPage L H file pn0 s = some (Status.OK, n, some k, s1))
    (h3 : unPinPage file n true (writeBytes k b s1) = (Status.OK, s3))
    (h4 : flushFile L file s3 = (Status.OK, s4))
    (hwb : ∀ i, i < s.numBufs → (desc s i).valid = true → (desc s i).dirty = true →
      ∀ d c, (L.writePage d (desc s i).file (desc s i).pageNo c).1 = Status.OK) :
    ∃ k1 s5, readPage L H file n s4 = some (Status.OK, some k1, s5) ∧ page s5 k1 = b := by
  -- after allocPage
  have hg1 : Good s1 := allocPage_good L H file pn0 hg h1
  have hent : (⟨file, n, k⟩ : HashEntry) ∈ s1.hashTable := allocPage_ok_entry L H file pn0 s h1
  obtain ⟨hk1, _, _, _⟩ := good_frame_of_entry hg1 hent
  have hk1 : k < s1.numBufs := hk1
  -- after the caller's store
  have hg2 : Good (writeBytes k b s1) := writeBytes_good k b hg1
  have hpage2 : page (writeBytes k b s1) k = b :=
    page_set_self _ _ _ (by rw [hg1.1.2.2.1]; exact hk1)
  -- after unPinPage
  have hg3 : Good s3 := by
    have := unPinPage_good file n true hg2
    rw [h3] at this
    exact this
  obtain ⟨u1, _, _, _, u5, _, u7, u8⟩ := unPinPage_static file n true (writeBytes k b s1)
  rw [h3] at u1 u5 u7 u8
  have u1 : s3.numBufs = s1.numBufs := u1
  have hk3 : k < s3.numBufs := by rw [u1]; exact hk1
  obtain ⟨e, he, hef, hep, hed, heo⟩ := unPinPage_ok_dirty file n _ s3 hg2 h3
  have hee : e = ⟨file, n, k⟩ :=
    keysDistinct_eq ((hashInv_iff_linked s1).1 hg1.2).2.2 he hent hef hep
  rw [hee] at hed heo
  have hd3 : (desc s3 k).dirty = true := hed
  have ho3 : ∀ i, i ≠ k → desc s3 i = desc s1 i := heo
  obtain ⟨hn1, ho1⟩ := allocPage_other L H file pn0 s h1
  have hent3 : (⟨file, n, k⟩ : HashEntry) ∈ s3.hashTable := by rw [u5]; exact hent
  obtain ⟨_, hv3, hf3, hp3⟩ := good_frame_of_entry hg3 hent3
  have hv3 : (desc s3 k).valid = true := hv3
  have hf3 : (desc s3 k).file = file := hf3
  have hp3 : (desc s3 k).pageNo = n := hp3
  have hpage3 : page s3 k = b := by
    show s3.bufPool.getD k 0 = b
    rw [u7]
    exact hpage2
  -- after flushFile
  have hl3 : s3.bufTable.length = s3.numBufs := hg3.1.2.1
  have hok : (flushFileLoop L file s3.numBufs 0 s3).1 = Status.OK := by
    have := congrArg Prod.fst h4
    exact this
  have hs4 : s4 = (flushFileLoop L file s3.numBufs 0 s3).2 := (congrArg Prod.snd h4).symm
  have hg4 : Good s4 := by
    have := flushFile_good L file hg3
    rw [h4] at this
    exact this
  obtain ⟨t, fd, _, _, _, _, fn, _, _, _⟩ :=
    flushFileLoop_ok L file s3.numBufs 0 s3 (by omega) hok
  rw [← hs4] at fd fn
  have hbytes4 : bytes s4.disk file n = some b := by
    rw [hs4]
    refine flushFileLoop_writes_bytes L bytes hs file n b k s3.numBufs 0 s3 (by omega) hok
      (Nat.zero_le _) (by omega) hv3 hf3 hp3 hd3 hpage3 ?_
    intro j _ hj hjk ho hpj
    obtain ⟨hvj, hfj⟩ := (owned_iff _ _).1 ho
    exact hjk (hg3.2.2.2 j (by omega) k hk3 hvj hv3 ⟨hfj.trans hf3.symm, hpj.trans hp3.symm⟩)
  have hfree4 : ∀ e, e ∈ s4.hashTable → ¬ (e.file = file ∧ e.pageNo = n) := by
    intro e he hkey
    obtain ⟨q1, q2, q3, _⟩ := good_frame_of_entry hg4 he
    rw [fd e.frameNo] at q2 q3
    by_cases ho : owned file (desc s3 e.frameNo) = true
    · rw [if_pos ⟨Nat.zero_le _, by rw [fn] at q1; omega, ho⟩] at q2
      cases q2
    · rw [if_neg (fun h => ho h.2.2)] at q2 q3
      exact ho ((owned_iff _ _).2 ⟨q2, q3.trans hkey.1⟩)
  have hinv4 : (desc s4 k).valid = false := by
    rw [fd k, if_pos ⟨Nat.zero_le _, by omega, (owned_iff _ _).2 ⟨hv3, hf3⟩⟩]
    rfl
  have hwb4 : ∀ i, i < s4.numBufs → (desc s4 i).valid = true → (desc s4 i).dirty = true →
      ∀ d c, (L.writePage d (desc s4 i).file (desc s4 i).pageNo c).1 = Status.OK := by
    intro i hi hv hd
    have hik : i ≠ k := by
      intro h
      rw [h, hinv4] at hv
      cases hv
    have h43 : desc s4 i = desc s3 i := by
      rw [fd i]
      split
      · rename_i hc
        rw [fd i, if_pos hc] at hv
        cases hv
      · rfl
    obtain ⟨o1, o2, o3, o4⟩ := ho1 i hik
    rw [h43, ho3 i hik] at hv hd ⊢
    rw [o3, o4]
    exact hwb i (by rw [fn, u1, hn1] at hi; exact hi) (o1 ▸ hv) (o2 ▸ hd)
  -- the final readPage
  obtain ⟨k1, s5, ha, hdisk⟩ :=
    allocBuf_ok_of_free L H 0 s4 hg4 k (by rw [fn]; exact hk3) hinv4 hwb4
  have hbytes5 : bytes s5.disk file n = some b := by
    rcases hdisk with hd | ⟨i, c, hi, hvi, hd⟩
    · rw [hd]
      exact hbytes4
    · rw [hd, hs.write_other _ _ _ _ _ _ ?_]
      · exact hbytes4
      · intro hkey
        obtain ⟨e, he, hef, hep⟩ := good_entry_of_valid hg4 hi hvi
        exact hfree4 e he ⟨hef.trans hkey.1.symm, hep.trans hkey.2.symm⟩
  obtain ⟨r1, r2⟩ := hs.read_written s5.disk file n (page s5 k1) b hbytes5
  obtain ⟨s6, hr, hpg⟩ := readPage_miss_ok L H file n s4 hg4.1 hfree4 ha r1
  exact ⟨k1, s6, hr, hpg.trans r2⟩

theorem storeLayer_isPageStore (ro : FilePtr → Bool) :
    IsPageStore (storeLayer ro) storeBytes := by
  refine ⟨?_, ?_, ?_⟩
  · intro d file n pg b hb
    simp [storeLayer, hb]
  · intro d file n b hw
    by_cases hro : ro file = true
    · simp [storeLayer, hro] at hw
    · simp [storeLayer, hro, storeBytes, List.find?]
  · intro d file n b file1 n1 hne
    by_cases hro : ro file = true
    · simp [storeLayer, hro]
    · have hk : ((file == file1) && (n == n1)) = false := by
        rw [Bool.and_eq_false_iff]
        by_cases hf : file = file1
        · right
          simpa using fun h => hne ⟨hf.symm, h.symm⟩
        · left
          simpa using hf
      simp [storeLayer, hro, storeBytes, List.find?, hk]

theorem exBlocked_reachable : Reachable (storeLayer readOnly2) stdOps exBlocked := by
  have h1 : Reachable (storeLayer readOnly2) stdOps
      (unPinPage 2 0 true
        { numBufs := 2
          bufTable := [⟨2, 0, 0, 1, false, true, true⟩, ⟨NULL, 0, 1, 0, false, false, false⟩]
          bufPool := [0, 0]
          hashTable := [⟨2, 0, 0⟩]
          clockHand := 0
          bufStats := ⟨1, 1, 0⟩
          disk := []
          trace := [Event.fileRead 2 0, Event.hashInsert 2 0 0] }).2 :=
    Reachable.unPinPage 2 0 true
      (Reachable.readPage 2 0 (Reachable.init 2 [] (by decide))
        (show readPage (storeLayer readOnly2) stdOps 2 0 (BufMgr.new 2 []) =
          some (Status.OK, some 0, _) from rfl))
  have h2 : Reachable (storeLayer readOnly2) stdOps
      { numBufs := 2
        bufTable := [⟨2, 0, 0, 0, true, true, true⟩, ⟨2, 1, 1, 1, false, true, true⟩]
        bufPool := [0, 0]
        hashTable := [⟨2, 1, 1⟩, ⟨2, 0, 0⟩]
        clockHand := 1
        bufStats := ⟨2, 2, 0⟩
        disk := []
        trace := [Event.fileRead 2 0, Event.hashInsert 2 0 0, Event.fileRead 2 1,
                  Event.hashInsert 2 1 1] } :=
    Reachable.readPage 2 1 h1
      (show readPage (storeLayer readOnly2) stdOps 2 1 _ = some (Status.OK, some 1, _) from rfl)
  have h3 : Reachable (storeLayer readOnly2) stdOps
      { numBufs := 2
        bufTable := [⟨2, 0, 0, 0, true, true, false⟩, ⟨2, 1, 1, 1, false, true, true⟩]
        bufPool := [0, 0]
        hashTable := [⟨2, 1, 1⟩, ⟨2, 0, 0⟩]
        clockHand := 0
        bufStats := ⟨2, 2, 0⟩
        disk := []
        trace := [Event.fileRead 2 0, Event.hashInsert 2 0 0, Event.fileRead 2 1,
                  Event.hashInsert 2 1 1, Event.fileWrite 2 0 0] } :=
    Reachable.readPage 2 2 h2
      (show readPage (storeLayer readOnly2) stdOps 2 2 _ = some (Status.UNIXERR, none, _)
        from rfl)
  exact Reachable.disposePage 2 1 h3

/-- The round trip on a new manager of two frames, over a store in which file 2
is read-only: page 7 of file 1 is allocated into frame 0, 42 is stored and
flushed, and `readPage(1, 7)` brings 42 back. -/
theorem flush_round_trip_keeps_bytes_witness :
    (allocPage (storeLayer readOnly2) stdOps 1 0 (BufMgr.new 2 [])
        = some (Status.OK, 7, some 0, exRound) ∧
     unPinPage 1 7 true (writeBytes 0 42 exRound) = (Status.OK, exRoundDirty) ∧
     flushFile (storeLayer readOnly2) 1 exRoundDirty = (Status.OK, exRoundFlushed)) ∧
    ∃ k1 s5, readPage (storeLayer readOnly2) stdOps 1 7 exRoundFlushed
        = some (Status.OK, some k1, s5) ∧ page s5 k1 = 42 :=
  ⟨⟨rfl, rfl, rfl⟩,
    flush_round_trip_keeps_bytes (storeLayer readOnly2) stdOps storeBytes
      (storeLayer_isPageStore readOnly2) 1 0 42 (BufMgr.new 2 []) exRound exRoundDirty
      exRoundFlushed 7 0 (new_good 2 [] (by decide)) rfl rfl rfl
      (fun i hi hv _ => by
        exfalso
        revert hv
        revert i
        decide)⟩

/-- C15 as written, for every state of the pool, fails when the final `readPage`
has to evict a dirty page that cannot be written back.  `exBlocked` is reachable
over a page store in which file 2 is read-only; from it `allocPage(1)` returns
`OK` with page 7 and frame 1, the caller stores 42, `unPinPage(1, 7, true)` and
`flushFile(1)` return `OK` and the store holds 42 for page 7; but
`readPage(1, 7)` then advances the clock to frame 0, whose dirty page of file 2
fails to be written back, and returns `UNIXERR`. -/
theorem flush_round_trip_blocked_by_writeback :
    IsPageStore (storeLayer readOnly2) storeBytes ∧
    Reachable (storeLayer readOnly2) stdOps exBlocked ∧
    allocPage (storeLayer readOnly2) stdOps 1 0 exBlocked
      = some (Status.OK, 7, some 1, exBlockedAlloc) ∧
    unPinPage 1 7 true (writeBytes 1 42 exBlockedAlloc) = (Status.OK, exBlockedDirty) ∧
    flushFile (storeLayer readOnly2) 1 exBlockedDirty = (Status.OK, exBlockedFlushed) ∧
    storeBytes exBlockedFlushed.disk 1 7 = some 42 ∧
    readPage (storeLayer readOnly2) stdOps 1 7 exBlockedFlushed
      = some (Status.UNIXERR, none,
          { exBlockedFlushed with
            clockHand := 0
            trace := exBlockedFlushed.trace ++ [Event.fileWrite 2 0 0] }) ∧
    ¬ (∀ (s s1 s3 s4 : BufMgr PageStore) (n : Int) (k : Nat) (b : Page),
        Reachable (storeLayer readOnly2) stdOps s →
        allocPage (storeLayer readOnly2) stdOps 1 0 s = some (Status.OK, n, some k, s1) →
        unPinPage 1 n true (writeBytes k b s1) = (Status.OK, s3) →
        flushFile (storeLayer readOnly2) 1 s3 = (Status.OK, s4) →
        ∃ k1 s5, readPage (storeLayer readOnly2) stdOps 1 n s4
          = some (Status.OK, some k1, s5) ∧ page s5 k1 = b) := by
  refine ⟨storeLayer_isPageStore readOnly2, exBlocked_reachable, rfl, rfl, rfl, rfl, rfl, ?_⟩
  intro h
  obtain ⟨k1, s5, hr, _⟩ := h exBlocked exBlockedAlloc exBlockedDirty exBlockedFlushed 7 1 42
    exBlocked_reachable rfl rfl rfl
  have h2 : readPage (storeLayer readOnly2) stdOps 1 7 exBlockedFlushed
      = some (Status.UNIXERR, none,
          { exBlockedFlushed with
            clockHand := 0
            trace := exBlockedFlushed.trace ++ [Event.fileWrite 2 0 0] }) := rfl
  rw [h2] at hr
  injection hr with hr
  injection hr with hr _
  cases hr

end BufMgr
